import Mathlib

/-!
Verification development for the word-search grid generator of the
`word-search-matrix` repository.

The main generator (`src/utils/MultiWordMatrixGenerator.js`, function
`generateWordSearchGrid`) is embedded shallowly below: the mutable grid and
search bookkeeping become explicit state records threaded through pure
functions, JavaScript 32-bit integer arithmetic becomes `Nat` arithmetic
modulo `2^32`, and `Math.random` becomes an explicit oracle stream of
rationals in `[0, 1)` (the subtype `U01`, reflecting the ECMA contract of
`Math.random`).  The "free" generator (`generateFreeWordSearchGrid`) is
embedded separately.  Progress callbacks cannot mutate generator state, so
the embedding always collects the would-be-reported fractions in a trace;
delivery to a caller-supplied callback is the trace itself when a callback
is present and empty otherwise.
-/

namespace WordSearch

/-! ## Basic data: strings, cells, grids -/

/-- JavaScript strings are modelled as lists of characters. -/
abbrev Str := List Char

/-- A grid cell: `none` is the JS `null` (empty), `some ch` a placed letter. -/
abbrev Cell := Option Char

/-- The mutable 2-D array `grid` of the source, as a list of rows. -/
abbrev Grid := List (List Cell)

/-- Read `grid[r][c]`; out-of-bounds reads give `none` (never performed by
the embedded code on well-shaped grids). -/
def gridGet (g : Grid) (r c : Nat) : Cell := (g.getD r []).getD c none

/-- Write `grid[r][c] = v`; out-of-bounds writes are dropped. -/
def gridSet (g : Grid) (r c : Nat) (v : Cell) : Grid :=
  g.set r ((g.getD r []).set c v)

/-- The grid has `H` rows of `W` cells each. -/
def GridShape (W H : Nat) (g : Grid) : Prop :=
  g.length = H ∧ ∀ row ∈ g, row.length = W

/-! ## The seedable RNG (`makeRNG` / `xmur3` / `mulberry32`)

JS 32-bit bit operations are modelled on `Nat` modulo `2^32`; the bit
pattern of a JS signed 32-bit value equals its value modulo `2^32`, so
`Math.imul`, `^`, `|`, `>>>` and `<<` translate directly. -/

/-- A rational in `[0, 1)`: the value set of `Math.random` and of the
mulberry32 output. -/
def U01 := {q : ℚ // 0 ≤ q ∧ q < 1}

instance : Inhabited U01 := ⟨⟨0, le_refl 0, by norm_num⟩⟩

/-- Truncate to an unsigned 32-bit value (`>>> 0` / ToUint32). -/
def to32 (n : Nat) : Nat := n % 4294967296

/-- `Math.imul`: the low 32 bits of the product. -/
def imul (a b : Nat) : Nat := to32 (a * b)

/-- `(h << k) | (h >>> (32 - k))`: rotate a 32-bit value left by `k`. -/
def rotl32 (h k : Nat) : Nat := to32 (h <<< k) ||| (h >>> (32 - k))

/-- Divide a 32-bit value by `2^32`, giving an element of `[0, 1)`. -/
def mkU01 (t : Nat) : U01 :=
  ⟨(to32 t : ℚ) / 4294967296, by
    constructor
    · positivity
    · rw [div_lt_one (by norm_num)]
      have h : to32 t < 4294967296 := Nat.mod_lt _ (by norm_num)
      exact_mod_cast h⟩

/-- One step of mulberry32: the new state and the raw 32-bit output. -/
def mulberryNext (a : Nat) : Nat × Nat :=
  let a' := to32 (a + 1831565813)
  let t1 := imul (a' ^^^ (a' >>> 15)) (a' ||| 1)
  let t2 := t1 ^^^ to32 (t1 + imul (t1 ^^^ (t1 >>> 7)) (t1 ||| 61))
  (a', t2 ^^^ (t2 >>> 14))

/-- The `xmur3` string hash, including the single invocation of the returned
finalizer performed by `makeRNG`.  `charCodeAt` is `Char.toNat` (exact for
the Basic Multilingual Plane). -/
def xmur3Hash (s : Str) : Nat :=
  let h0 := to32 (1779033703 ^^^ s.length)
  let h1 := s.foldl (fun h ch => rotl32 (imul (h ^^^ to32 ch.toNat) 3432918353) 13) h0
  let h2 := imul (h1 ^^^ (h1 >>> 16)) 2246822507
  let h3 := imul (h2 ^^^ (h2 >>> 13)) 3266489909
  to32 (h3 ^^^ (h3 >>> 16))

/-- A seed for `makeRNG`: a JS number (modelled as a natural) or string. -/
inductive Seed
  | num (n : Nat)
  | str (s : Str)
deriving DecidableEq

/-- RNG state: `ext f i` is the unseeded `Math.random` source (oracle stream
`f`, cursor `i`); `mul a` is a seeded mulberry32 state. -/
inductive RngState
  | ext (f : Nat → U01) (i : Nat)
  | mul (a : Nat)

/-- Draw the next value in `[0, 1)`. -/
def RngState.next : RngState → U01 × RngState
  | .ext f i => (f i, .ext f (i + 1))
  | .mul a =>
    let (a', t) := mulberryNext a
    (mkU01 t, .mul a')

/-- `makeRNG`: seeded seeds initialise mulberry32 (numbers via `>>> 0`,
strings via `xmur3`); absent seeds use the `Math.random` oracle. -/
def makeRNG (seed : Option Seed) (ext : Nat → U01) : RngState :=
  match seed with
  | none => .ext ext 0
  | some (.num n) => .mul (to32 n)
  | some (.str s) => .mul (xmur3Hash s)

/-- `Math.floor` of a nonnegative rational, as a natural. -/
def jsFloorNat (q : ℚ) : Nat := (Int.floor q).toNat

/-- `randomChoice(arr)`: `arr[Math.floor(rand() * arr.length)]`. -/
def randomChoice {α} [Inhabited α] (l : List α) (rng : RngState) : α × RngState :=
  let (r, rng') := rng.next
  (l.getD (jsFloorNat (r.val * l.length)) default, rng')

/-- Swap positions `i` and `j` of a list (the destructuring swap of
`shuffleInPlace`). -/
def swapL {α} [Inhabited α] (l : List α) (i j : Nat) : List α :=
  let ai := l.getD i default
  let aj := l.getD j default
  (l.set i aj).set j ai

/-- The Fisher–Yates loop of `shuffleInPlace`, with `i` counting down. -/
def shuffleGo {α} [Inhabited α] (l : List α) (rng : RngState) : Nat → List α × RngState
  | 0 => (l, rng)
  | i + 1 =>
    shuffleGo (swapL l (i + 1) (jsFloorNat ((rng.next.1).val * ((i + 2 : Nat) : ℚ))))
      rng.next.2 i

/-- `shuffleInPlace` applied to a fresh copy of `l`. -/
def shuffleList {α} [Inhabited α] (l : List α) (rng : RngState) : List α × RngState :=
  shuffleGo l rng (l.length - 1)

/-! ## Stable sorting

`Array.prototype.sort` is stable (ES2019); each use in the source passes a
comparator realising a total preorder, so any stable sort yields the same
list.  We use a stable insertion sort: `le y x` means "`y` may stay before
`x`", i.e. the JS comparator returns `≤ 0` on `(y, x)`. -/

def insertLe {α} (le : α → α → Bool) (x : α) : List α → List α
  | [] => [x]
  | y :: ys => if le y x then y :: insertLe le x ys else x :: y :: ys

def stableSort {α} (le : α → α → Bool) (l : List α) : List α :=
  l.foldl (fun acc x => insertLe le x acc) []

/-! ## Validation and normalization -/

/-- Whitespace removed by `String.prototype.trim` (common cases). -/
def isJsSpace (c : Char) : Bool :=
  c = ' ' || c = '\t' || c = '\n' || c = '\r'

/-- `trim()`. -/
def trimStr (s : Str) : Str :=
  ((s.dropWhile isJsSpace).reverse.dropWhile isJsSpace).reverse

/-- `String(w).trim().toUpperCase()` (upper-casing characterwise). -/
def normWord (s : Str) : Str := (trimStr s).map Char.toUpper

/-- `words.map(w => String(w).trim().toUpperCase()).filter(w => w.length > 0)`. -/
def cleanWordsOf (words : List Str) : List Str :=
  (words.map normWord).filter (fun w => !w.isEmpty)

/-- Append `c` if not already present (JS `Set.add`, insertion order). -/
def insertUnique (l : List Char) (c : Char) : List Char :=
  if c ∈ l then l else l ++ [c]

/-- `normalizeAndExpandLetters`: single-character caller letters (upper-cased)
followed by every letter of every word, deduplicated, in insertion order. -/
def normalizeAndExpandLetters (lettersArr : List Str) (wordsArr : List Str) : List Char :=
  let s1 := lettersArr.foldl
    (fun s t =>
      match t.map Char.toUpper with
      | [c] => insertUnique s c
      | _ => s) []
  wordsArr.foldl (fun s w => w.foldl insertUnique s) s1

/-- First-occurrence deduplication of a word list (`new Set(cleanWords)`
iterated in insertion order). -/
def dedupKeepFirst (l : List Str) : List Str :=
  l.foldl (fun acc w => if w ∈ acc then acc else acc ++ [w]) []

/-- First-occurrence deduplication of naturals (the keys of `wordsByLen`). -/
def dedupNat (l : List Nat) : List Nat :=
  l.foldl (fun acc n => if n ∈ acc then acc else acc ++ [n]) []

/-! ## Occurrence counting (`countOccurrencesStrictForWord`) -/

/-- `word[k]` (total; all uses are in-bounds). -/
def wchar (w : Str) (k : Nat) : Char := w.getD k 'A'

/-- The horizontal window starting at `(r, s)` matches `w` exactly
(a `null` cell breaks the match). -/
def hMatch (g : Grid) (w : Str) (r s : Nat) : Bool :=
  (List.range w.length).all fun k => gridGet g r (s + k) == some (wchar w k)

/-- The vertical window starting at `(s, c)` matches `w` exactly. -/
def vMatch (g : Grid) (w : Str) (s c : Nat) : Bool :=
  (List.range w.length).all fun k => gridGet g (s + k) c == some (wchar w k)

/-- Horizontal occurrences of `w`: rows `0..H-1`, starts `0..W-L`
(none when `L > W`, matching the JS loop bound). -/
def countHOcc (W H : Nat) (g : Grid) (w : Str) : Nat :=
  if w.length ≤ W then
    ((List.range H).map fun r =>
      (List.range (W - w.length + 1)).countP fun s => hMatch g w r s).sum
  else 0

/-- Vertical occurrences of `w`; skipped entirely for `L = 1` (the source's
H/V double-counting guard) and empty when `L > H`. -/
def countVOcc (W H : Nat) (g : Grid) (w : Str) : Nat :=
  if 2 ≤ w.length ∧ w.length ≤ H then
    ((List.range (H - w.length + 1)).map fun s =>
      (List.range W).countP fun c => vMatch g w s c).sum
  else 0

/-- `countOccurrencesStrictForWord`: forward (H plus V) occurrences. -/
def countOccurrencesStrictForWord (W H : Nat) (g : Grid) (w : Str) : Nat :=
  countHOcc W H g w + countVOcc W H g w

/-! ## The generation context

The closure of `generateWordSearchGrid` captures exactly these values for
use by the search helpers. -/

structure Ctx where
  W : Nat
  H : Nat
  cleanWords : List Str
  allowed : List Char
  tieCenter : Bool
  maxIter : Nat

/-- `requiredCount.get(w)`: the multiplicity of `w` in the normalized input. -/
def requiredCount (ctx : Ctx) (w : Str) : Nat := ctx.cleanWords.count w

/-- The unique word texts, in first-occurrence order. -/
def uniqueWords (ctx : Ctx) : List Str := dedupKeepFirst ctx.cleanWords

/-! ## Placement enumeration (`enumeratePlacements`) -/

inductive Dir
  | H
  | V
deriving DecidableEq

instance : Inhabited Dir := ⟨.H⟩

/-- A candidate placement with its intersection score and tie-break key. -/
structure Plc where
  row : Nat
  col : Nat
  dir : Dir
  score : Nat
  tie : ℚ
deriving DecidableEq

instance : Inhabited Plc := ⟨⟨0, 0, .H, 0, 0⟩⟩

/-- The `k`-th cell covered by a placement of direction `dir` at `(row, col)`. -/
def plcCell (row col : Nat) (dir : Dir) (k : Nat) : Nat × Nat :=
  match dir with
  | .H => (row, col + k)
  | .V => (row + k, col)

/-- Every covered cell is empty or already equal to the word's letter. -/
def okWindow (g : Grid) (w : Str) (row col : Nat) (dir : Dir) : Bool :=
  (List.range w.length).all fun k =>
    let rc := plcCell row col dir k
    match gridGet g rc.1 rc.2 with
    | none => true
    | some ch => ch == wchar w k

/-- The number of covered cells already equal to the word's letter. -/
def winScore (g : Grid) (w : Str) (row col : Nat) (dir : Dir) : Nat :=
  (List.range w.length).countP fun k =>
    let rc := plcCell row col dir k
    gridGet g rc.1 rc.2 == some (wchar w k)

/-- The valid placements in enumeration order (all horizontal, row-major,
then — for words of length `> 1` — all vertical), without tie keys yet. -/
def enumerateRaw (ctx : Ctx) (g : Grid) (w : Str) : List (Nat × Nat × Dir) :=
  let L := w.length
  (if L ≤ ctx.W then
    (List.range ctx.H).flatMap fun r =>
      (List.range (ctx.W - L + 1)).filterMap fun c =>
        if okWindow g w r c .H then some (r, c, Dir.H) else none
  else []) ++
  (if 2 ≤ L ∧ L ≤ ctx.H then
    (List.range (ctx.H - L + 1)).flatMap fun r =>
      (List.range ctx.W).filterMap fun c =>
        if okWindow g w r c .V then some (r, c, Dir.V) else none
  else [])

/-- Squared distance of the placement's span-centre to the grid centre.
`Math.hypot` is strictly monotone in this quantity on nonnegative inputs, so
comparisons (the only use) are unchanged. -/
def distSqToCenter (ctx : Ctx) (L : Nat) (row col : Nat) (dir : Dir) : ℚ :=
  let centerR : ℚ := ((ctx.H : ℚ) - 1) / 2
  let centerC : ℚ := ((ctx.W : ℚ) - 1) / 2
  let rr : ℚ := match dir with
    | .H => (row : ℚ)
    | .V => (row : ℚ) + ((L : ℚ) - 1) / 2
  let cc : ℚ := match dir with
    | .H => (col : ℚ) + ((L : ℚ) - 1) / 2
    | .V => (col : ℚ)
  (rr - centerR) ^ 2 + (cc - centerC) ^ 2

/-- Attach tie keys in enumeration order: a fresh random draw per placement
in `random` mode (consuming the RNG), the centre distance in `center` mode. -/
def assignTies (ctx : Ctx) (g : Grid) (w : Str)
    (raw : List (Nat × Nat × Dir)) (rng : RngState) : List Plc × RngState :=
  raw.foldl
    (fun acc t =>
      let sc := winScore g w t.1 t.2.1 t.2.2
      if ctx.tieCenter then
        (acc.1 ++ [⟨t.1, t.2.1, t.2.2, sc, distSqToCenter ctx w.length t.1 t.2.1 t.2.2⟩], acc.2)
      else
        let (u, rng') := acc.2.next
        (acc.1 ++ [⟨t.1, t.2.1, t.2.2, sc, u.val⟩], rng'))
    ([], rng)

/-- The sort order of `enumeratePlacements`: score descending, then tie key
ascending (`le a b` ↔ the JS comparator is `≤ 0` on `(a, b)`). -/
def plcLE (a b : Plc) : Bool :=
  decide (b.score < a.score) || (a.score == b.score && decide (a.tie ≤ b.tie))

/-- `enumeratePlacements`. -/
def enumeratePlacements (ctx : Ctx) (g : Grid) (w : Str) (rng : RngState) :
    List Plc × RngState :=
  let (withTies, rng') := assignTies ctx g w (enumerateRaw ctx g w) rng
  (stableSort plcLE withTies, rng')

/-! ## Placing and undoing (`placeWord` / `undo`) -/

/-- The write loop of `placeWord` over the position list `ks`, returning the
new grid and the `newly` list of cells actually written (in write order). -/
def placeGo (w : Str) (row col : Nat) (dir : Dir) (g : Grid) :
    List Nat → Grid × List (Nat × Nat)
  | [] => (g, [])
  | k :: ks =>
    let rc := plcCell row col dir k
    if gridGet g rc.1 rc.2 = none then
      let res := placeGo w row col dir (gridSet g rc.1 rc.2 (some (wchar w k))) ks
      (res.1, rc :: res.2)
    else placeGo w row col dir g ks

/-- `placeWord`. -/
def placeWord (g : Grid) (w : Str) (row col : Nat) (dir : Dir) :
    Grid × List (Nat × Nat) :=
  placeGo w row col dir g (List.range w.length)

/-- `undo`: clear exactly the given cells. -/
def undoCells (g : Grid) (cells : List (Nat × Nat)) : Grid :=
  cells.foldl (fun g rc => gridSet g rc.1 rc.2 none) g

/-- `countsWithinLimits`: no unique word exceeds its required count. -/
def countsWithinLimits (ctx : Ctx) (g : Grid) : Bool :=
  (uniqueWords ctx).all fun w =>
    decide (countOccurrencesStrictForWord ctx.W ctx.H g w ≤ requiredCount ctx w)

/-! ## Constraint-respecting fill (`fillEmptiesAvoidingExtras`) -/

/-- `windowsThroughCell`: the number of length-`L` windows through `(r, c)`
(horizontal only for `L = 1`); JS negative bounds give empty ranges. -/
def windowsThroughCell (W H : Nat) (r c L : Nat) : Nat :=
  let hMin : ℤ := max 0 ((c : ℤ) - ((L : ℤ) - 1))
  let hMax : ℤ := min (c : ℤ) ((W : ℤ) - (L : ℤ))
  let anyH : Nat := if hMin ≤ hMax then (hMax - hMin + 1).toNat else 0
  if L = 1 then anyH
  else
    let vMin : ℤ := max 0 ((r : ℤ) - ((L : ℤ) - 1))
    let vMax : ℤ := min (r : ℤ) ((H : ℤ) - (L : ℤ))
    let anyV : Nat := if vMin ≤ vMax then (vMax - vMin + 1).toNat else 0
    anyH + anyV

/-- The distinct word lengths (the keys of `wordsByLen`). -/
def lengthsOf (ctx : Ctx) : List Nat := dedupNat ((uniqueWords ctx).map List.length)

/-- The unique words of a given length (`wordsByLen.get(L)`). -/
def wordsOfLen (ctx : Ctx) (L : Nat) : List Str :=
  (uniqueWords ctx).filter fun w => w.length == L

/-- The "danger" of a cell: windows through it, weighted by how many unique
words have the window's length. -/
def dangerAt (ctx : Ctx) (r c : Nat) : Nat :=
  (lengthsOf ctx).foldl
    (fun acc L => acc + windowsThroughCell ctx.W ctx.H r c L * (wordsOfLen ctx L).length) 0

/-- The new-occurrence test for the horizontal window at start `s` through
`(r, c)` after writing `ch` there: the window's letter at the cell is `ch`
and every other window cell already holds the matching letter. -/
def newHMatch (g : Grid) (w : Str) (r c : Nat) (ch : Char) (s : Nat) : Bool :=
  (wchar w (c - s) == ch) &&
  ((List.range w.length).all fun k =>
    k == c - s || gridGet g r (s + k) == some (wchar w k))

/-- Vertical counterpart of `newHMatch` for the window at start `s`. -/
def newVMatch (g : Grid) (w : Str) (r c : Nat) (ch : Char) (s : Nat) : Bool :=
  (wchar w (r - s) == ch) &&
  ((List.range w.length).all fun k =>
    k == r - s || gridGet g (s + k) c == some (wchar w k))

/-- Horizontal part of `countNewOccurrencesAtCell`: the JS loop runs over
`s ∈ [max(0, c-L+1), min(c, W-L)]`, i.e. the valid starts whose window
contains column `c`. -/
def countNewH (W : Nat) (g : Grid) (w : Str) (r c : Nat) (ch : Char) : Nat :=
  if w.length ≤ W then
    ((List.range (W - w.length + 1)).filter fun s =>
      decide (s ≤ c) && decide (c < s + w.length)).countP (newHMatch g w r c ch)
  else 0

/-- Vertical part of `countNewOccurrencesAtCell` (skipped for `L = 1`). -/
def countNewV (H : Nat) (g : Grid) (w : Str) (r c : Nat) (ch : Char) : Nat :=
  if 2 ≤ w.length ∧ w.length ≤ H then
    ((List.range (H - w.length + 1)).filter fun s =>
      decide (s ≤ r) && decide (r < s + w.length)).countP (newVMatch g w r c ch)
  else 0

/-- `countNewOccurrencesAtCell`: occurrences of `w` newly completed by
writing `ch` at the empty cell `(r, c)`. -/
def countNewOccurrencesAtCell (W H : Nat) (g : Grid) (w : Str) (r c : Nat) (ch : Char) : Nat :=
  countNewH W g w r c ch + countNewV H g w r c ch

/-- The state threaded through `tryFill`: the grid, the running per-word
occurrence counts (`currentCounts`), and the RNG. -/
structure FillSt where
  grid : Grid
  counts : Str → Nat
  rng : RngState

/-- The letter loop of `tryFill` at cell `(r, c)`.  The per-word increments
(`deltas`) are the function `inc`; the acceptance test is the conjunction
the grouped-by-length JS loop computes (groups and the window quick-bound
only skip words whose increment is zero). -/
def fillLetterLoop (ctx : Ctx) (next : FillSt → Bool × FillSt) (r c : Nat) :
    List Char → FillSt → Bool × FillSt
  | [], st => (false, st)
  | ch :: more, st =>
    if gridGet st.grid r c ≠ none then fillLetterLoop ctx next r c more st
    else
      if (uniqueWords ctx).all (fun w =>
          decide (countNewOccurrencesAtCell ctx.W ctx.H st.grid w r c ch = 0) ||
          decide (st.counts w + countNewOccurrencesAtCell ctx.W ctx.H st.grid w r c ch ≤
            requiredCount ctx w)) then
        match next { st with grid := gridSet st.grid r c (some ch),
                             counts := fun w => st.counts w +
                               countNewOccurrencesAtCell ctx.W ctx.H st.grid w r c ch } with
        | (true, st2) => (true, st2)
        | (false, st2) =>
          fillLetterLoop ctx next r c more
            { st2 with grid := gridSet st2.grid r c none,
                       counts := fun w => st2.counts w -
                         countNewOccurrencesAtCell ctx.W ctx.H st.grid w r c ch }
      else fillLetterLoop ctx next r c more st

/-- `tryFill`, with fuel bounding the recursion depth (one unit per cell;
the initial call supplies more fuel than cells, so fuel `0` is dead code). -/
def tryFillAux (ctx : Ctx) : Nat → List (Nat × Nat) → FillSt → Bool × FillSt
  | 0, _, st => (false, st)
  | _ + 1, [], st => (true, st)
  | f + 1, rc :: rest, st =>
    let (order, rng') := shuffleList ctx.allowed st.rng
    fillLetterLoop ctx (fun s => tryFillAux ctx f rest s) rc.1 rc.2 order
      { st with rng := rng' }

/-- The empty cells in row-major order. -/
def emptyCells (W H : Nat) (g : Grid) : List (Nat × Nat) :=
  (List.range H).flatMap fun r =>
    (List.range W).filterMap fun c =>
      if gridGet g r c = none then some (r, c) else none

/-- `fillEmptiesAvoidingExtras`.  Returns `(ok, grid, rng, changedCells)`:
`changedCells` is the sorted empties list on success (the JS sorts the
`empties` array in place, so `changedCells` aliases the sorted array). -/
def fillEmptiesAvoidingExtras (ctx : Ctx) (g : Grid) (rng : RngState) :
    Bool × Grid × RngState × List (Nat × Nat) :=
  let empties := emptyCells ctx.W ctx.H g
  if empties.isEmpty then (true, g, rng, [])
  else
    let sorted := stableSort
      (fun a b => decide (dangerAt ctx b.1 b.2 ≤ dangerAt ctx a.1 a.2)) empties
    let counts0 := fun w => countOccurrencesStrictForWord ctx.W ctx.H g w
    if (uniqueWords ctx).any (fun w => decide (requiredCount ctx w < counts0 w)) then
      (false, g, rng, [])
    else
      let res := tryFillAux ctx (sorted.length + 1) sorted ⟨g, counts0, rng⟩
      (res.1, res.2.grid, res.2.rng, sorted)

/-! ## The backtracking search (`search`) -/

/-- A committed placement record (`currentPlacements` values). -/
structure PRec where
  word : Str
  row : Nat
  col : Nat
  dir : Dir
  score : Nat
deriving DecidableEq

/-- A complete solution snapshot (`best`). -/
structure BestRec where
  placs : List (Nat × PRec)
  inter : Nat
  rows : List Str

/-- A best-effort snapshot (`bestPartial`). -/
structure PartRec where
  placs : List (Nat × PRec)
  inter : Nat
  rows : List Str
  placedCount : Nat

/-- A word with its original index (`wordObjs` entries; `len` is
`word.length`). -/
structure WordObj where
  id : Nat
  word : Str
deriving DecidableEq

instance : Inhabited WordObj := ⟨⟨0, []⟩⟩

/-- The mutable closure state of the search. -/
structure SState where
  grid : Grid
  cur : List (Nat × PRec)
  curInter : Nat
  iters : Nat
  cancelled : Bool
  best : Option BestRec
  bestPartial : Option PartRec
  rng : RngState
  prog : List ℚ
  enums : Nat

/-- Build the row strings of a snapshot, replacing each empty cell by a
random allowed letter (`row.map(ch => ch ?? randomChoice([...allowed]))`),
in row-major order. -/
def snapshotRow (allowed : List Char) : List Cell → RngState → Str × RngState
  | [], rng => ([], rng)
  | cell :: rest, rng =>
    match cell with
    | some ch =>
      let res := snapshotRow allowed rest rng
      (ch :: res.1, res.2)
    | none =>
      let (ch, rng') := randomChoice allowed rng
      let res := snapshotRow allowed rest rng'
      (ch :: res.1, res.2)

/-- All snapshot rows, in order. -/
def snapshotRows (allowed : List Char) : Grid → RngState → List Str × RngState
  | [], rng => ([], rng)
  | row :: rest, rng =>
    let (s, rng') := snapshotRow allowed row rng
    let res := snapshotRows allowed rest rng'
    (s :: res.1, res.2)

/-- `recordPartial`: keep the state with the most placed words (ties broken
by intersection score); building the snapshot consumes RNG draws for the
empty cells. -/
def recordPartial (ctx : Ctx) (st : SState) : SState :=
  let placedCount := st.cur.length
  let better :=
    match st.bestPartial with
    | none => true
    | some bp =>
      decide (bp.placedCount < placedCount) ||
      (decide (placedCount = bp.placedCount) && decide (bp.inter < st.curInter))
  if better then
    let (rows, rng') := snapshotRows ctx.allowed st.grid st.rng
    { st with bestPartial := some ⟨st.cur, st.curInter, rows, placedCount⟩, rng := rng' }
  else st

/-- Join the grid into row strings (`row.join("")`); only evaluated on full
grids, where the placeholder for an empty cell is never used. -/
def joinRows (g : Grid) : List Str :=
  g.map fun row => row.map fun c => c.getD 'A'

/-- The running best of the fail-fast word-choice loop. -/
structure Chosen where
  idx : Nat
  wo : WordObj
  plist : List Plc
  minCount : Nat
  bestLen : Nat
  maxScore : Nat

/-- The word-choice loop of `search`: enumerate every remaining word
(consuming RNG for tie keys), returning `none` as soon as some word has no
placements (the dead-branch early return, skipping later words) and
otherwise the word with the fewest placements, ties to the longer word,
then to the higher best score.  Also returns the number of
`enumeratePlacements` calls made. -/
def chooseLoop (ctx : Ctx) (g : Grid) :
    List WordObj → Nat → Option Chosen → RngState → Option Chosen × RngState × Nat
  | [], _, acc, rng => (acc, rng, 0)
  | w :: ws, i, acc, rng =>
    let (plist, rng') := enumeratePlacements ctx g w.word rng
    if plist.isEmpty then (none, rng', 1)
    else
      let maxScore := (plist.headD default).score
      let take :=
        match acc with
        | none => true
        | some a =>
          decide (plist.length < a.minCount) ||
          (decide (plist.length = a.minCount) && decide (a.bestLen < w.word.length)) ||
          (decide (plist.length = a.minCount) && decide (w.word.length = a.bestLen) &&
            decide (a.maxScore < maxScore))
      let acc' := if take then some ⟨i, w, plist, plist.length, w.word.length, maxScore⟩ else acc
      let res := chooseLoop ctx g ws (i + 1) acc' rng'
      (res.1, res.2.1, res.2.2 + 1)

/-- The placement loop of `search` for the chosen word: place, recurse via
`searchRest`, undo; stop when cancelled. -/
def tryPlacements (ctx : Ctx) (searchRest : SState → SState) (wo : WordObj) :
    List Plc → SState → SState
  | [], st => st
  | p :: ps, st =>
    if st.cancelled then st
    else
      let pr := placeWord st.grid wo.word p.row p.col p.dir
      let st1 := { st with
        grid := pr.1,
        cur := st.cur ++ [(wo.id, ⟨wo.word, p.row, p.col, p.dir, p.score⟩)],
        curInter := st.curInter + p.score }
      let st2 := if countsWithinLimits ctx st1.grid then searchRest st1 else st1
      let st3 := { st2 with
        curInter := st2.curInter - p.score,
        cur := st2.cur.eraseP (fun e => e.1 == wo.id),
        grid := undoCells st2.grid pr.2 }
      if st3.cancelled then st3 else tryPlacements ctx searchRest wo ps st3

/-- The periodic progress report: when the incremented iteration counter
hits a multiple of 1000, append `iterations / maxIterations` to the trace. -/
def progStep (ctx : Ctx) (st2 : SState) (old : Nat) : SState :=
  if (old + 1) % 1000 = 0 then
    { st2 with prog := st2.prog ++ [((old + 1 : ℚ)) / (ctx.maxIter : ℚ)] }
  else st2

/-- The terminal step of `search` (`remaining.length === 0`): check the
placed letters give exactly the required counts, fill the empties, record
the complete solution if the fill succeeded, and undo the filler. -/
def termStep (ctx : Ctx) (st3 : SState) : SState :=
  if (uniqueWords ctx).all (fun w =>
      countOccurrencesStrictForWord ctx.W ctx.H st3.grid w == requiredCount ctx w) then
    let fr := fillEmptiesAvoidingExtras ctx st3.grid st3.rng
    let st4 := { st3 with grid := fr.2.1, rng := fr.2.2.1 }
    if fr.1 then
      let newRec : BestRec := ⟨st4.cur, st4.curInter, joinRows st4.grid⟩
      let best2 :=
        match st4.best with
        | none => some newRec
        | some b => if b.inter < newRec.inter then some newRec else some b
      { st4 with best := best2, grid := undoCells st4.grid fr.2.2.2 }
    else st4
  else st3

/-- `search`, with fuel bounding the recursion depth (one unit per placed
word plus one for the terminal call; the initial call supplies
`wordObjs.length + 1`, so fuel `0` is dead code). -/
def searchAux (ctx : Ctx) : Nat → List WordObj → SState → SState
  | 0, _, st => st
  | f + 1, remaining, st0 =>
    if st0.cancelled then st0
    else
      let st1 := recordPartial ctx st0
      let old := st1.iters
      let st2 := { st1 with iters := old + 1 }
      if ctx.maxIter < old then { st2 with cancelled := true }
      else
        let st3 := progStep ctx st2 old
        match remaining with
        | [] => termStep ctx st3
        | _ :: _ =>
          let cl := chooseLoop ctx st3.grid remaining 0 none st3.rng
          let st4 := { st3 with rng := cl.2.1, enums := st3.enums + cl.2.2 }
          match cl.1 with
          | none => st4
          | some ch =>
            tryPlacements ctx (fun s => searchAux ctx f (remaining.eraseIdx ch.idx) s)
              ch.wo ch.plist st4

/-! ## The top-level generator -/

/-- The distinct error conditions raised by `generateWordSearchGrid`
(one constructor per `throw` site; `iterLimit` carries the limit its
message names and `tooLong` the lengths its message names). -/
inductive GenError
  | badDims
  | noLetters
  | tooLong (longest maxDim : Nat)
  | iterLimit (maxIter : Nat)
  | infeasible
deriving DecidableEq

/-- An entry of the returned `placements` list. -/
structure PlcOut where
  word : Str
  row : Nat
  col : Nat
  dir : Dir
deriving DecidableEq

/-- The returned object: `isPartial` is the optional `partial` flag
(`none` when the field is absent). -/
structure GenResult where
  grid : List Str
  placements : List PlcOut
  isPartial : Option Bool
deriving DecidableEq

/-- Normal return or thrown error. -/
inductive GenOut
  | ok (r : GenResult)
  | err (e : GenError)
deriving DecidableEq

/-- The observable outcome of a call: the result, the progress-fraction
trace that would be passed to an `onProgress` callback, and
instrumentation: the final iteration counter, the number of
`enumeratePlacements` calls, whether the search ran, whether the iteration
budget cancelled it, and whether any complete or partial solution state was
recorded. -/
structure Outcome where
  result : GenOut
  prog : List ℚ
  iters : Nat
  enums : Nat
  ranSearch : Bool
  cancelled : Bool
  recorded : Bool
deriving DecidableEq

/-- The `tieBreaker` option values (`options.tieBreaker || 'random'`). -/
inductive TieBreak
  | random
  | center
deriving DecidableEq

/-- Generator options.  `onProgress` records whether a callback is present
(it cannot influence the algorithm's state, only observe the trace);
`extra` stands for any other field a caller may add (e.g. `encoding` or
`strategy`), which the function never reads. -/
structure GenOptions where
  seed : Option Seed := none
  tieBreaker : Option TieBreak := none
  maxIterations : Option Nat := none
  onProgress : Bool := false
  extra : List (Str × Str) := []

/-- The grid rows of the no-words short-circuit: every cell an independent
`randomChoice([...allowed])`, row-major. -/
def randomRow (allowed : List Char) (rng : RngState) : Nat → Str × RngState
  | 0 => ([], rng)
  | n + 1 =>
    let (ch, rng') := randomChoice allowed rng
    let res := randomRow allowed rng' n
    (ch :: res.1, res.2)

def randomRows (allowed : List Char) (W : Nat) (rng : RngState) : Nat → List Str × RngState
  | 0 => ([], rng)
  | n + 1 =>
    let (row, rng') := randomRow allowed rng W
    let res := randomRows allowed W rng' n
    (row :: res.1, res.2)

/-- Look up the committed placement of a word id. -/
def lookupId (l : List (Nat × PRec)) (id : Nat) : Option PRec :=
  (l.find? fun e => e.1 == id).map (·.2)

/-- Assemble the outcome after the search returns: the best complete
solution if any, else the best partial state, else a thrown error whose
kind depends on whether the budget cancelled the search. -/
def genAfterSearch (ctx : Ctx) (wordObjs : List WordObj) (st : SState) : Outcome :=
  match st.best with
  | some b =>
    let placementsOut := wordObjs.map fun wo =>
      let p := (lookupId b.placs wo.id).getD ⟨wo.word, 0, 0, .H, 0⟩
      PlcOut.mk wo.word p.row p.col p.dir
    ⟨.ok ⟨b.rows, placementsOut, some false⟩, st.prog ++ [1], st.iters, st.enums,
      true, st.cancelled, true⟩
  | none =>
    match st.bestPartial with
    | some bp =>
      let placementsOut := bp.placs.map fun e => PlcOut.mk e.2.word e.2.row e.2.col e.2.dir
      ⟨.ok ⟨bp.rows, placementsOut, some true⟩, st.prog ++ [1], st.iters, st.enums,
        true, st.cancelled, true⟩
    | none =>
      ⟨.err (if st.cancelled then .iterLimit ctx.maxIter else .infeasible),
        st.prog ++ [1], st.iters, st.enums, true, st.cancelled, false⟩

/-- The sorted word objects (`wordObjs`: longer first, stable). -/
def mkWordObjs (cleanWords : List Str) : List WordObj :=
  stableSort (fun a b => decide (b.word.length ≤ a.word.length))
    (cleanWords.enum.map fun e => ⟨e.1, e.2⟩)

/-- The initial search state. -/
def initState (W H : Nat) (rng : RngState) : SState :=
  ⟨List.replicate H (List.replicate W none), [], 0, 0, false, none, none, rng, [], 0⟩

/-- `generateWordSearchGrid`.  `ext` is the `Math.random` oracle consulted
only when no seed is supplied. -/
def generateWordSearchGrid (words letters : List Str) (width height : Int)
    (options : GenOptions) (ext : Nat → U01) : Outcome :=
  let rng0 := makeRNG options.seed ext
  if width ≤ 0 ∨ height ≤ 0 then ⟨.err .badDims, [], 0, 0, false, false, false⟩
  else
    let W := width.toNat
    let H := height.toNat
    let cleanWords := cleanWordsOf words
    let allowed := normalizeAndExpandLetters letters cleanWords
    if cleanWords.isEmpty then
      if allowed.isEmpty then ⟨.err .noLetters, [], 0, 0, false, false, false⟩
      else
        let rows := randomRows allowed W rng0 H
        ⟨.ok ⟨rows.1, [], none⟩, [], 0, 0, false, false, false⟩
    else
      let maxDim := max W H
      let longest := (cleanWords.map List.length).foldl max 0
      if maxDim < longest then
        ⟨.err (.tooLong longest maxDim), [], 0, 0, false, false, false⟩
      else
        let ctx : Ctx :=
          ⟨W, H, cleanWords, allowed, options.tieBreaker == some .center,
            options.maxIterations.getD 50000⟩
        let wordObjs := mkWordObjs cleanWords
        let stF := searchAux ctx (wordObjs.length + 1) wordObjs (initState W H rng0)
        genAfterSearch ctx wordObjs stF

/-- The fractions actually passed to an `onProgress` callback: the trace
when a callback is present, nothing otherwise. -/
def deliveredProgress (onP : Bool) (o : Outcome) : List ℚ :=
  if onP then o.prog else []

/-! ## The free-placement generator (`generateFreeWordSearchGrid`)

The "free" strategy: words longest-first, each placed at a single uniformly
random all-empty window, no backtracking; a word with no window stops the
loop (`break`) and the result is marked `partial`. -/

/-- The returned object of the free generator (`partial` always present). -/
structure FreeResult where
  grid : List Str
  placements : List PlcOut
  isPartial : Bool
deriving DecidableEq

inductive FreeOut
  | ok (r : FreeResult)
  | err (e : GenError)
deriving DecidableEq

structure FreeOutcome where
  result : FreeOut
  prog : List ℚ
deriving DecidableEq

/-- The valid windows for `word`: every start whose covered cells are all
empty; horizontal row-major then vertical row-major (no length-1 guard in
this generator). -/
def freePossible (W H : Nat) (g : Grid) (w : Str) : List (Nat × Nat × Dir) :=
  let L := w.length
  (if L ≤ W then
    (List.range H).flatMap fun r =>
      (List.range (W - L + 1)).filterMap fun c =>
        if (List.range L).all (fun k => gridGet g r (c + k) == (none : Cell)) then
          some (r, c, Dir.H)
        else none
  else []) ++
  (if L ≤ H then
    (List.range (H - L + 1)).flatMap fun r =>
      (List.range W).filterMap fun c =>
        if (List.range L).all (fun k => gridGet g (r + k) c == (none : Cell)) then
          some (r, c, Dir.V)
        else none
  else [])

/-- Write the word into its chosen window (unconditional writes; every cell
is empty by choice of window). -/
def freeWrite (g : Grid) (w : Str) (t : Nat × Nat × Dir) : Grid :=
  (List.range w.length).foldl
    (fun g k =>
      let rc := plcCell t.1 t.2.1 t.2.2 k
      gridSet g rc.1 rc.2 (some (wchar w k)))
    g

/-- The window the free loop commits for `w` on grid `g` when the unit draw
is `u`: entry `Math.floor(u * possible.length)` of the all-empty window
list. -/
def freeChoice (W H : Nat) (g : Grid) (w : Str) (u : ℚ) : Nat × Nat × Dir :=
  (freePossible W H g w).getD (jsFloorNat (u * (freePossible W H g w).length)) default

/-- The specification's notion of a valid window for the free strategy,
stated from the spec's words for comparison with `freePossible`: every
covered cell is either empty or already holds the matching letter (overlap
allowed when letters coincide). -/
def freeValidSpec (W H : Nat) (g : Grid) (w : Str) : List (Nat × Nat × Dir) :=
  let L := w.length
  (if L ≤ W then
    (List.range H).flatMap fun r =>
      (List.range (W - L + 1)).filterMap fun c =>
        if (List.range L).all (fun k =>
            gridGet g r (c + k) == (none : Cell) ||
            gridGet g r (c + k) == some (wchar w k)) then
          some (r, c, Dir.H)
        else none
  else []) ++
  (if L ≤ H then
    (List.range (H - L + 1)).flatMap fun r =>
      (List.range W).filterMap fun c =>
        if (List.range L).all (fun k =>
            gridGet g (r + k) c == (none : Cell) ||
            gridGet g (r + k) c == some (wchar w k)) then
          some (r, c, Dir.V)
        else none
  else [])

/-- The state of the free placement loop. -/
structure FreeSt where
  grid : Grid
  placements : List PlcOut
  placed : Nat
  rng : RngState
  prog : List ℚ

/-- The free placement loop: `break` on a word with no window (returning the
state unchanged and skipping every later word); otherwise place at a
uniformly random window and report `placed / total`. -/
def freeLoop (W H total : Nat) : List Str → FreeSt → FreeSt
  | [], st => st
  | w :: rest, st =>
    let possible := freePossible W H st.grid w
    if possible.isEmpty then st
    else
      let (t, rng') := randomChoice possible st.rng
      freeLoop W H total rest
        { grid := freeWrite st.grid w t,
          placements := st.placements ++ [⟨w, t.1, t.2.1, t.2.2⟩],
          placed := st.placed + 1,
          rng := rng',
          prog := st.prog ++ [((st.placed + 1 : ℚ)) / (total : ℚ)] }

/-- Fill every still-empty cell with a random allowed letter, row-major. -/
def freeFillRow (allowed : List Char) : List Cell → RngState → Str × RngState
  | [], rng => ([], rng)
  | cell :: rest, rng =>
    match cell with
    | some ch =>
      let res := freeFillRow allowed rest rng
      (ch :: res.1, res.2)
    | none =>
      let (ch, rng') := randomChoice allowed rng
      let res := freeFillRow allowed rest rng'
      (ch :: res.1, res.2)

def freeFillRows (allowed : List Char) : Grid → RngState → List Str × RngState
  | [], rng => ([], rng)
  | row :: rest, rng =>
    let (s, rng') := freeFillRow allowed row rng
    let res := freeFillRows allowed rest rng'
    (s :: res.1, res.2)

/-- The words sorted longest-first (`slice().sort((a,b) => b.length - a.length)`). -/
def freeSortedWords (cleanWords : List Str) : List Str :=
  stableSort (fun a b => decide (b.length ≤ a.length)) cleanWords

/-- `generateFreeWordSearchGrid` (it always uses `Math.random`, hence the
oracle stream; `onProgress` observes the trace as for the main generator). -/
def generateFreeWordSearchGrid (words letters : List Str) (width height : Int)
    (ext : Nat → U01) : FreeOutcome :=
  if width ≤ 0 ∨ height ≤ 0 then ⟨.err .badDims, []⟩
  else
    let W := width.toNat
    let H := height.toNat
    let cleanWords := cleanWordsOf words
    let allowed := normalizeAndExpandLetters letters cleanWords
    if allowed.isEmpty then ⟨.err .noLetters, []⟩
    else
      let wordsSorted := freeSortedWords cleanWords
      let st0 : FreeSt := ⟨List.replicate H (List.replicate W none), [], 0, .ext ext 0, []⟩
      let stF := freeLoop W H wordsSorted.length wordsSorted st0
      let fill := freeFillRows allowed stF.grid stF.rng
      ⟨.ok ⟨fill.1, stF.placements, decide (stF.placed < wordsSorted.length)⟩,
        stF.prog ++ [1]⟩

/-! ## Auxiliary definitions used in statements -/

/-- A fixed `Math.random` oracle (constantly `0`) for concrete evaluations. -/
def extZero : Nat → U01 := fun _ => default

/-- The length of the longest normalized word. -/
def longestLen (words : List Str) : Nat :=
  ((cleanWordsOf words).map List.length).foldl max 0

/-- The placement is in bounds for a `W × H` grid. -/
def PlBounds (W H : Nat) (pl : PlcOut) : Prop :=
  match pl.dir with
  | .H => pl.row < H ∧ pl.col + pl.word.length ≤ W
  | .V => pl.col < W ∧ pl.row + pl.word.length ≤ H

/-- The placement's covered cells hold exactly its word's letters. -/
def SpellsCells (g : Grid) (pl : PlcOut) : Prop :=
  ∀ k < pl.word.length,
    gridGet g (plcCell pl.row pl.col pl.dir k).1 (plcCell pl.row pl.col pl.dir k).2 =
      some (wchar pl.word k)

/-- A `placements` entry in bounds whose covered cells spell its word in the
returned rows. -/
def placementSpells (W H : Nat) (rows : List Str) (pl : PlcOut) : Prop :=
  PlBounds W H pl ∧
  ∀ k < pl.word.length,
    ((rows.getD (plcCell pl.row pl.col pl.dir k).1 []).getD
      (plcCell pl.row pl.col pl.dir k).2 'A') = wchar pl.word k

/-- Occurrence counting on the returned row strings. -/
def countRows (W H : Nat) (rows : List Str) (w : Str) : Nat :=
  countOccurrencesStrictForWord W H (rows.map fun row => row.map some) w

/-! ## Specification predicates -/

/-- The free invariant: a well-shaped grid and every committed placement
in bounds with its letters on its cells. -/
def FreeInv (W H : Nat) (st : FreeSt) : Prop :=
  GridShape W H st.grid ∧ ∀ pl ∈ st.placements, PlBounds W H pl ∧ SpellsCells st.grid pl

/-- The `tryFill` state invariant: the grid is well-shaped and
`currentCounts` tracks the true strict occurrence counts, which stay within
the required counts. -/
def FillStInv (ctx : Ctx) (st : FillSt) : Prop :=
  GridShape ctx.W ctx.H st.grid ∧
  ∀ w ∈ uniqueWords ctx,
    st.counts w = countOccurrencesStrictForWord ctx.W ctx.H st.grid w ∧
    st.counts w ≤ requiredCount ctx w

/-- After a successful fill of `cells`: cells outside are untouched and the
cells themselves hold allowed letters. -/
def FillChanged (ctx : Ctx) (cells : List (Nat × Nat)) (g g' : Grid) : Prop :=
  (∀ r c, (r, c) ∉ cells → gridGet g' r c = gridGet g r c) ∧
  (∀ rc ∈ cells, ∃ ch ∈ ctx.allowed, gridGet g' rc.1 rc.2 = some ch)

/-- Every letter standing in the grid belongs to `A`. -/
def GridLetters (A : List Char) (g : Grid) : Prop :=
  ∀ row ∈ g, ∀ cell ∈ row, ∀ ch : Char, cell = some ch → ch ∈ A

/-- The static facts the search relies on: the allowed set is non-empty and
contains every letter of every normalized word. -/
def CtxOk (ctx : Ctx) : Prop :=
  ctx.allowed ≠ [] ∧ ∀ w ∈ ctx.cleanWords, ∀ ch ∈ w, ch ∈ ctx.allowed

/-- A committed placement: in bounds, and its covered cells hold exactly its
word's letters in the given grid. -/
def PlacedOk (ctx : Ctx) (g : Grid) (p : PRec) : Prop :=
  (p.dir = .H → p.row < ctx.H ∧ p.col + p.word.length ≤ ctx.W) ∧
  (p.dir = .V → p.col < ctx.W ∧ p.row + p.word.length ≤ ctx.H) ∧
  ∀ k < p.word.length,
    gridGet g (plcCell p.row p.col p.dir k).1 (plcCell p.row p.col p.dir k).2 =
      some (wchar p.word k)

/-- All committed placements are valid in the current grid. -/
def CurOk (ctx : Ctx) (g : Grid) (cur : List (Nat × PRec)) : Prop :=
  ∀ e ∈ cur, PlacedOk ctx g e.2

/-- A well-formed returned row list: `height` strings of `width` characters
over the allowed set. -/
def RowsOk (ctx : Ctx) (rows : List Str) : Prop :=
  rows.length = ctx.H ∧ (∀ s ∈ rows, s.length = ctx.W) ∧
  ∀ s ∈ rows, ∀ ch ∈ s, ch ∈ ctx.allowed

/-- A well-formed partial snapshot: well-formed rows in which every recorded
placement spells its word. -/
def PartOk (ctx : Ctx) (p : PartRec) : Prop :=
  RowsOk ctx p.rows ∧
  ∀ e ∈ p.placs, placementSpells ctx.W ctx.H p.rows
    (PlcOut.mk e.2.word e.2.row e.2.col e.2.dir)

/-- A well-formed complete snapshot: well-formed rows, spelled placements,
exact occurrence counts, and one recorded placement per word object (with
the matching word). -/
def BestOk (ctx : Ctx) (objs : List WordObj) (b : BestRec) : Prop :=
  RowsOk ctx b.rows ∧
  (∀ e ∈ b.placs, placementSpells ctx.W ctx.H b.rows
    (PlcOut.mk e.2.word e.2.row e.2.col e.2.dir)) ∧
  (∀ w ∈ uniqueWords ctx, countRows ctx.W ctx.H b.rows w = requiredCount ctx w) ∧
  (∀ wo ∈ objs, ∃ e ∈ b.placs, e.1 = wo.id) ∧
  (∀ e ∈ b.placs, ∀ wo ∈ objs, e.1 = wo.id → e.2.word = wo.word)

/-- The search-state invariant. -/
def SInv (ctx : Ctx) (objs : List WordObj) (st : SState) : Prop :=
  GridShape ctx.W ctx.H st.grid ∧
  GridLetters ctx.allowed st.grid ∧
  CurOk ctx st.grid st.cur ∧
  (∀ b, st.best = some b → BestOk ctx objs b) ∧
  (∀ p, st.bestPartial = some p → PartOk ctx p)

/-- Relation between the committed placements' ids and the remaining word
objects. -/
def CurIds (objs remaining : List WordObj) (cur : List (Nat × PRec)) : Prop :=
  (∀ e ∈ cur, ∀ wo ∈ remaining, e.1 ≠ wo.id) ∧
  (∀ wo ∈ objs, (∃ e ∈ cur, e.1 = wo.id) ∨ wo ∈ remaining) ∧
  (∀ e ∈ cur, ∃ wo ∈ objs, e.1 = wo.id ∧ e.2.word = wo.word)

/-- The search's step contract: the invariant holds afterwards and the
grid, committed placements and intersection count are restored. -/
def SPost (ctx : Ctx) (objs : List WordObj) (s t : SState) : Prop :=
  SInv ctx objs t ∧ t.grid = s.grid ∧ t.cur = s.cur ∧ t.curInter = s.curInter

/-- The facts carried by a successful word choice. -/
def ChosenOk (ctx : Ctx) (g : Grid) (remaining : List WordObj) (c : Chosen) : Prop :=
  (∃ h : c.idx < remaining.length, remaining[c.idx] = c.wo) ∧
  ∀ p ∈ c.plist, okWindow g c.wo.word p.row p.col p.dir = true ∧
    (p.dir = .H → p.row < ctx.H ∧ p.col + c.wo.word.length ≤ ctx.W) ∧
    (p.dir = .V → p.col < ctx.W ∧ p.row + c.wo.word.length ≤ ctx.H)

/-- The fraction reported for iteration `k` of `M`. -/
def progFrac (M : Nat) (k : Nat) : ℚ := (k : ℚ) / (M : ℚ)

/-- The progress trace is `k / maxIterations` for a strictly increasing
list of positive multiples of 1000, each bounded by the iteration counter
and by `maxIterations`. -/
def ProgOk (ctx : Ctx) (st : SState) : Prop :=
  ∃ ks : List Nat,
    st.prog = ks.map (progFrac ctx.maxIter) ∧
    List.Chain' (· < ·) ks ∧
    ∀ k ∈ ks, 1000 ∣ k ∧ 0 < k ∧ k ≤ st.iters ∧ k ≤ ctx.maxIter

/-- One search step, viewed only through the iteration counter and the
progress trace. -/
def PStep (ctx : Ctx) (s t : SState) : Prop :=
  s.iters ≤ t.iters ∧ (ProgOk ctx s → ProgOk ctx t)

/-! ## Basic lemmas -/

theorem jsFloorNat_lt (q : ℚ) (n : Nat) (_h0 : 0 ≤ q) (h1 : q < 1) (hn : 0 < n) :
    jsFloorNat (q * n) < n := by
  have hcast : (0 : ℚ) < (n : ℚ) := by exact_mod_cast hn
  have hfl : Int.floor (q * (n : ℚ)) < (n : ℤ) := by
    apply Int.floor_lt.mpr
    push_cast
    nlinarith
  unfold jsFloorNat
  omega

theorem randomChoice_mem {α} [Inhabited α] (l : List α) (rng : RngState) (hl : l ≠ []) :
    (randomChoice l rng).1 ∈ l := by
  unfold randomChoice
  have hn : 0 < l.length := List.length_pos.mpr hl
  have hb := (rng.next.1).property
  have hidx := jsFloorNat_lt (rng.next.1).val l.length hb.1 hb.2 hn
  simp only
  rw [List.getD_eq_getElem _ _ hidx]
  exact List.getElem_mem _

/-! ## Claim C4: seeded determinism -/

/-- C4: two calls to `generateWordSearchGrid` with identical words, letters,
width, height and options carrying an explicit (non-null) seed — and in
particular identical `tieBreaker` and `maxIterations` — return identical
outcomes (grids, placement lists and `partial` flags included), whatever the
`Math.random` oracle does: with a seed, the oracle is never consulted. -/
theorem seeded_runs_identical (words letters : List Str) (width height : Int)
    (s : Seed) (tb : Option TieBreak) (mi : Option Nat) (op : Bool)
    (ex : List (Str × Str)) (ext₁ ext₂ : Nat → U01) :
    generateWordSearchGrid words letters width height ⟨some s, tb, mi, op, ex⟩ ext₁ =
    generateWordSearchGrid words letters width height ⟨some s, tb, mi, op, ex⟩ ext₂ := by
  cases s <;> rfl

/-! ## Claim C10: the options influence the result only through
`seed`, `tieBreaker` and `maxIterations` -/

/-- C10: with an identical non-null seed, identical `tieBreaker` and
identical `maxIterations`, any change to the other option fields — the
opaque extra fields (e.g. `encoding` / `strategy`) or the presence of an
`onProgress` callback — leaves the returned grid, placements and `partial`
flag unchanged: `generateWordSearchGrid` never reads those fields. -/
theorem result_ignores_other_options (words letters : List Str) (width height : Int)
    (s : Seed) (tb : Option TieBreak) (mi : Option Nat) (op₁ op₂ : Bool)
    (ex₁ ex₂ : List (Str × Str)) (ext₁ ext₂ : Nat → U01) :
    (generateWordSearchGrid words letters width height ⟨some s, tb, mi, op₁, ex₁⟩ ext₁).result =
    (generateWordSearchGrid words letters width height ⟨some s, tb, mi, op₂, ex₂⟩ ext₂).result := by
  cases s <;> rfl

/-! ## Claim C7: over-long words fail before any search work -/

/-- C7: when the longest normalized word does not fit in either dimension,
the call throws before any search work: the outcome is an error with an
empty progress trace, zero search iterations, zero placement enumerations,
and the search never entered. -/
theorem too_long_word_fails_before_search (words letters : List Str)
    (width height : Int) (options : GenOptions) (ext : Nat → U01)
    (h : max width.toNat height.toNat < longestLen words) :
    ∃ e, generateWordSearchGrid words letters width height options ext =
      ⟨.err e, [], 0, 0, false, false, false⟩ := by
  unfold generateWordSearchGrid
  split
  · exact ⟨.badDims, rfl⟩
  · dsimp only
    split
    · -- no normalized words: the longest length is `0`, contradicting `h`
      rename_i hne hempty
      exfalso
      have : cleanWordsOf words = [] := by
        simpa [List.isEmpty_iff] using hempty
      rw [longestLen, this] at h
      simp at h
    · split
      · exact ⟨_, rfl⟩
      · -- the guard `maxDim < longest` failed, contradicting `h`
        rename_i hfit
        exact absurd h hfit

/-- Witness for C7 at a concrete input: `["ABCD"]` on a `2 × 2` grid. -/
theorem too_long_word_fails_before_search_witness :
    max (2 : Int).toNat (2 : Int).toNat < longestLen [['A', 'B', 'C', 'D']] ∧
    ∃ e, generateWordSearchGrid [['A', 'B', 'C', 'D']] [] 2 2 ⟨none, none, none, false, []⟩ extZero =
      ⟨.err e, [], 0, 0, false, false, false⟩ :=
  ⟨by decide, too_long_word_fails_before_search [['A', 'B', 'C', 'D']] [] 2 2
    ⟨none, none, none, false, []⟩ extZero (by decide)⟩

/-! ## Claim C6: calls that record no solution state raise an error -/

/-- C6: a call with at least one normalized word during which no complete
and no partial solution state was ever recorded raises an error, never a
normal result; when the iteration budget cancelled the search the error is
the one naming the iteration limit, and when the search ran to exhaustion
below budget it is the exactly-once infeasibility error. -/
theorem unrecorded_state_raises (words letters : List Str) (width height : Int)
    (options : GenOptions) (ext : Nat → U01)
    (hw : cleanWordsOf words ≠ [])
    (hrec : (generateWordSearchGrid words letters width height options ext).recorded = false) :
    (∃ e, (generateWordSearchGrid words letters width height options ext).result = .err e) ∧
    ((generateWordSearchGrid words letters width height options ext).cancelled = true →
      (generateWordSearchGrid words letters width height options ext).result =
        .err (.iterLimit (options.maxIterations.getD 50000))) ∧
    ((generateWordSearchGrid words letters width height options ext).cancelled = false →
      (generateWordSearchGrid words letters width height options ext).ranSearch = true →
      (generateWordSearchGrid words letters width height options ext).result =
        .err .infeasible) := by
  by_cases hd : width ≤ 0 ∨ height ≤ 0
  · simp only [generateWordSearchGrid, if_pos hd]
    exact ⟨⟨_, rfl⟩, by intro h; simp at h, by intro h h'; simp at h'⟩
  · have hne : ¬(cleanWordsOf words).isEmpty := by
      simpa [List.isEmpty_iff] using hw
    simp only [generateWordSearchGrid, if_neg hd, hne, Bool.false_eq_true, if_false] at hrec ⊢
    by_cases hlong : max width.toNat height.toNat <
        ((cleanWordsOf words).map List.length).foldl max 0
    · simp only [if_pos hlong]
      exact ⟨⟨_, rfl⟩, by intro h; simp at h, by intro h h'; simp at h'⟩
    · simp only [if_neg hlong] at hrec ⊢
      unfold genAfterSearch at hrec ⊢
      split at hrec
      · simp at hrec
      · split at hrec
        · simp at hrec
        · refine ⟨⟨_, rfl⟩, ?_, ?_⟩
          · intro h
            simp only at h ⊢
            rw [h]
            rfl
          · intro h _
            simp only at h ⊢
            rw [h]
            rfl

/-- Witness for C6: a concrete call (one word, zero width) that records no
state; it raises an error and returns no normal result. -/
theorem unrecorded_state_raises_witness :
    cleanWordsOf [['A']] ≠ [] ∧
    (generateWordSearchGrid [['A']] [] 0 1 ⟨none, none, none, false, []⟩ extZero).recorded = false ∧
    (∃ e, (generateWordSearchGrid [['A']] [] 0 1 ⟨none, none, none, false, []⟩ extZero).result = .err e) :=
  ⟨by decide, by decide,
    (unrecorded_state_raises [['A']] [] 0 1 ⟨none, none, none, false, []⟩ extZero
      (by decide) (by decide)).1⟩

/-! ## Claim C8: empty words with non-empty letters -/

theorem insertUnique_ne_nil (l : List Char) (c : Char) : insertUnique l c ≠ [] := by
  unfold insertUnique
  split
  · intro h
    subst h
    simp_all
  · simp

theorem lettersFold_ne_nil (l : List Str) (init : List Char)
    (h : (∃ t ∈ l, ∃ c, t.map Char.toUpper = [c]) ∨ init ≠ []) :
    l.foldl (fun s t =>
      match t.map Char.toUpper with
      | [c] => insertUnique s c
      | _ => s) init ≠ [] := by
  induction l generalizing init with
  | nil =>
    rcases h with ⟨t, ht, _⟩ | h
    · exact absurd ht (List.not_mem_nil t)
    · exact h
  | cons t ts ih =>
    rcases h with ⟨u, hu, c, hc⟩ | h
    · rcases List.mem_cons.mp hu with rfl | hu'
      · apply ih
        right
        simp only [List.foldl_cons, hc]
        exact insertUnique_ne_nil init c
      · apply ih
        left
        exact ⟨u, hu', c, hc⟩
    · apply ih
      right
      simp only [List.foldl_cons]
      cases hm : t.map Char.toUpper with
      | nil => exact h
      | cons c rest =>
        cases rest with
        | nil => exact insertUnique_ne_nil init c
        | cons _ _ => exact h

theorem wordsFold_ne_nil (l : List Str) (init : List Char) (h : init ≠ []) :
    l.foldl (fun s w => w.foldl insertUnique s) init ≠ [] := by
  induction l generalizing init with
  | nil => exact h
  | cons w ws ih =>
    apply ih
    clear ih
    induction w generalizing init with
    | nil => exact h
    | cons ch rest ihw => exact ihw _ (insertUnique_ne_nil init ch)

theorem normalizeAndExpandLetters_ne_nil (letters wordsArr : List Str)
    (h : ∃ t ∈ letters, ∃ c, t.map Char.toUpper = [c]) :
    normalizeAndExpandLetters letters wordsArr ≠ [] := by
  unfold normalizeAndExpandLetters
  exact wordsFold_ne_nil _ _ (lettersFold_ne_nil letters [] (Or.inl h))

theorem randomRow_length (allowed : List Char) (rng : RngState) (n : Nat) :
    (randomRow allowed rng n).1.length = n := by
  induction n generalizing rng with
  | zero => rfl
  | succ m ih =>
    unfold randomRow
    simp [ih]

theorem randomRow_mem (allowed : List Char) (rng : RngState) (n : Nat)
    (hne : allowed ≠ []) : ∀ ch ∈ (randomRow allowed rng n).1, ch ∈ allowed := by
  induction n generalizing rng with
  | zero => intro ch h; simp [randomRow] at h
  | succ m ih =>
    intro ch h
    unfold randomRow at h
    simp only [List.mem_cons] at h
    rcases h with rfl | h
    · exact randomChoice_mem allowed rng hne
    · exact ih _ ch h

theorem randomRows_length (allowed : List Char) (W : Nat) (rng : RngState) (n : Nat) :
    (randomRows allowed W rng n).1.length = n := by
  induction n generalizing rng with
  | zero => rfl
  | succ m ih =>
    unfold randomRows
    simp [ih]

theorem randomRows_shape_mem (allowed : List Char) (W : Nat) (rng : RngState) (n : Nat)
    (hne : allowed ≠ []) :
    ∀ row ∈ (randomRows allowed W rng n).1,
      row.length = W ∧ ∀ ch ∈ row, ch ∈ allowed := by
  induction n generalizing rng with
  | zero => intro row h; simp [randomRows] at h
  | succ m ih =>
    intro row h
    unfold randomRows at h
    simp only [List.mem_cons] at h
    rcases h with rfl | h
    · exact ⟨randomRow_length allowed rng W, randomRow_mem allowed rng W hne⟩
    · exact ih _ row h

/-- C8 counterexample: `letters = ["AB"]` is a non-empty list, but no entry
normalizes to a single character, so the effective allowed letter set is
empty and the call with no words throws instead of returning a grid. -/
theorem no_words_multichar_letter_throws :
    normalizeAndExpandLetters [['A', 'B']] (cleanWordsOf []) = [] ∧
    (generateWordSearchGrid [] [['A', 'B']] 3 3 ⟨none, none, none, false, []⟩ extZero).result =
      .err .noLetters := by
  exact ⟨rfl, rfl⟩

/-- C8 (amended): with positive dimensions, no normalized word, and at least
one `letters` entry normalizing to a single character, the allowed set is
non-empty and the call returns — without throwing — a `height × width` grid
drawn from the allowed set together with an empty placement list. -/
theorem no_words_with_single_char_letter_returns (words letters : List Str)
    (width height : Int) (options : GenOptions) (ext : Nat → U01)
    (hww : (cleanWordsOf words).isEmpty)
    (hl : ∃ t ∈ letters, ∃ c, t.map Char.toUpper = [c])
    (hwpos : 0 < width) (hhpos : 0 < height) :
    normalizeAndExpandLetters letters (cleanWordsOf words) ≠ [] ∧
    ∃ rows, (generateWordSearchGrid words letters width height options ext).result =
        .ok ⟨rows, [], none⟩ ∧
      rows.length = height.toNat ∧
      ∀ row ∈ rows, row.length = width.toNat ∧
        ∀ ch ∈ row, ch ∈ normalizeAndExpandLetters letters (cleanWordsOf words) := by
  have hne := normalizeAndExpandLetters_ne_nil letters (cleanWordsOf words) hl
  refine ⟨hne, ?_⟩
  have hd : ¬(width ≤ 0 ∨ height ≤ 0) := by omega
  have hnl : ¬(normalizeAndExpandLetters letters (cleanWordsOf words)).isEmpty := by
    simpa [List.isEmpty_iff] using hne
  refine ⟨(randomRows (normalizeAndExpandLetters letters (cleanWordsOf words))
      width.toNat (makeRNG options.seed ext) height.toNat).1, ?_, ?_, ?_⟩
  · simp only [generateWordSearchGrid, if_neg hd, hww, if_true, hnl, Bool.false_eq_true, if_false]
  · exact randomRows_length _ _ _ _
  · exact randomRows_shape_mem _ _ _ _ hne

/-! ## Grid access lemmas -/

theorem gridSet_length (g : Grid) (r c : Nat) (v : Cell) :
    (gridSet g r c v).length = g.length := by
  simp [gridSet]

theorem getD_row_length {W H : Nat} {g : Grid} (h : GridShape W H g)
    {r : Nat} (hr : r < H) : (g.getD r []).length = W := by
  obtain ⟨hlen, hrow⟩ := h
  have hrl : r < g.length := by omega
  rw [List.getD_eq_getElem?_getD, List.getElem?_eq_getElem hrl]
  exact hrow _ (List.getElem_mem hrl)

theorem getD_set_self {α} (l : List α) (i : Nat) (a d : α) (h : i < l.length) :
    (l.set i a).getD i d = a := by
  rw [List.getD_eq_getElem?_getD, List.getElem?_set_self h, Option.getD_some]

theorem getD_set_ne {α} (l : List α) {i j : Nat} (a d : α) (h : i ≠ j) :
    (l.set i a).getD j d = l.getD j d := by
  rw [List.getD_eq_getElem?_getD, List.getElem?_set_ne h, List.getD_eq_getElem?_getD]

theorem gridShape_set {W H : Nat} {g : Grid} (h : GridShape W H g) (r c : Nat) (v : Cell) :
    GridShape W H (gridSet g r c v) := by
  obtain ⟨hlen, hrow⟩ := h
  refine ⟨by simp [gridSet, hlen], ?_⟩
  intro row hmem
  by_cases hr : r < H
  · rcases List.mem_or_eq_of_mem_set hmem with hmem' | rfl
    · exact hrow row hmem'
    · rw [List.length_set]
      exact getD_row_length ⟨hlen, hrow⟩ hr
  · have hid : gridSet g r c v = g := by
      unfold gridSet
      exact List.set_eq_of_length_le (by omega)
    rw [hid] at hmem
    exact hrow row hmem

theorem gridGet_set_self {W H : Nat} {g : Grid} (hs : GridShape W H g)
    {r c : Nat} (hr : r < H) (hc : c < W) (v : Cell) :
    gridGet (gridSet g r c v) r c = v := by
  have hrl : r < g.length := by
    rw [hs.1]; exact hr
  have hrowlen : (g.getD r []).length = W := getD_row_length hs hr
  show ((g.set r ((g.getD r []).set c v)).getD r []).getD c none = v
  rw [getD_set_self g r _ [] hrl]
  exact getD_set_self _ c v none (by omega)

theorem gridGet_set_ne {g : Grid} {r c r' c' : Nat} (v : Cell)
    (h : r ≠ r' ∨ c ≠ c') :
    gridGet (gridSet g r c v) r' c' = gridGet g r' c' := by
  show ((g.set r ((g.getD r []).set c v)).getD r' []).getD c' none = (g.getD r' []).getD c' none
  rcases h with h | h
  · rw [getD_set_ne g _ [] h]
  · by_cases hrr : r = r'
    · subst hrr
      by_cases hrl : r < g.length
      · rw [getD_set_self g r _ [] hrl, getD_set_ne _ _ none h]
      · rw [List.set_eq_of_length_le (by omega)]
    · rw [getD_set_ne g _ [] hrr]

/-- Witness for C8 (amended): `words = []`, `letters = ["A"]`, `2 × 2`. -/
theorem no_words_with_single_char_letter_returns_witness :
    ((cleanWordsOf []).isEmpty ∧ (∃ t ∈ [['A']], ∃ c, t.map Char.toUpper = [c]) ∧
      (0 : Int) < 2 ∧ (0 : Int) < 2) ∧
    (normalizeAndExpandLetters [['A']] (cleanWordsOf []) ≠ [] ∧
      ∃ rows, (generateWordSearchGrid [] [['A']] 2 2 ⟨none, none, none, false, []⟩ extZero).result =
          .ok ⟨rows, [], none⟩ ∧
        rows.length = (2 : Int).toNat ∧
        ∀ row ∈ rows, row.length = (2 : Int).toNat ∧
          ∀ ch ∈ row, ch ∈ normalizeAndExpandLetters [['A']] (cleanWordsOf [])) :=
  ⟨⟨by decide, ⟨['A'], by simp, 'A', by decide⟩, by norm_num, by norm_num⟩,
    no_words_with_single_char_letter_returns [] [['A']] 2 2 ⟨none, none, none, false, []⟩ extZero
      (by decide) ⟨['A'], by simp, 'A', by decide⟩ (by norm_num) (by norm_num)⟩

/-! ## Stable sort permutation lemmas -/

theorem insertLe_perm {α} (le : α → α → Bool) (x : α) (l : List α) :
    (insertLe le x l).Perm (x :: l) := by
  induction l with
  | nil => exact List.Perm.refl _
  | cons y ys ih =>
    unfold insertLe
    split
    · exact ((ih.cons y).trans (List.Perm.swap x y ys))
    · exact List.Perm.refl _

theorem stableSort_foldl_perm {α} (le : α → α → Bool) :
    ∀ (l acc : List α), (l.foldl (fun acc x => insertLe le x acc) acc).Perm (acc ++ l) := by
  intro l
  induction l with
  | nil => intro acc; simp
  | cons x xs ih =>
    intro acc
    have h1 := ih (insertLe le x acc)
    have h2 : (insertLe le x acc ++ xs).Perm (acc ++ x :: xs) :=
      ((insertLe_perm le x acc).append_right xs).trans List.perm_middle.symm
    simp only [List.foldl_cons]
    exact h1.trans h2

theorem stableSort_perm {α} (le : α → α → Bool) (l : List α) :
    (stableSort le l).Perm l := by
  simpa using stableSort_foldl_perm le l []

theorem stableSort_mem {α} (le : α → α → Bool) (l : List α) (x : α) :
    x ∈ stableSort le l ↔ x ∈ l :=
  (stableSort_perm le l).mem_iff

theorem stableSort_length {α} (le : α → α → Bool) (l : List α) :
    (stableSort le l).length = l.length :=
  (stableSort_perm le l).length_eq

/-! ## Claim C5: the free placement strategy -/

theorem plcCell_inj (row col : Nat) (dir : Dir) {j k : Nat}
    (h : plcCell row col dir j = plcCell row col dir k) : j = k := by
  cases dir <;> (simp [plcCell] at h; omega)

/-- Membership in `freePossible` gives in-bounds, all-empty covered cells
and the window-level bounds. -/
theorem freePossible_spec {W H : Nat} {g : Grid} {w : Str} {t : Nat × Nat × Dir}
    (ht : t ∈ freePossible W H g w) :
    (∀ k < w.length,
      (plcCell t.1 t.2.1 t.2.2 k).1 < H ∧ (plcCell t.1 t.2.1 t.2.2 k).2 < W) ∧
    (∀ k < w.length,
      gridGet g (plcCell t.1 t.2.1 t.2.2 k).1 (plcCell t.1 t.2.1 t.2.2 k).2 = none) ∧
    (match t.2.2 with
      | .H => t.1 < H ∧ t.2.1 + w.length ≤ W
      | .V => t.2.1 < W ∧ t.1 + w.length ≤ H) := by
  unfold freePossible at ht
  rcases List.mem_append.mp ht with hm | hm
  · by_cases hg : w.length ≤ W
    · rw [if_pos hg] at hm
      simp only [List.mem_flatMap, List.mem_filterMap, List.mem_range] at hm
      obtain ⟨r, hr, c, hc, hcond⟩ := hm
      split at hcond
      · rename_i hall
        cases hcond
        rw [List.all_eq_true] at hall
        refine ⟨?_, ?_, ⟨hr, by dsimp only; omega⟩⟩
        · intro k hk
          simp only [plcCell]
          exact ⟨hr, by omega⟩
        · intro k hk
          have hcell := eq_of_beq (hall k (List.mem_range.mpr hk))
          simpa [plcCell] using hcell
      · cases hcond
    · rw [if_neg hg] at hm
      cases hm
  · by_cases hg : w.length ≤ H
    · rw [if_pos hg] at hm
      simp only [List.mem_flatMap, List.mem_filterMap, List.mem_range] at hm
      obtain ⟨r, hr, c, hc, hcond⟩ := hm
      split at hcond
      · rename_i hall
        cases hcond
        rw [List.all_eq_true] at hall
        refine ⟨?_, ?_, ⟨by dsimp only; omega, by dsimp only; omega⟩⟩
        · intro k hk
          simp only [plcCell]
          exact ⟨by omega, hc⟩
        · intro k hk
          have hcell := eq_of_beq (hall k (List.mem_range.mpr hk))
          simpa [plcCell] using hcell
      · cases hcond
    · rw [if_neg hg] at hm
      cases hm

/-- Writing a window does not change cells outside it. -/
theorem writeFold_untouched (w : Str) (row col : Nat) (dir : Dir) (r' c' : Nat) :
    ∀ (ks : List Nat) (g : Grid),
    (∀ k ∈ ks, plcCell row col dir k ≠ (r', c')) →
    gridGet (ks.foldl (fun g k =>
      let rc := plcCell row col dir k
      gridSet g rc.1 rc.2 (some (wchar w k))) g) r' c' = gridGet g r' c' := by
  intro ks
  induction ks with
  | nil => intro g _; rfl
  | cons k rest ih =>
    intro g h
    rw [List.foldl_cons, ih _ (fun j hj => h j (List.mem_cons_of_mem _ hj))]
    refine gridGet_set_ne _ ?_
    have hk := h k (List.mem_cons_self k rest)
    by_contra hcon
    push_neg at hcon
    apply hk
    have hpair : plcCell row col dir k =
        ((plcCell row col dir k).1, (plcCell row col dir k).2) := rfl
    rw [hpair, hcon.1, hcon.2]

theorem writeFold_shape {W H : Nat} (w : Str) (row col : Nat) (dir : Dir) :
    ∀ (ks : List Nat) (g : Grid), GridShape W H g →
    GridShape W H (ks.foldl (fun g k =>
      let rc := plcCell row col dir k
      gridSet g rc.1 rc.2 (some (wchar w k))) g) := by
  intro ks
  induction ks with
  | nil => intro g h; exact h
  | cons k rest ih =>
    intro g h
    exact ih _ (gridShape_set h _ _ _)

theorem writeFold_window {W H : Nat} (w : Str) (row col : Nat) (dir : Dir) :
    ∀ (ks : List Nat) (g : Grid), GridShape W H g → ks.Nodup →
    (∀ j ∈ ks, (plcCell row col dir j).1 < H ∧ (plcCell row col dir j).2 < W) →
    ∀ k ∈ ks,
    gridGet (ks.foldl (fun g k =>
        let rc := plcCell row col dir k
        gridSet g rc.1 rc.2 (some (wchar w k))) g)
      (plcCell row col dir k).1 (plcCell row col dir k).2 = some (wchar w k) := by
  intro ks
  induction ks with
  | nil => intro g _ _ _ k hk; cases hk
  | cons k' rest ih =>
    intro g hs hnd hb k hk
    rw [List.foldl_cons]
    rcases List.mem_cons.mp hk with rfl | hk'
    · -- the head write survives the tail writes
      have huntch : ∀ j ∈ rest, plcCell row col dir j ≠
          ((plcCell row col dir k).1, (plcCell row col dir k).2) := by
        intro j hj hcell
        have hjk : j ≠ k := fun hjeq => (List.nodup_cons.mp hnd).1 (hjeq ▸ hj)
        exact hjk (plcCell_inj row col dir (by rw [hcell]))
      rw [writeFold_untouched w row col dir _ _ rest _ huntch]
      exact gridGet_set_self hs (hb k (List.mem_cons_self _ _)).1
        (hb k (List.mem_cons_self _ _)).2 _
    · exact ih _ (gridShape_set hs _ _ _) (List.nodup_cons.mp hnd).2
        (fun j hj => hb j (List.mem_cons_of_mem _ hj)) k hk'

theorem freeLoop_spec (W H total : Nat) :
    ∀ (ws : List Str) (st : FreeSt), (∀ w ∈ ws, w ≠ []) → FreeInv W H st →
    FreeInv W H (freeLoop W H total ws st) ∧
    ∃ k, k ≤ ws.length ∧
      (freeLoop W H total ws st).placements.map PlcOut.word =
        st.placements.map PlcOut.word ++ ws.take k ∧
      (freeLoop W H total ws st).placed = st.placed + k ∧
      (freeLoop W H total ws st).placements.length = st.placements.length + k := by
  intro ws
  induction ws with
  | nil =>
    intro st _ h
    exact ⟨h, 0, by simp, by simp [freeLoop], by simp [freeLoop], by simp [freeLoop]⟩
  | cons w rest ih =>
    intro st hne h
    show FreeInv W H (freeLoop W H total (w :: rest) st) ∧ _
    unfold freeLoop
    by_cases hp : (freePossible W H st.grid w).isEmpty
    · rw [if_pos hp]
      exact ⟨h, 0, by simp, by simp, by simp, by simp⟩
    · rw [if_neg hp]
      have hplist : freePossible W H st.grid w ≠ [] := by
        simpa [List.isEmpty_iff] using hp
      set t := (randomChoice (freePossible W H st.grid w) st.rng).1 with htdef
      have ht : t ∈ freePossible W H st.grid w := randomChoice_mem _ _ hplist
      obtain ⟨hbcell, hempty, hwin⟩ := freePossible_spec ht
      have hshape' : GridShape W H (freeWrite st.grid w t) := by
        unfold freeWrite
        exact writeFold_shape w t.1 t.2.1 t.2.2 _ _ h.1
      have hwindow : ∀ k < w.length,
          gridGet (freeWrite st.grid w t)
            (plcCell t.1 t.2.1 t.2.2 k).1 (plcCell t.1 t.2.1 t.2.2 k).2 =
            some (wchar w k) := by
        intro k hk
        unfold freeWrite
        exact writeFold_window w t.1 t.2.1 t.2.2 _ _ h.1 (List.nodup_range _)
          (fun j hj => hbcell j (List.mem_range.mp hj)) k (List.mem_range.mpr hk)
      have huntouched : ∀ r' c', gridGet st.grid r' c' ≠ none →
          gridGet (freeWrite st.grid w t) r' c' = gridGet st.grid r' c' := by
        intro r' c' hrc
        unfold freeWrite
        apply writeFold_untouched
        intro k hkmem hcell
        apply hrc
        have hk := List.mem_range.mp hkmem
        have := hempty k hk
        rw [hcell] at this
        exact this
      have hinv1 : FreeInv W H
          { grid := freeWrite st.grid w t,
            placements := st.placements ++ [⟨w, t.1, t.2.1, t.2.2⟩],
            placed := st.placed + 1,
            rng := (randomChoice (freePossible W H st.grid w) st.rng).2,
            prog := st.prog ++ [((st.placed + 1 : ℚ)) / (total : ℚ)] } := by
        refine ⟨hshape', ?_⟩
        intro pl hpl
        rcases List.mem_append.mp hpl with hold | hnew
        · obtain ⟨hb, hsp⟩ := h.2 pl hold
          refine ⟨hb, ?_⟩
          intro k hk
          rw [huntouched _ _ (by rw [hsp k hk]; simp)]
          exact hsp k hk
        · rw [List.mem_singleton.mp hnew]
          constructor
          · show PlBounds W H ⟨w, t.1, t.2.1, t.2.2⟩
            unfold PlBounds
            exact hwin
          · intro k hk
            exact hwindow k hk
      obtain ⟨hi, k', hk'le, hmap, hplaced, hlen⟩ :=
        ih _ (fun u hu => hne u (List.mem_cons_of_mem _ hu)) hinv1
      refine ⟨hi, k' + 1, by simp; omega, ?_, ?_, ?_⟩
      · rw [hmap]
        simp [List.take_succ_cons]
      · rw [hplaced]
        simp only
        omega
      · rw [hlen]
        simp only [List.length_append, List.length_cons, List.length_nil]
        omega

/-- With the constantly-zero oracle, `randomChoice` picks the head. -/
theorem randomChoice_extZero {α} [Inhabited α] (l : List α) (i : Nat) :
    randomChoice l (.ext extZero i) = (l.getD 0 default, .ext extZero (i + 1)) := by
  have h0 : jsFloorNat ((0 : ℚ) * l.length) = 0 := by
    rw [zero_mul]
    unfold jsFloorNat
    rw [Int.floor_zero]
    rfl
  show (l.getD (jsFloorNat ((extZero i).val * l.length)) default,
    RngState.ext extZero (i + 1)) = _
  have hz : (extZero i).val = 0 := rfl
  rw [hz, h0]

/-- The committed window is a member of the all-empty window list. -/
theorem freeChoice_mem (W H : Nat) (g : Grid) (w : Str) (u : ℚ)
    (hne : freePossible W H g w ≠ []) (h0 : 0 ≤ u) (h1 : u < 1) :
    freeChoice W H g w u ∈ freePossible W H g w := by
  unfold freeChoice
  have hlen : 0 < (freePossible W H g w).length := List.length_pos.mpr hne
  have hidx := jsFloorNat_lt u (freePossible W H g w).length h0 h1 hlen
  rw [List.getD_eq_getElem _ _ hidx]
  exact List.getElem_mem hidx

/-- The per-word account of the free loop: each word in turn is committed at
exactly the floor-indexed entry of its all-empty window list for the next
oracle draw; `gs` records the successive grids and `us` the draws, and on an
early stop the next word's all-empty window list is empty. -/
theorem freeLoop_trace (W H total : Nat) : ∀ (ws : List Str) (st : FreeSt),
    ∃ k, k ≤ ws.length ∧ ∃ gs : List Grid, ∃ us : List ℚ,
      gs.length = k + 1 ∧ us.length = k ∧
      gs.getD 0 [] = st.grid ∧
      (freeLoop W H total ws st).placements = st.placements ++
        (List.range k).map (fun i =>
          ⟨ws.getD i [],
            (freeChoice W H (gs.getD i []) (ws.getD i []) (us.getD i 0)).1,
            (freeChoice W H (gs.getD i []) (ws.getD i []) (us.getD i 0)).2.1,
            (freeChoice W H (gs.getD i []) (ws.getD i []) (us.getD i 0)).2.2⟩) ∧
      (∀ i < k,
        freePossible W H (gs.getD i []) (ws.getD i []) ≠ [] ∧
        0 ≤ us.getD i 0 ∧ us.getD i 0 < 1 ∧
        gs.getD (i + 1) [] = freeWrite (gs.getD i []) (ws.getD i [])
          (freeChoice W H (gs.getD i []) (ws.getD i []) (us.getD i 0))) ∧
      (k < ws.length → freePossible W H (gs.getD k []) (ws.getD k []) = []) := by
  intro ws
  induction ws with
  | nil =>
    intro st
    refine ⟨0, Nat.le_refl 0, [st.grid], [], rfl, rfl, rfl, by simp [freeLoop], ?_, ?_⟩
    · intro i hi
      exact absurd hi (Nat.not_lt_zero i)
    · intro hlt
      exact absurd hlt (Nat.lt_irrefl 0)
  | cons w rest ih =>
    intro st
    by_cases hp : (freePossible W H st.grid w).isEmpty
    · refine ⟨0, Nat.zero_le _, [st.grid], [], rfl, rfl, rfl, ?_, ?_, ?_⟩
      · show (freeLoop W H total (w :: rest) st).placements = st.placements ++ _
        unfold freeLoop
        rw [if_pos hp]
        simp
      · intro i hi
        exact absurd hi (Nat.not_lt_zero i)
      · intro _
        show freePossible W H st.grid w = []
        simpa [List.isEmpty_iff] using hp
    · have hplist : freePossible W H st.grid w ≠ [] := by
        simpa [List.isEmpty_iff] using hp
      have hloop : freeLoop W H total (w :: rest) st = freeLoop W H total rest
          { grid := freeWrite st.grid w
              (freeChoice W H st.grid w (st.rng.next.1).val),
            placements := st.placements ++
              [⟨w, (freeChoice W H st.grid w (st.rng.next.1).val).1,
                (freeChoice W H st.grid w (st.rng.next.1).val).2.1,
                (freeChoice W H st.grid w (st.rng.next.1).val).2.2⟩],
            placed := st.placed + 1,
            rng := st.rng.next.2,
            prog := st.prog ++ [((st.placed + 1 : ℚ)) / (total : ℚ)] } := by
        conv_lhs => rw [freeLoop]
        rw [if_neg hp]
        rfl
      obtain ⟨k, hk, gs, us, hglen, hulen, hg0, hplc, hstep, hstop⟩ := ih
        { grid := freeWrite st.grid w (freeChoice W H st.grid w (st.rng.next.1).val),
          placements := st.placements ++
            [⟨w, (freeChoice W H st.grid w (st.rng.next.1).val).1,
              (freeChoice W H st.grid w (st.rng.next.1).val).2.1,
              (freeChoice W H st.grid w (st.rng.next.1).val).2.2⟩],
          placed := st.placed + 1,
          rng := st.rng.next.2,
          prog := st.prog ++ [((st.placed + 1 : ℚ)) / (total : ℚ)] }
      refine ⟨k + 1, by simp; omega, st.grid :: gs, (st.rng.next.1).val :: us,
        by simp [hglen], by simp [hulen], rfl, ?_, ?_, ?_⟩
      · rw [hloop, hplc]
        simp only [List.append_assoc, List.singleton_append, List.range_succ_eq_map,
          List.map_cons, List.map_map]
        congr 1
      · intro i hi
        match i with
        | 0 =>
          exact ⟨hplist, (st.rng.next.1).2.1, (st.rng.next.1).2.2, hg0⟩
        | j + 1 =>
          exact hstep j (by omega)
      · intro hlt
        exact hstop (by simpa using hlt)

theorem gridShape_replicate (W H : Nat) :
    GridShape W H (List.replicate H (List.replicate W (none : Cell))) := by
  refine ⟨by simp, ?_⟩
  intro row h
  rw [List.eq_of_mem_replicate h]
  simp

/-- A cell known to hold a letter keeps it through the random fill. -/
theorem freeFillRow_get (allowed : List Char) :
    ∀ (row : List Cell) (rng : RngState) (c : Nat) (ch : Char),
    row.getD c none = some ch →
    (freeFillRow allowed row rng).1.getD c 'A' = ch := by
  intro row
  induction row with
  | nil =>
    intro rng c ch h
    simp at h
  | cons cell rest ih =>
    intro rng c ch h
    cases c with
    | zero =>
      simp only [List.getD_cons_zero] at h
      subst h
      unfold freeFillRow
      simp
    | succ c' =>
      simp only [List.getD_cons_succ] at h
      unfold freeFillRow
      cases cell with
      | some ch' => simpa using ih rng c' ch h
      | none => simpa using ih _ c' ch h

theorem freeFillRows_get (allowed : List Char) :
    ∀ (g : Grid) (rng : RngState) (r c : Nat) (ch : Char),
    gridGet g r c = some ch →
    ((freeFillRows allowed g rng).1.getD r []).getD c 'A' = ch := by
  intro g
  induction g with
  | nil =>
    intro rng r c ch h
    simp [gridGet] at h
  | cons row rest ih =>
    intro rng r c ch h
    cases r with
    | zero =>
      have hrow : row.getD c none = some ch := h
      unfold freeFillRows
      simpa using freeFillRow_get allowed row rng c ch hrow
    | succ r' =>
      have hrest : gridGet rest r' c = some ch := h
      unfold freeFillRows
      simpa using ih _ r' c ch hrest

/-- The uniform-choice characterisation: for an `n`-element candidate list,
the index `Math.floor(r * n)` equals `i` exactly on the subinterval
`[i/n, (i+1)/n)` of `[0, 1)` — all `n` preimages have equal length `1/n`. -/
theorem uniform_index_interval (n i : Nat) (q : ℚ) (hi : i < n)
    (h0 : 0 ≤ q) (_h1 : q < 1) :
    jsFloorNat (q * n) = i ↔ (i : ℚ) / (n : ℚ) ≤ q ∧ q < ((i : ℚ) + 1) / (n : ℚ) := by
  have hn : (0 : ℚ) < (n : ℚ) := by exact_mod_cast Nat.pos_of_ne_zero (by omega)
  have hnn : 0 ≤ q * (n : ℚ) := by positivity
  have hfl0 : 0 ≤ Int.floor (q * (n : ℚ)) := Int.floor_nonneg.mpr hnn
  unfold jsFloorNat
  constructor
  · intro h
    have hfi : Int.floor (q * (n : ℚ)) = (i : ℤ) := by omega
    have hiff := Int.floor_eq_iff.mp hfi
    constructor
    · rw [div_le_iff₀ hn]
      exact_mod_cast hiff.1
    · rw [lt_div_iff₀ hn]
      push_cast at hiff ⊢
      exact hiff.2
  · intro ⟨hle, hlt⟩
    have hfi : Int.floor (q * (n : ℚ)) = (i : ℤ) := by
      apply Int.floor_eq_iff.mpr
      constructor
      · rw [div_le_iff₀ hn] at hle
        exact_mod_cast hle
      · rw [lt_div_iff₀ hn] at hlt
        push_cast
        exact hlt
    omega

/-- C5 (amended): the free strategy sorts the words longest-first and places
them in that order with no backtracking; each word is committed at entry
`Math.floor(u * possible.length)` of the list of its windows whose covered
cells are ALL EMPTY (`freePossible`) for the next oracle draw `u` — the
uniform index over that list, and a member of it; overlap with matching
letters is never accepted. The loop stops at the first word whose all-empty
window list is empty, omitting all remaining words, with `partial` set
exactly when not every word was placed; with well-shaped inputs the call
never throws — only input-shape validation can raise. -/
theorem free_strategy_contract (words letters : List Str) (width height : Int)
    (ext : Nat → U01) (hwpos : 0 < width) (hhpos : 0 < height)
    (hl : normalizeAndExpandLetters letters (cleanWordsOf words) ≠ []) :
    ∃ res, (generateFreeWordSearchGrid words letters width height ext).result = .ok res ∧
      res.placements.map PlcOut.word =
        (freeSortedWords (cleanWordsOf words)).take res.placements.length ∧
      res.isPartial =
        decide (res.placements.length < (freeSortedWords (cleanWordsOf words)).length) ∧
      (∀ pl ∈ res.placements, placementSpells width.toNat height.toNat res.grid pl) ∧
      ∃ gs : List Grid, ∃ us : List ℚ,
        gs.length = res.placements.length + 1 ∧
        us.length = res.placements.length ∧
        gs.getD 0 [] = List.replicate height.toNat (List.replicate width.toNat none) ∧
        (∀ i < res.placements.length,
          freePossible width.toNat height.toNat (gs.getD i [])
            ((freeSortedWords (cleanWordsOf words)).getD i []) ≠ [] ∧
          0 ≤ us.getD i 0 ∧ us.getD i 0 < 1 ∧
          freeChoice width.toNat height.toNat (gs.getD i [])
              ((freeSortedWords (cleanWordsOf words)).getD i []) (us.getD i 0) ∈
            freePossible width.toNat height.toNat (gs.getD i [])
              ((freeSortedWords (cleanWordsOf words)).getD i []) ∧
          res.placements.getD i ⟨[], 0, 0, Dir.H⟩ =
            ⟨(freeSortedWords (cleanWordsOf words)).getD i [],
              (freeChoice width.toNat height.toNat (gs.getD i [])
                ((freeSortedWords (cleanWordsOf words)).getD i []) (us.getD i 0)).1,
              (freeChoice width.toNat height.toNat (gs.getD i [])
                ((freeSortedWords (cleanWordsOf words)).getD i []) (us.getD i 0)).2.1,
              (freeChoice width.toNat height.toNat (gs.getD i [])
                ((freeSortedWords (cleanWordsOf words)).getD i []) (us.getD i 0)).2.2⟩ ∧
          gs.getD (i + 1) [] = freeWrite (gs.getD i [])
            ((freeSortedWords (cleanWordsOf words)).getD i [])
            (freeChoice width.toNat height.toNat (gs.getD i [])
              ((freeSortedWords (cleanWordsOf words)).getD i []) (us.getD i 0))) ∧
        (res.placements.length < (freeSortedWords (cleanWordsOf words)).length →
          freePossible width.toNat height.toNat (gs.getD res.placements.length [])
            ((freeSortedWords (cleanWordsOf words)).getD res.placements.length []) =
            []) := by
  have hd : ¬(width ≤ 0 ∨ height ≤ 0) := by omega
  have hnl : ¬(normalizeAndExpandLetters letters (cleanWordsOf words)).isEmpty := by
    simpa [List.isEmpty_iff] using hl
  have hne : ∀ w ∈ freeSortedWords (cleanWordsOf words), w ≠ [] := by
    intro w hw
    rw [freeSortedWords, stableSort_mem] at hw
    have := List.of_mem_filter hw
    simpa [List.isEmpty_iff] using this
  set ws := freeSortedWords (cleanWordsOf words) with hws
  set st0 : FreeSt :=
    ⟨List.replicate height.toNat (List.replicate width.toNat none), [], 0, .ext ext 0, []⟩
    with hst0
  set stF := freeLoop width.toNat height.toNat ws.length ws st0 with hstF
  obtain ⟨hinv, k, hkle, hmap, hplaced, hlen⟩ :=
    freeLoop_spec width.toNat height.toNat ws.length ws st0 hne
      ⟨gridShape_replicate _ _, by simp [hst0]⟩
  have hplacements0 : st0.placements = [] := rfl
  have hplaced0 : st0.placed = 0 := rfl
  rw [hplacements0] at hmap
  rw [hplaced0] at hplaced
  rw [hplacements0] at hlen
  simp only [List.map_nil, List.nil_append, List.length_nil, Nat.zero_add] at hmap hplaced hlen
  obtain ⟨kt, hkt, gs, us, hglen, hulen, hg0, hplct, hstept, hstopt⟩ :=
    freeLoop_trace width.toNat height.toNat ws.length ws st0
  rw [hplacements0, List.nil_append] at hplct
  have hlenk : stF.placements.length = kt := by
    rw [hstF, hplct]
    simp
  have hgetD : ∀ i, i < kt → stF.placements.getD i ⟨[], 0, 0, Dir.H⟩ =
      ⟨ws.getD i [],
        (freeChoice width.toNat height.toNat (gs.getD i []) (ws.getD i [])
          (us.getD i 0)).1,
        (freeChoice width.toNat height.toNat (gs.getD i []) (ws.getD i [])
          (us.getD i 0)).2.1,
        (freeChoice width.toNat height.toNat (gs.getD i []) (ws.getD i [])
          (us.getD i 0)).2.2⟩ := by
    intro i hik
    rw [hstF, hplct, List.getD_eq_getElem _ _ (by simpa using hik)]
    simp
  refine ⟨⟨(freeFillRows (normalizeAndExpandLetters letters (cleanWordsOf words))
      stF.grid stF.rng).1, stF.placements, decide (stF.placed < ws.length)⟩,
    ?_, ?_, ?_, ?_, gs, us, ?_, ?_, hg0, ?_, ?_⟩
  · show (generateFreeWordSearchGrid words letters width height ext).result = .ok _
    simp only [generateFreeWordSearchGrid, if_neg hd, hnl, Bool.false_eq_true, if_false]
  · simp only
    rw [hmap, hlen]
  · simp only
    rw [hplaced, hlen]
  · intro pl hpl
    obtain ⟨hb, hsp⟩ := hinv.2 pl hpl
    refine ⟨hb, ?_⟩
    intro kk hkk
    exact freeFillRows_get _ _ _ _ _ _ (hsp kk hkk)
  · simp only
    rw [hlenk, hglen]
  · simp only
    rw [hlenk, hulen]
  · intro i hi
    simp only at hi
    rw [hlenk] at hi
    obtain ⟨hne', hu0, hu1, hgstep⟩ := hstept i hi
    exact ⟨hne', hu0, hu1, freeChoice_mem _ _ _ _ _ hne' hu0 hu1, hgetD i hi, hgstep⟩
  · intro hlt
    simp only at hlt ⊢
    rw [hlenk] at hlt ⊢
    exact hstopt hlt

/-- C5 counterexample: on `["AB", "BC"]` over a `3 × 1` grid with the zero
oracle, the free generator places `AB` at `(0,0)` horizontally, then finds no
all-empty window for `BC` and stops, returning a partial result that omits
`BC` — although `BC` still has a window that is valid in the specification's
sense (every covered cell empty or already holding the matching letter,
overlap allowed): the code never accepts overlap. -/
theorem free_strategy_overlap_window_ignored :
    ∃ res, (generateFreeWordSearchGrid [['A', 'B'], ['B', 'C']] [] 3 1 extZero).result =
        .ok res ∧
      res.placements = [⟨['A', 'B'], 0, 0, Dir.H⟩] ∧
      res.isPartial = true ∧
      freeWrite (List.replicate (1 : Int).toNat (List.replicate (3 : Int).toNat none))
          ['A', 'B'] (0, 0, Dir.H) = [[some 'A', some 'B', none]] ∧
      freePossible (3 : Int).toNat (1 : Int).toNat [[some 'A', some 'B', none]]
        ['B', 'C'] = [] ∧
      (0, 1, Dir.H) ∈
        freeValidSpec (3 : Int).toNat (1 : Int).toNat [[some 'A', some 'B', none]]
          ['B', 'C'] := by
  have hd : ¬((3 : Int) ≤ 0 ∨ (1 : Int) ≤ 0) := by omega
  have hal : ¬(normalizeAndExpandLetters []
      (cleanWordsOf [['A', 'B'], ['B', 'C']])).isEmpty = true := by decide
  have hws : freeSortedWords (cleanWordsOf [['A', 'B'], ['B', 'C']]) =
      [['A', 'B'], ['B', 'C']] := by decide
  have h1 : freePossible (Int.toNat 3) (Int.toNat 1)
      (List.replicate (Int.toNat 1) (List.replicate (Int.toNat 3) none)) ['A', 'B'] =
      [(0, 0, Dir.H), (0, 1, Dir.H)] := by decide
  have h2 : freePossible (Int.toNat 3) (Int.toNat 1)
      (freeWrite (List.replicate (Int.toNat 1) (List.replicate (Int.toNat 3) none))
        ['A', 'B'] (0, 0, Dir.H)) ['B', 'C'] = [] := by decide
  have hstepA : ∀ total : Nat,
      freeLoop (Int.toNat 3) (Int.toNat 1) total [['A', 'B'], ['B', 'C']]
        ⟨List.replicate (Int.toNat 1) (List.replicate (Int.toNat 3) none), [], 0,
          .ext extZero 0, []⟩ =
      freeLoop (Int.toNat 3) (Int.toNat 1) total [['B', 'C']]
        ⟨freeWrite (List.replicate (Int.toNat 1) (List.replicate (Int.toNat 3) none))
            ['A', 'B'] (0, 0, Dir.H),
          [⟨['A', 'B'], 0, 0, Dir.H⟩], 1, .ext extZero 1,
          [((0 + 1 : ℚ)) / (total : ℚ)]⟩ := by
    intro total
    conv_lhs => rw [freeLoop]
    rw [h1, if_neg (by decide), randomChoice_extZero]
    rfl
  have hstepB : ∀ total : Nat,
      freeLoop (Int.toNat 3) (Int.toNat 1) total [['B', 'C']]
        ⟨freeWrite (List.replicate (Int.toNat 1) (List.replicate (Int.toNat 3) none))
            ['A', 'B'] (0, 0, Dir.H),
          [⟨['A', 'B'], 0, 0, Dir.H⟩], 1, .ext extZero 1,
          [((0 + 1 : ℚ)) / (total : ℚ)]⟩ =
      ⟨freeWrite (List.replicate (Int.toNat 1) (List.replicate (Int.toNat 3) none))
          ['A', 'B'] (0, 0, Dir.H),
        [⟨['A', 'B'], 0, 0, Dir.H⟩], 1, .ext extZero 1,
        [((0 + 1 : ℚ)) / (total : ℚ)]⟩ := by
    intro total
    conv_lhs => rw [freeLoop]
    simp only [h2, List.isEmpty_nil, if_true]
  have hloop : ∀ total : Nat,
      freeLoop (Int.toNat 3) (Int.toNat 1) total [['A', 'B'], ['B', 'C']]
        ⟨List.replicate (Int.toNat 1) (List.replicate (Int.toNat 3) none), [], 0,
          .ext extZero 0, []⟩ =
      ⟨freeWrite (List.replicate (Int.toNat 1) (List.replicate (Int.toNat 3) none))
          ['A', 'B'] (0, 0, Dir.H),
        [⟨['A', 'B'], 0, 0, Dir.H⟩], 1, .ext extZero 1,
        [((0 + 1 : ℚ)) / (total : ℚ)]⟩ :=
    fun total => (hstepA total).trans (hstepB total)
  refine ⟨⟨(freeFillRows (normalizeAndExpandLetters []
      (cleanWordsOf [['A', 'B'], ['B', 'C']]))
      (freeWrite (List.replicate (Int.toNat 1) (List.replicate (Int.toNat 3) none))
        ['A', 'B'] (0, 0, Dir.H))
      (.ext extZero 1)).1,
    [⟨['A', 'B'], 0, 0, Dir.H⟩], true⟩, ?_, rfl, rfl, by decide, h2, by decide⟩
  show (generateFreeWordSearchGrid [['A', 'B'], ['B', 'C']] [] 3 1 extZero).result = .ok _
  simp only [generateFreeWordSearchGrid, if_neg hd, hal, Bool.false_eq_true, if_false]
  rw [hws, hloop]
  rfl

/-! ## Counting toolkit -/

theorem bool_eq_of_iff {a b : Bool} (h : a = true ↔ b = true) : a = b := by
  cases a <;> cases b <;> simp_all

theorem countP_eq_sum_map {α} (p : α → Bool) (l : List α) :
    l.countP p = (l.map fun x => if p x then 1 else 0).sum := by
  induction l with
  | nil => rfl
  | cons x xs ih =>
    rw [List.countP_cons, List.map_cons, List.sum_cons, ih]
    by_cases h : p x <;> simp [h] <;> omega

theorem sum_map_split {α} (q : α → Bool) (f : α → Nat) (l : List α) :
    (l.map f).sum = ((l.filter q).map f).sum + ((l.filter fun x => !q x).map f).sum := by
  induction l with
  | nil => rfl
  | cons x xs ih =>
    by_cases h : q x <;> simp [List.filter_cons, h, ih] <;> omega

theorem sum_map_add {α} (f g : α → Nat) (l : List α) :
    (l.map fun x => f x + g x).sum = (l.map f).sum + (l.map g).sum := by
  induction l with
  | nil => rfl
  | cons x xs ih => simp [ih]; omega

theorem countP_filter_split {α} (q p : α → Bool) (l : List α) :
    l.countP p = (l.filter q).countP p + (l.filter fun x => !q x).countP p := by
  simp only [countP_eq_sum_map]
  exact sum_map_split q _ l

theorem sum_map_congr {α} {f g : α → Nat} {l : List α} (h : ∀ x ∈ l, f x = g x) :
    (l.map f).sum = (l.map g).sum := by
  rw [List.map_congr_left h]

theorem sum_range_split (n r : Nat) (hr : r < n) (f : Nat → Nat) :
    ((List.range n).map f).sum = f r + (((List.range n).erase r).map f).sum := by
  have hperm : (List.range n).Perm (r :: (List.range n).erase r) :=
    List.perm_cons_erase (List.mem_range.mpr hr)
  calc ((List.range n).map f).sum = ((r :: (List.range n).erase r).map f).sum :=
        (hperm.map f).sum_eq
    _ = f r + (((List.range n).erase r).map f).sum := by simp

theorem countP_range_split (n x : Nat) (hx : x < n) (p : Nat → Bool) :
    (List.range n).countP p =
      (if p x then 1 else 0) + ((List.range n).erase x).countP p := by
  have hperm : (List.range n).Perm (x :: (List.range n).erase x) :=
    List.perm_cons_erase (List.mem_range.mpr hx)
  rw [hperm.countP_eq, List.countP_cons]
  by_cases h : p x <;> simp [h] <;> omega

theorem mem_range_erase {n r x : Nat} (hx : x ∈ (List.range n).erase r) :
    x ∈ List.range n ∧ x ≠ r := by
  have := (List.Nodup.mem_erase_iff (List.nodup_range n)).mp hx
  exact ⟨this.2, this.1⟩

/-! ## Match characterizations -/

theorem hMatch_iff (g : Grid) (w : Str) (r s : Nat) :
    hMatch g w r s = true ↔ ∀ k < w.length, gridGet g r (s + k) = some (wchar w k) := by
  unfold hMatch
  rw [List.all_eq_true]
  constructor
  · intro h k hk
    exact eq_of_beq (h k (List.mem_range.mpr hk))
  · intro h k hk
    exact beq_iff_eq.mpr (h k (List.mem_range.mp hk))

theorem vMatch_iff (g : Grid) (w : Str) (s c : Nat) :
    vMatch g w s c = true ↔ ∀ k < w.length, gridGet g (s + k) c = some (wchar w k) := by
  unfold vMatch
  rw [List.all_eq_true]
  constructor
  · intro h k hk
    exact eq_of_beq (h k (List.mem_range.mpr hk))
  · intro h k hk
    exact beq_iff_eq.mpr (h k (List.mem_range.mp hk))

theorem newHMatch_iff (g : Grid) (w : Str) (r c : Nat) (ch : Char) (s : Nat) :
    newHMatch g w r c ch s = true ↔
      (wchar w (c - s) = ch ∧
        ∀ k < w.length, k ≠ c - s → gridGet g r (s + k) = some (wchar w k)) := by
  unfold newHMatch
  rw [Bool.and_eq_true, List.all_eq_true]
  constructor
  · intro ⟨h1, h2⟩
    refine ⟨eq_of_beq h1, ?_⟩
    intro k hk hne
    have h3 := h2 k (List.mem_range.mpr hk)
    rw [Bool.or_eq_true] at h3
    rcases h3 with hb | hb
    · exact absurd (by simpa using hb) hne
    · exact eq_of_beq hb
  · intro ⟨h1, h2⟩
    refine ⟨beq_iff_eq.mpr h1, ?_⟩
    intro k hkmem
    rw [Bool.or_eq_true]
    by_cases hk : k = c - s
    · exact Or.inl (by simpa using hk)
    · exact Or.inr (beq_iff_eq.mpr (h2 k (List.mem_range.mp hkmem) hk))

theorem newVMatch_iff (g : Grid) (w : Str) (r c : Nat) (ch : Char) (s : Nat) :
    newVMatch g w r c ch s = true ↔
      (wchar w (r - s) = ch ∧
        ∀ k < w.length, k ≠ r - s → gridGet g (s + k) c = some (wchar w k)) := by
  unfold newVMatch
  rw [Bool.and_eq_true, List.all_eq_true]
  constructor
  · intro ⟨h1, h2⟩
    refine ⟨eq_of_beq h1, ?_⟩
    intro k hk hne
    have h3 := h2 k (List.mem_range.mpr hk)
    rw [Bool.or_eq_true] at h3
    rcases h3 with hb | hb
    · exact absurd (by simpa using hb) hne
    · exact eq_of_beq hb
  · intro ⟨h1, h2⟩
    refine ⟨beq_iff_eq.mpr h1, ?_⟩
    intro k hkmem
    rw [Bool.or_eq_true]
    by_cases hk : k = r - s
    · exact Or.inl (by simpa using hk)
    · exact Or.inr (beq_iff_eq.mpr (h2 k (List.mem_range.mp hkmem) hk))

/-! ## The fill-step counting identity

Writing a letter into an empty cell adds to each word's strict occurrence
count exactly the occurrences newly completed through that cell — the
invariant `fillEmptiesAvoidingExtras` relies on. -/

theorem countHOcc_delta {W H : Nat} {g : Grid} (hs : GridShape W H g) (w : Str)
    {r c : Nat} (hr : r < H) (hc : c < W) (ch : Char)
    (hnull : gridGet g r c = none) :
    countHOcc W H (gridSet g r c (some ch)) w =
      countHOcc W H g w + countNewH W g w r c ch := by
  by_cases hLW : w.length ≤ W
  case neg => simp [countHOcc, countNewH, hLW]
  case pos =>
  simp only [countHOcc, countNewH, if_pos hLW]
  have hrowagree : ∀ x, x ≠ r →
      ((List.range (W - w.length + 1)).countP fun s =>
        hMatch (gridSet g r c (some ch)) w x s) =
      ((List.range (W - w.length + 1)).countP fun s => hMatch g w x s) := by
    intro x hx
    apply List.countP_congr
    intro s _
    rw [hMatch_iff, hMatch_iff]
    constructor
    · intro h k hk
      rw [← gridGet_set_ne (some ch) (Or.inl (Ne.symm hx))]
      exact h k hk
    · intro h k hk
      rw [gridGet_set_ne (some ch) (Or.inl (Ne.symm hx))]
      exact h k hk
  rw [sum_range_split H r hr, sum_range_split H r hr
    (fun r' => (List.range (W - w.length + 1)).countP fun s => hMatch g w r' s)]
  have herase : (((List.range H).erase r).map fun r' =>
      (List.range (W - w.length + 1)).countP fun s =>
        hMatch (gridSet g r c (some ch)) w r' s).sum =
      (((List.range H).erase r).map fun r' =>
        (List.range (W - w.length + 1)).countP fun s => hMatch g w r' s).sum := by
    apply sum_map_congr
    intro x hx
    exact hrowagree x (mem_range_erase hx).2
  rw [herase]
  -- now handle row `r`: split the starts by whether the window contains `c`
  set P : Nat → Bool := fun s => decide (s ≤ c) && decide (c < s + w.length) with hPdef
  have hsplit1 := countP_filter_split P
    (fun s => hMatch (gridSet g r c (some ch)) w r s) (List.range (W - w.length + 1))
  have hsplit2 := countP_filter_split P
    (fun s => hMatch g w r s) (List.range (W - w.length + 1))
  have hmemP : ∀ s ∈ (List.range (W - w.length + 1)).filter P,
      s ≤ c ∧ c < s + w.length := by
    intro s hsmem
    have := List.of_mem_filter hsmem
    rw [hPdef] at this
    simp only [Bool.and_eq_true, decide_eq_true_eq] at this
    exact this
  have hmemNP : ∀ s ∈ (List.range (W - w.length + 1)).filter fun x => !P x,
      ¬(s ≤ c ∧ c < s + w.length) := by
    intro s hsmem
    have := List.of_mem_filter hsmem
    rw [hPdef] at this
    simp only [Bool.not_eq_eq_eq_not, Bool.not_true, Bool.and_eq_false_iff,
      decide_eq_false_iff_not] at this
    omega
  -- outside-window starts are untouched
  have hNP : ((List.range (W - w.length + 1)).filter fun x => !P x).countP
        (fun s => hMatch (gridSet g r c (some ch)) w r s) =
      ((List.range (W - w.length + 1)).filter fun x => !P x).countP
        (fun s => hMatch g w r s) := by
    apply List.countP_congr
    intro s hsmem
    have hout := hmemNP s hsmem
    rw [hMatch_iff, hMatch_iff]
    constructor
    · intro h k hk
      have hcol : c ≠ s + k := by omega
      rw [← gridGet_set_ne (some ch) (Or.inr hcol)]
      exact h k hk
    · intro h k hk
      have hcol : c ≠ s + k := by omega
      rw [gridGet_set_ne (some ch) (Or.inr hcol)]
      exact h k hk
  -- through-window starts never matched before the write
  have hPold : ((List.range (W - w.length + 1)).filter P).countP
      (fun s => hMatch g w r s) = 0 := by
    rw [List.countP_eq_zero]
    intro s hsmem
    have hin := hmemP s hsmem
    intro hmatch
    have := (hMatch_iff g w r s).mp hmatch (c - s) (by omega)
    rw [show s + (c - s) = c by omega, hnull] at this
    cases this
  -- through-window starts now match exactly when the new-occurrence test does
  have hPnew : ((List.range (W - w.length + 1)).filter P).countP
        (fun s => hMatch (gridSet g r c (some ch)) w r s) =
      ((List.range (W - w.length + 1)).filter P).countP (newHMatch g w r c ch) := by
    apply List.countP_congr
    intro s hsmem
    have hin := hmemP s hsmem
    rw [hMatch_iff, newHMatch_iff]
    constructor
    · intro h
      constructor
      · have := h (c - s) (by omega)
        rw [show s + (c - s) = c by omega, gridGet_set_self hs hr hc] at this
        exact (Option.some_injective _ this.symm)
      · intro k hk hkne
        have hcol : c ≠ s + k := by omega
        have := h k hk
        rw [gridGet_set_ne (some ch) (Or.inr hcol)] at this
        exact this
    · intro ⟨h1, h2⟩
      intro k hk
      by_cases hkc : k = c - s
      · subst hkc
        rw [show s + (c - s) = c by omega, gridGet_set_self hs hr hc, h1]
      · have hcol : c ≠ s + k := by omega
        rw [gridGet_set_ne (some ch) (Or.inr hcol)]
        exact h2 k hk hkc
  omega

theorem countVOcc_delta {W H : Nat} {g : Grid} (hs : GridShape W H g) (w : Str)
    {r c : Nat} (hr : r < H) (hc : c < W) (ch : Char)
    (hnull : gridGet g r c = none) :
    countVOcc W H (gridSet g r c (some ch)) w =
      countVOcc W H g w + countNewV H g w r c ch := by
  by_cases hLH : 2 ≤ w.length ∧ w.length ≤ H
  case neg => simp [countVOcc, countNewV, hLH]
  case pos =>
  simp only [countVOcc, countNewV, if_pos hLH]
  set P : Nat → Bool := fun s => decide (s ≤ r) && decide (r < s + w.length) with hPdef
  rw [sum_map_split P, sum_map_split P
    (fun s => (List.range W).countP fun c' => vMatch g w s c')]
  have hmemP : ∀ s ∈ (List.range (H - w.length + 1)).filter P,
      s ≤ r ∧ r < s + w.length := by
    intro s hsmem
    have := List.of_mem_filter hsmem
    rw [hPdef] at this
    simp only [Bool.and_eq_true, decide_eq_true_eq] at this
    exact this
  have hmemNP : ∀ s ∈ (List.range (H - w.length + 1)).filter fun x => !P x,
      ¬(s ≤ r ∧ r < s + w.length) := by
    intro s hsmem
    have := List.of_mem_filter hsmem
    rw [hPdef] at this
    simp only [Bool.not_eq_eq_eq_not, Bool.not_true, Bool.and_eq_false_iff,
      decide_eq_false_iff_not] at this
    omega
  -- starts whose window misses row `r` are untouched, at every column
  have hNP : (((List.range (H - w.length + 1)).filter fun x => !P x).map fun s =>
        (List.range W).countP fun c' => vMatch (gridSet g r c (some ch)) w s c').sum =
      (((List.range (H - w.length + 1)).filter fun x => !P x).map fun s =>
        (List.range W).countP fun c' => vMatch g w s c').sum := by
    apply sum_map_congr
    intro s hsmem
    have hout := hmemNP s hsmem
    apply List.countP_congr
    intro c' _
    rw [vMatch_iff, vMatch_iff]
    constructor
    · intro h k hk
      have hrow : r ≠ s + k := by omega
      rw [← gridGet_set_ne (some ch) (Or.inl hrow)]
      exact h k hk
    · intro h k hk
      have hrow : r ≠ s + k := by omega
      rw [gridGet_set_ne (some ch) (Or.inl hrow)]
      exact h k hk
  rw [hNP]
  -- for a start whose window covers row `r`, only column `c` changes
  have hPer : ∀ s ∈ (List.range (H - w.length + 1)).filter P,
      ((List.range W).countP fun c' => vMatch (gridSet g r c (some ch)) w s c') =
      ((List.range W).countP fun c' => vMatch g w s c') +
        (if newVMatch g w r c ch s then 1 else 0) := by
    intro s hsmem
    have hin := hmemP s hsmem
    rw [countP_range_split W c hc, countP_range_split W c hc
      (fun c' => vMatch g w s c')]
    have herase : ((List.range W).erase c).countP
          (fun c' => vMatch (gridSet g r c (some ch)) w s c') =
        ((List.range W).erase c).countP (fun c' => vMatch g w s c') := by
      apply List.countP_congr
      intro c' hc'
      have hcne : c ≠ c' := fun h => (mem_range_erase hc').2 h.symm
      rw [vMatch_iff, vMatch_iff]
      constructor
      · intro h k hk
        rw [← gridGet_set_ne (some ch) (Or.inr hcne)]
        exact h k hk
      · intro h k hk
        rw [gridGet_set_ne (some ch) (Or.inr hcne)]
        exact h k hk
    rw [herase]
    have hold : vMatch g w s c = false := by
      by_contra hmt
      rw [Bool.not_eq_false] at hmt
      have := (vMatch_iff g w s c).mp hmt (r - s) (by omega)
      rw [show s + (r - s) = r by omega, hnull] at this
      cases this
    have hnew : vMatch (gridSet g r c (some ch)) w s c = newVMatch g w r c ch s := by
      apply bool_eq_of_iff
      rw [vMatch_iff, newVMatch_iff]
      constructor
      · intro h
        constructor
        · have := h (r - s) (by omega)
          rw [show s + (r - s) = r by omega, gridGet_set_self hs hr hc] at this
          exact (Option.some_injective _ this.symm)
        · intro k hk hkne
          have hrow : r ≠ s + k := by omega
          have := h k hk
          rw [gridGet_set_ne (some ch) (Or.inl hrow)] at this
          exact this
      · intro ⟨h1, h2⟩
        intro k hk
        by_cases hkr : k = r - s
        · subst hkr
          rw [show s + (r - s) = r by omega, gridGet_set_self hs hr hc, h1]
        · have hrow : r ≠ s + k := by omega
          rw [gridGet_set_ne (some ch) (Or.inl hrow)]
          exact h2 k hk hkr
    rw [hold, hnew]
    simp only [Bool.false_eq_true, if_false]
    omega
  have hsumP : (((List.range (H - w.length + 1)).filter P).map fun s =>
        (List.range W).countP fun c' => vMatch (gridSet g r c (some ch)) w s c').sum =
      (((List.range (H - w.length + 1)).filter P).map fun s =>
        (List.range W).countP fun c' => vMatch g w s c').sum +
      ((List.range (H - w.length + 1)).filter P).countP (newVMatch g w r c ch) := by
    rw [sum_map_congr hPer, sum_map_add, countP_eq_sum_map]
  omega

/-- The combined identity for `countOccurrencesStrictForWord`. -/
theorem count_delta {W H : Nat} {g : Grid} (hs : GridShape W H g) (w : Str)
    {r c : Nat} (hr : r < H) (hc : c < W) (ch : Char)
    (hnull : gridGet g r c = none) :
    countOccurrencesStrictForWord W H (gridSet g r c (some ch)) w =
      countOccurrencesStrictForWord W H g w + countNewOccurrencesAtCell W H g w r c ch := by
  unfold countOccurrencesStrictForWord countNewOccurrencesAtCell
  rw [countHOcc_delta hs w hr hc ch hnull, countVOcc_delta hs w hr hc ch hnull]
  omega

/-! ## Grid extensionality, round trips and undo -/

theorem gridGet_eq_getElem {g : Grid} {r c : Nat} (hr : r < g.length)
    (hc : c < (g[r]).length) : gridGet g r c = g[r][c] := by
  unfold gridGet
  rw [show List.getD g r [] = g[r] from by
    rw [List.getD_eq_getElem?_getD, List.getElem?_eq_getElem hr, Option.getD_some]]
  rw [List.getD_eq_getElem?_getD, List.getElem?_eq_getElem hc, Option.getD_some]

theorem gridExt {W H : Nat} {g g' : Grid} (hs : GridShape W H g) (hs' : GridShape W H g')
    (h : ∀ r < H, ∀ c < W, gridGet g r c = gridGet g' r c) : g = g' := by
  apply List.ext_getElem (hs.1.trans hs'.1.symm)
  intro r hr hr'
  have hrH : r < H := hs.1 ▸ hr
  have hrow : (g[r]).length = W := hs.2 _ (List.getElem_mem hr)
  have hrow' : (g'[r]).length = W := hs'.2 _ (List.getElem_mem hr')
  apply List.ext_getElem (hrow.trans hrow'.symm)
  intro c hc hc'
  have hcW : c < W := by omega
  rw [← gridGet_eq_getElem hr hc, ← gridGet_eq_getElem hr' hc']
  exact h r hrH c hcW

theorem gridSet_roundtrip {W H : Nat} {g : Grid} (hs : GridShape W H g)
    {r c : Nat} (hnull : gridGet g r c = none) (v : Cell) :
    gridSet (gridSet g r c v) r c none = g := by
  apply gridExt (gridShape_set (gridShape_set hs r c v) r c none) hs
  intro r' hr' c' hc'
  by_cases hreq : r = r'
  · subst hreq
    by_cases hceq : c = c'
    · subst hceq
      rw [gridGet_set_self (gridShape_set hs r c v) hr' hc', hnull]
    · rw [gridGet_set_ne _ (Or.inr hceq), gridGet_set_ne _ (Or.inr hceq)]
  · rw [gridGet_set_ne _ (Or.inl hreq), gridGet_set_ne _ (Or.inl hreq)]

theorem undoCells_shape {W H : Nat} :
    ∀ (cells : List (Nat × Nat)) {g : Grid}, GridShape W H g →
    GridShape W H (undoCells g cells) := by
  intro cells
  induction cells with
  | nil => intro g h; exact h
  | cons rc rest ih =>
    intro g h
    exact ih (gridShape_set h _ _ _)

theorem undoCells_get {W H : Nat} :
    ∀ (cells : List (Nat × Nat)) {g : Grid}, GridShape W H g →
    (∀ rc ∈ cells, rc.1 < H ∧ rc.2 < W) →
    ∀ r c, r < H → c < W →
    gridGet (undoCells g cells) r c = if (r, c) ∈ cells then none else gridGet g r c := by
  intro cells
  induction cells with
  | nil =>
    intro g _ _ r c _ _
    simp [undoCells]
  | cons rc rest ih =>
    intro g hs hb r c hr hc
    show gridGet (undoCells (gridSet g rc.1 rc.2 none) rest) r c = _
    rw [ih (gridShape_set hs _ _ _) (fun x hx => hb x (List.mem_cons_of_mem _ hx)) r c hr hc]
    by_cases hmem : (r, c) ∈ rest
    · simp [hmem]
    · by_cases heq : (r, c) = rc
      · have h1 : rc.1 = r := by rw [← heq]
        have h2 : rc.2 = c := by rw [← heq]
        rw [if_neg hmem, h1, h2,
          gridGet_set_self hs hr hc]
        simp [heq, List.mem_cons, hmem]
      · have hne : rc.1 ≠ r ∨ rc.2 ≠ c := by
          by_contra hcon
          push_neg at hcon
          exact heq (by rw [← hcon.1, ← hcon.2])
        rw [gridGet_set_ne _ hne]
        simp [List.mem_cons, heq, hmem]

/-! ## Shuffle membership -/

theorem swapL_subset {α} [Inhabited α] (l : List α) (i j : Nat)
    (hi : i < l.length) (hj : j < l.length) :
    ∀ x ∈ swapL l i j, x ∈ l := by
  intro x hx
  unfold swapL at hx
  rcases List.mem_or_eq_of_mem_set hx with hx' | rfl
  · rcases List.mem_or_eq_of_mem_set hx' with hx'' | rfl
    · exact hx''
    · rw [List.getD_eq_getElem?_getD, List.getElem?_eq_getElem hj, Option.getD_some]
      exact List.getElem_mem hj
  · rw [List.getD_eq_getElem?_getD, List.getElem?_eq_getElem hi, Option.getD_some]
    exact List.getElem_mem hi

theorem swapL_length {α} [Inhabited α] (l : List α) (i j : Nat) :
    (swapL l i j).length = l.length := by
  simp [swapL]

theorem shuffleGo_subset {α} [Inhabited α] :
    ∀ (n : Nat) (l : List α) (rng : RngState), n < l.length →
    ∀ x ∈ (shuffleGo l rng n).1, x ∈ l := by
  intro n
  induction n with
  | zero => intro l rng _ x hx; exact hx
  | succ m ih =>
    intro l rng hn x hx
    unfold shuffleGo at hx
    have hub := ((rng.next.1)).property
    have hj : jsFloorNat ((rng.next.1).val * ((m + 2 : Nat) : ℚ)) < m + 2 :=
      jsFloorNat_lt _ _ hub.1 hub.2 (by omega)
    have hjl : jsFloorNat ((rng.next.1).val * ((m + 2 : Nat) : ℚ)) < l.length := by omega
    have hlen : m < (swapL l (m + 1)
        (jsFloorNat ((rng.next.1).val * ((m + 2 : Nat) : ℚ)))).length := by
      rw [swapL_length]
      omega
    exact swapL_subset l (m + 1) _ hn hjl x (ih _ rng.next.2 hlen x hx)

theorem shuffleList_subset {α} [Inhabited α] (l : List α) (rng : RngState) :
    ∀ x ∈ (shuffleList l rng).1, x ∈ l := by
  intro x hx
  unfold shuffleList at hx
  rcases Nat.eq_zero_or_pos l.length with hl | hl
  · have : l.length - 1 = 0 := by omega
    rw [this] at hx
    exact hx
  · exact shuffleGo_subset (l.length - 1) l rng (by omega) x hx

/-! ## Empty-cell list -/

theorem mem_emptyCells {W H : Nat} {g : Grid} {rc : Nat × Nat} :
    rc ∈ emptyCells W H g ↔ rc.1 < H ∧ rc.2 < W ∧ gridGet g rc.1 rc.2 = none := by
  obtain ⟨r, c⟩ := rc
  unfold emptyCells
  simp only [List.mem_flatMap, List.mem_filterMap, List.mem_range]
  constructor
  · intro ⟨r', hr', c', hc', hcond⟩
    split at hcond
    · rename_i hnull
      cases hcond
      exact ⟨hr', hc', hnull⟩
    · cases hcond
  · intro ⟨hr, hc, hnull⟩
    exact ⟨r, hr, c, hc, by rw [if_pos hnull]⟩

theorem emptyCells_nodup (W H : Nat) (g : Grid) : (emptyCells W H g).Nodup := by
  unfold emptyCells
  rw [List.nodup_flatMap]
  constructor
  · intro r _
    apply List.Nodup.filterMap ?_ (List.nodup_range W)
    intro a a' b hb hb'
    simp only [Option.mem_def] at hb hb'
    split at hb
    · cases hb
      split at hb'
      · cases hb'
        rfl
      · cases hb'
    · cases hb
  · have : ∀ (r : Nat) (x : Nat × Nat),
        x ∈ (List.range W).filterMap (fun c =>
          if gridGet g r c = none then some (r, c) else none) → x.1 = r := by
      intro r x hx
      rw [List.mem_filterMap] at hx
      obtain ⟨c, _, hc⟩ := hx
      split at hc
      · cases hc
        rfl
      · cases hc
    refine List.Pairwise.imp ?_ (List.pairwise_lt_range H)
    intro a b hab
    intro x hxa hxb
    have h1 := this a x hxa
    have h2 := this b x hxb
    omega

/-! ## Correctness of the constrained fill -/

theorem fillLetterLoop_spec (ctx : Ctx) (next : FillSt → Bool × FillSt)
    (r c : Nat) (rest : List (Nat × Nat))
    (hr : r < ctx.H) (hc : c < ctx.W)
    (hnotin : (r, c) ∉ rest)
    (hnext : ∀ s : FillSt, FillStInv ctx s →
      (∀ rc ∈ rest, gridGet s.grid rc.1 rc.2 = none) →
      ((next s).1 = false → (next s).2.grid = s.grid ∧
        ∀ w, (next s).2.counts w = s.counts w) ∧
      ((next s).1 = true → FillStInv ctx (next s).2 ∧
        FillChanged ctx rest s.grid (next s).2.grid ∧
        ∀ w, s.counts w ≤ (next s).2.counts w)) :
    ∀ (order : List Char) (st : FillSt),
    (∀ ch ∈ order, ch ∈ ctx.allowed) →
    FillStInv ctx st →
    gridGet st.grid r c = none →
    (∀ rc ∈ rest, gridGet st.grid rc.1 rc.2 = none) →
    ((fillLetterLoop ctx next r c order st).1 = false →
      (fillLetterLoop ctx next r c order st).2.grid = st.grid ∧
      ∀ w, (fillLetterLoop ctx next r c order st).2.counts w = st.counts w) ∧
    ((fillLetterLoop ctx next r c order st).1 = true →
      FillStInv ctx (fillLetterLoop ctx next r c order st).2 ∧
      FillChanged ctx ((r, c) :: rest) st.grid
        (fillLetterLoop ctx next r c order st).2.grid ∧
      ∀ w, st.counts w ≤ (fillLetterLoop ctx next r c order st).2.counts w) := by
  intro order
  induction order with
  | nil =>
    intro st _ _ _ _
    exact ⟨fun _ => ⟨rfl, fun _ => rfl⟩, fun h => by cases h⟩
  | cons ch more ih =>
    intro st horder hinv hnull hrest
    have hguard : ¬(gridGet st.grid r c ≠ none) := by rw [hnull]; simp
    simp only [fillLetterLoop, if_neg hguard]
    by_cases hacc : ((uniqueWords ctx).all (fun w =>
        decide (countNewOccurrencesAtCell ctx.W ctx.H st.grid w r c ch = 0) ||
        decide (st.counts w + countNewOccurrencesAtCell ctx.W ctx.H st.grid w r c ch ≤
          requiredCount ctx w))) = true
    case neg =>
      rw [if_neg hacc]
      exact ih st (fun x hx => horder x (List.mem_cons_of_mem _ hx)) hinv hnull hrest
    case pos =>
      rw [if_pos hacc]
      set st1 : FillSt :=
        { st with grid := gridSet st.grid r c (some ch),
                  counts := fun w => st.counts w +
                    countNewOccurrencesAtCell ctx.W ctx.H st.grid w r c ch } with hst1
      have hchA : ch ∈ ctx.allowed := horder ch (List.mem_cons_self _ _)
      have hinv1 : FillStInv ctx st1 := by
        refine ⟨gridShape_set hinv.1 r c (some ch), ?_⟩
        intro w hw
        obtain ⟨heq, hle⟩ := hinv.2 w hw
        have hdelta := count_delta hinv.1 w hr hc ch hnull
        constructor
        · show st.counts w + _ = _
          rw [hdelta, heq]
        · show st.counts w + _ ≤ _
          have hthis := List.all_eq_true.mp hacc w hw
          rw [Bool.or_eq_true, decide_eq_true_eq, decide_eq_true_eq] at hthis
          rcases hthis with h0 | hbound
          · rw [h0]
            omega
          · exact hbound
      have hrest1 : ∀ rc ∈ rest, gridGet st1.grid rc.1 rc.2 = none := by
        intro rc hrc
        have hne : r ≠ rc.1 ∨ c ≠ rc.2 := by
          by_contra hcon
          push_neg at hcon
          refine hnotin ?_
          have heqrc : (r, c) = rc := by rw [hcon.1, hcon.2]
          rw [heqrc]
          exact hrc
        show gridGet (gridSet st.grid r c (some ch)) rc.1 rc.2 = none
        rw [gridGet_set_ne _ hne]
        exact hrest rc hrc
      obtain ⟨hnf, hnt⟩ := hnext st1 hinv1 hrest1
      rcases hres : next st1 with ⟨b, st2⟩
      rw [hres] at hnf hnt
      cases b
      case true =>
        obtain ⟨hinv2, hchg, hmono2⟩ := hnt rfl
        constructor
        · intro h
          simp at h
        · intro _
          refine ⟨hinv2, ⟨⟨?_, ?_⟩, ?_⟩⟩
          · intro r' c' hout
            have hout1 : (r', c') ∉ rest := fun hmm => hout (List.mem_cons_of_mem _ hmm)
            have houtrc : (r', c') ≠ (r, c) := fun hmm => hout (hmm ▸ List.mem_cons_self _ _)
            show gridGet st2.grid r' c' = _
            rw [hchg.1 r' c' hout1]
            show gridGet (gridSet st.grid r c (some ch)) r' c' = _
            have hne : r ≠ r' ∨ c ≠ c' := by
              by_contra hcon
              push_neg at hcon
              exact houtrc (by rw [hcon.1, hcon.2])
            rw [gridGet_set_ne _ hne]
          · intro rc hrc
            rcases List.mem_cons.mp hrc with heqq | hrc'
            · refine ⟨ch, hchA, ?_⟩
              subst heqq
              show gridGet st2.grid r c = some ch
              rw [hchg.1 _ _ hnotin]
              show gridGet (gridSet st.grid r c (some ch)) r c = some ch
              exact gridGet_set_self hinv.1 hr hc _
            · exact hchg.2 rc hrc'
          · intro w
            have hm2 := hmono2 w
            have hm1 : st.counts w + countNewOccurrencesAtCell ctx.W ctx.H st.grid w r c ch ≤
                st2.counts w := hm2
            show st.counts w ≤ st2.counts w
            omega
      case false =>
        obtain ⟨hg2, hc2⟩ := hnf rfl
        simp only at hg2 hc2
        have hg3 : gridSet st2.grid r c none = st.grid := by
          rw [hg2]
          exact gridSet_roundtrip hinv.1 hnull (some ch)
        have hc3 : ∀ w, st2.counts w -
            countNewOccurrencesAtCell ctx.W ctx.H st.grid w r c ch = st.counts w := by
          intro w
          rw [hc2 w]
          omega
        have hinv3 : FillStInv ctx
            { st2 with grid := gridSet st2.grid r c none,
                       counts := fun w => st2.counts w -
                         countNewOccurrencesAtCell ctx.W ctx.H st.grid w r c ch } := by
          refine ⟨?_, ?_⟩
          · show GridShape ctx.W ctx.H (gridSet st2.grid r c none)
            rw [hg3]
            exact hinv.1
          · intro w hw
            refine ⟨?_, ?_⟩
            · show st2.counts w - _ = _
              rw [hc3 w]
              show st.counts w = countOccurrencesStrictForWord ctx.W ctx.H
                (gridSet st2.grid r c none) w
              rw [hg3]
              exact (hinv.2 w hw).1
            · show st2.counts w - _ ≤ _
              rw [hc3 w]
              exact (hinv.2 w hw).2
        have hnull3 : gridGet (gridSet st2.grid r c none) r c = none := by
          rw [hg3]
          exact hnull
        have hrest3 : ∀ rc ∈ rest,
            gridGet (gridSet st2.grid r c none) rc.1 rc.2 = none := by
          intro rc hrc
          rw [hg3]
          exact hrest rc hrc
        obtain ⟨hf, ht⟩ := ih _ (fun x hx => horder x (List.mem_cons_of_mem _ hx))
          hinv3 hnull3 hrest3
        constructor
        · intro h
          obtain ⟨h1, h2⟩ := hf h
          constructor
          · rw [h1]
            exact hg3
          · intro w
            rw [h2 w]
            exact hc3 w
        · intro h
          obtain ⟨h1, h2, h3⟩ := ht h
          refine ⟨h1, ?_, ?_⟩
          · have h2a : FillChanged ctx ((r, c) :: rest) (gridSet st2.grid r c none)
                (fillLetterLoop ctx next r c more
                  { grid := gridSet st2.grid r c none,
                    counts := fun w => st2.counts w -
                      countNewOccurrencesAtCell ctx.W ctx.H st.grid w r c ch,
                    rng := st2.rng }).2.grid := h2
            nth_rewrite 1 [hg3] at h2a
            exact h2a
          · intro w
            have hm := h3 w
            have hm2 : st2.counts w -
                countNewOccurrencesAtCell ctx.W ctx.H st.grid w r c ch ≤ _ := hm
            rw [hc3 w] at hm2
            exact hm2

/-- `tryFill` correctness: with enough fuel, on a duplicate-free list of
in-bounds empty cells, failure restores the grid and counts, while success
preserves the invariant and fills exactly the listed cells with allowed
letters. -/
theorem tryFillAux_spec (ctx : Ctx) :
    ∀ (cells : List (Nat × Nat)) (fuel : Nat) (st : FillSt),
    cells.length < fuel →
    cells.Nodup →
    (∀ rc ∈ cells, rc.1 < ctx.H ∧ rc.2 < ctx.W) →
    (∀ rc ∈ cells, gridGet st.grid rc.1 rc.2 = none) →
    FillStInv ctx st →
    ((tryFillAux ctx fuel cells st).1 = false →
      (tryFillAux ctx fuel cells st).2.grid = st.grid ∧
      ∀ w, (tryFillAux ctx fuel cells st).2.counts w = st.counts w) ∧
    ((tryFillAux ctx fuel cells st).1 = true →
      FillStInv ctx (tryFillAux ctx fuel cells st).2 ∧
      FillChanged ctx cells st.grid (tryFillAux ctx fuel cells st).2.grid ∧
      ∀ w, st.counts w ≤ (tryFillAux ctx fuel cells st).2.counts w) := by
  intro cells
  induction cells with
  | nil =>
    intro fuel st hfuel _ _ _ hinv
    cases fuel with
    | zero => exact absurd hfuel (by omega)
    | succ f =>
      constructor
      · intro h
        simp [tryFillAux] at h
      · intro _
        exact ⟨hinv, ⟨fun r c _ => rfl, fun rc hrc => absurd hrc (List.not_mem_nil rc)⟩,
          fun w => Nat.le_refl _⟩
  | cons rc rest ih =>
    intro fuel st hfuel hnodup hbounds hnull hinv
    cases fuel with
    | zero => exact absurd hfuel (by omega)
    | succ f =>
      obtain ⟨r, c⟩ := rc
      rcases hsh : shuffleList ctx.allowed st.rng with ⟨order, rng2⟩
      have hred : tryFillAux ctx (f + 1) ((r, c) :: rest) st =
          fillLetterLoop ctx (fun s => tryFillAux ctx f rest s) r c order
            { st with rng := rng2 } := by
        simp only [tryFillAux, hsh]
      have hrc := hbounds (r, c) (List.mem_cons_self _ _)
      have hnotin : (r, c) ∉ rest := (List.nodup_cons.mp hnodup).1
      have hnext : ∀ s : FillSt, FillStInv ctx s →
          (∀ p ∈ rest, gridGet s.grid p.1 p.2 = none) →
          ((tryFillAux ctx f rest s).1 = false →
            (tryFillAux ctx f rest s).2.grid = s.grid ∧
            ∀ w, (tryFillAux ctx f rest s).2.counts w = s.counts w) ∧
          ((tryFillAux ctx f rest s).1 = true →
            FillStInv ctx (tryFillAux ctx f rest s).2 ∧
            FillChanged ctx rest s.grid (tryFillAux ctx f rest s).2.grid ∧
            ∀ w, s.counts w ≤ (tryFillAux ctx f rest s).2.counts w) :=
        fun s hs hns => ih f s (by simp at hfuel; omega)
          (List.nodup_cons.mp hnodup).2
          (fun p hp => hbounds p (List.mem_cons_of_mem _ hp)) hns hs
      have horder : ∀ ch ∈ order, ch ∈ ctx.allowed := by
        intro ch hch
        have hm := shuffleList_subset ctx.allowed st.rng ch
        rw [hsh] at hm
        exact hm hch
      have hmain := fillLetterLoop_spec ctx (fun s => tryFillAux ctx f rest s) r c rest
        hrc.1 hrc.2 hnotin hnext order { st with rng := rng2 } horder hinv
        (hnull (r, c) (List.mem_cons_self _ _))
        (fun p hp => hnull p (List.mem_cons_of_mem _ hp))
      rw [hred]
      exact hmain

/-- `fillEmptiesAvoidingExtras` on a well-shaped grid whose strict counts
already equal the required counts: on success the shape is kept, non-empty
cells are untouched, empty in-bounds cells receive allowed letters, and
every unique word still occurs exactly the required number of times. -/
theorem fillEmpties_spec (ctx : Ctx) (g : Grid) (rng : RngState)
    (hshape : GridShape ctx.W ctx.H g)
    (hcounts : ∀ w ∈ uniqueWords ctx,
      countOccurrencesStrictForWord ctx.W ctx.H g w = requiredCount ctx w)
    (hok : (fillEmptiesAvoidingExtras ctx g rng).1 = true) :
    GridShape ctx.W ctx.H (fillEmptiesAvoidingExtras ctx g rng).2.1 ∧
    (∀ r c, gridGet g r c ≠ none →
      gridGet (fillEmptiesAvoidingExtras ctx g rng).2.1 r c = gridGet g r c) ∧
    (∀ r c, r < ctx.H → c < ctx.W → gridGet g r c = none →
      ∃ ch ∈ ctx.allowed,
        gridGet (fillEmptiesAvoidingExtras ctx g rng).2.1 r c = some ch) ∧
    (∀ w ∈ uniqueWords ctx,
      countOccurrencesStrictForWord ctx.W ctx.H
        (fillEmptiesAvoidingExtras ctx g rng).2.1 w = requiredCount ctx w) := by
  by_cases hemp : (emptyCells ctx.W ctx.H g).isEmpty = true
  case pos =>
    have hout : fillEmptiesAvoidingExtras ctx g rng = (true, g, rng, []) := by
      unfold fillEmptiesAvoidingExtras
      dsimp only
      rw [if_pos hemp]
    rw [hout]
    refine ⟨hshape, fun r c _ => rfl, ?_, hcounts⟩
    intro r c hr hc hnullc
    exfalso
    have hmem : (r, c) ∈ emptyCells ctx.W ctx.H g :=
      mem_emptyCells.mpr ⟨hr, hc, hnullc⟩
    rw [List.isEmpty_iff] at hemp
    rw [hemp] at hmem
    exact List.not_mem_nil _ hmem
  case neg =>
    have hguard : ((uniqueWords ctx).any (fun w =>
        decide (requiredCount ctx w <
          countOccurrencesStrictForWord ctx.W ctx.H g w))) = false := by
      rw [List.any_eq_false]
      intro w hw
      simp only [decide_eq_true_eq]
      rw [hcounts w hw]
      omega
    have hout : fillEmptiesAvoidingExtras ctx g rng =
        ((tryFillAux ctx
            ((stableSort (fun a b =>
              decide (dangerAt ctx b.1 b.2 ≤ dangerAt ctx a.1 a.2))
              (emptyCells ctx.W ctx.H g)).length + 1)
            (stableSort (fun a b =>
              decide (dangerAt ctx b.1 b.2 ≤ dangerAt ctx a.1 a.2))
              (emptyCells ctx.W ctx.H g))
            ⟨g, fun w => countOccurrencesStrictForWord ctx.W ctx.H g w, rng⟩).1,
         (tryFillAux ctx
            ((stableSort (fun a b =>
              decide (dangerAt ctx b.1 b.2 ≤ dangerAt ctx a.1 a.2))
              (emptyCells ctx.W ctx.H g)).length + 1)
            (stableSort (fun a b =>
              decide (dangerAt ctx b.1 b.2 ≤ dangerAt ctx a.1 a.2))
              (emptyCells ctx.W ctx.H g))
            ⟨g, fun w => countOccurrencesStrictForWord ctx.W ctx.H g w, rng⟩).2.grid,
         (tryFillAux ctx
            ((stableSort (fun a b =>
              decide (dangerAt ctx b.1 b.2 ≤ dangerAt ctx a.1 a.2))
              (emptyCells ctx.W ctx.H g)).length + 1)
            (stableSort (fun a b =>
              decide (dangerAt ctx b.1 b.2 ≤ dangerAt ctx a.1 a.2))
              (emptyCells ctx.W ctx.H g))
            ⟨g, fun w => countOccurrencesStrictForWord ctx.W ctx.H g w, rng⟩).2.rng,
         stableSort (fun a b =>
            decide (dangerAt ctx b.1 b.2 ≤ dangerAt ctx a.1 a.2))
            (emptyCells ctx.W ctx.H g)) := by
      unfold fillEmptiesAvoidingExtras
      dsimp only
      rw [if_neg hemp, if_neg (by rw [hguard]; simp)]
    have hperm : (stableSort (fun a b =>
        decide (dangerAt ctx b.1 b.2 ≤ dangerAt ctx a.1 a.2))
        (emptyCells ctx.W ctx.H g)).Perm (emptyCells ctx.W ctx.H g) :=
      stableSort_perm _ _
    have hnodup := hperm.nodup_iff.mpr (emptyCells_nodup ctx.W ctx.H g)
    have hbounds : ∀ rc ∈ stableSort (fun a b =>
        decide (dangerAt ctx b.1 b.2 ≤ dangerAt ctx a.1 a.2))
        (emptyCells ctx.W ctx.H g), rc.1 < ctx.H ∧ rc.2 < ctx.W := by
      intro rc hrc
      have := mem_emptyCells.mp (hperm.mem_iff.mp hrc)
      exact ⟨this.1, this.2.1⟩
    have hnullmem : ∀ rc ∈ stableSort (fun a b =>
        decide (dangerAt ctx b.1 b.2 ≤ dangerAt ctx a.1 a.2))
        (emptyCells ctx.W ctx.H g),
        gridGet (⟨g, fun w => countOccurrencesStrictForWord ctx.W ctx.H g w, rng⟩ :
          FillSt).grid rc.1 rc.2 = none := by
      intro rc hrc
      exact (mem_emptyCells.mp (hperm.mem_iff.mp hrc)).2.2
    have hinv0 : FillStInv ctx
        ⟨g, fun w => countOccurrencesStrictForWord ctx.W ctx.H g w, rng⟩ := by
      refine ⟨hshape, ?_⟩
      intro w hw
      exact ⟨rfl, by rw [← hcounts w hw]⟩
    obtain ⟨-, htrue⟩ := tryFillAux_spec ctx _ _ _ (Nat.lt_succ_self _) hnodup
      hbounds hnullmem hinv0
    rw [hout] at hok
    obtain ⟨hinvf, hchg, hmono⟩ := htrue hok
    rw [hout]
    dsimp only
    refine ⟨hinvf.1, ?_, ?_, ?_⟩
    · intro r c hne
      refine hchg.1 r c ?_
      intro hmem
      exact hne (mem_emptyCells.mp (hperm.mem_iff.mp hmem)).2.2
    · intro r c hr hc hnl
      have hmem : (r, c) ∈ stableSort (fun a b =>
          decide (dangerAt ctx b.1 b.2 ≤ dangerAt ctx a.1 a.2))
          (emptyCells ctx.W ctx.H g) :=
        hperm.mem_iff.mpr (mem_emptyCells.mpr ⟨hr, hc, hnl⟩)
      exact hchg.2 (r, c) hmem
    · intro w hw
      have h1 := (hinvf.2 w hw).1
      have h2 := (hinvf.2 w hw).2
      have h3 := hmono w
      have h4 := hcounts w hw
      rw [← h1]
      refine Nat.le_antisymm h2 ?_
      rw [← h4]
      exact h3

/-! ## Correctness of `placeWord` and the undo -/

/-- `placeGo` bookkeeping: the shape is kept, the `newly` cells are
in-bounds cells that were empty and now hold the word's letter for the
position that wrote them, and all other cells are untouched. -/
theorem placeGo_spec {W H : Nat} (w : Str) (row col : Nat) (dir : Dir) :
    ∀ (ks : List Nat) (g : Grid), GridShape W H g →
    (∀ k ∈ ks, (plcCell row col dir k).1 < H ∧ (plcCell row col dir k).2 < W) →
    GridShape W H (placeGo w row col dir g ks).1 ∧
    (∀ rc ∈ (placeGo w row col dir g ks).2,
      rc.1 < H ∧ rc.2 < W ∧ gridGet g rc.1 rc.2 = none ∧
      ∃ k ∈ ks, rc = plcCell row col dir k ∧
        gridGet (placeGo w row col dir g ks).1 rc.1 rc.2 = some (wchar w k)) ∧
    (∀ r c, (r, c) ∉ (placeGo w row col dir g ks).2 →
      gridGet (placeGo w row col dir g ks).1 r c = gridGet g r c) := by
  intro ks
  induction ks with
  | nil =>
    intro g hs _
    exact ⟨hs, fun rc hrc => absurd hrc (List.not_mem_nil rc), fun r c _ => rfl⟩
  | cons k ks ih =>
    intro g hs hb
    have hbk := hb k (List.mem_cons_self _ _)
    by_cases hnl : gridGet g (plcCell row col dir k).1 (plcCell row col dir k).2 = none
    case pos =>
      have hred : placeGo w row col dir g (k :: ks) =
          ((placeGo w row col dir
              (gridSet g (plcCell row col dir k).1 (plcCell row col dir k).2
                (some (wchar w k))) ks).1,
            plcCell row col dir k ::
            (placeGo w row col dir
              (gridSet g (plcCell row col dir k).1 (plcCell row col dir k).2
                (some (wchar w k))) ks).2) := by
        simp only [placeGo]
        rw [if_pos hnl]
      obtain ⟨ihs, ihmem, ihout⟩ := ih
        (gridSet g (plcCell row col dir k).1 (plcCell row col dir k).2 (some (wchar w k)))
        (gridShape_set hs _ _ _) (fun x hx => hb x (List.mem_cons_of_mem _ hx))
      have hget1 : gridGet
          (gridSet g (plcCell row col dir k).1 (plcCell row col dir k).2
            (some (wchar w k)))
          (plcCell row col dir k).1 (plcCell row col dir k).2 = some (wchar w k) :=
        gridGet_set_self hs hbk.1 hbk.2 _
      have hknot : plcCell row col dir k ∉ (placeGo w row col dir
          (gridSet g (plcCell row col dir k).1 (plcCell row col dir k).2
            (some (wchar w k))) ks).2 := by
        intro hmem
        have := (ihmem _ hmem).2.2.1
        rw [hget1] at this
        cases this
      rw [hred]
      refine ⟨ihs, ?_, ?_⟩
      · intro rc hrc
        rcases List.mem_cons.mp hrc with heq | hrc'
        · subst heq
          refine ⟨hbk.1, hbk.2, hnl, k, List.mem_cons_self _ _, rfl, ?_⟩
          exact (ihout (plcCell row col dir k).1 (plcCell row col dir k).2 hknot).trans hget1
        · obtain ⟨h1, h2, h3, kk, hkk, heqk, hval⟩ := ihmem rc hrc'
          have hne : rc ≠ plcCell row col dir k := by
            intro heq
            rw [heq, hget1] at h3
            cases h3
          have hcomp : (plcCell row col dir k).1 ≠ rc.1 ∨
              (plcCell row col dir k).2 ≠ rc.2 := by
            by_contra hcon
            push_neg at hcon
            exact hne (Prod.ext_iff.mpr ⟨hcon.1.symm, hcon.2.symm⟩)
          refine ⟨h1, h2, ?_, kk, List.mem_cons_of_mem _ hkk, heqk, hval⟩
          rw [← gridGet_set_ne (some (wchar w k)) hcomp]
          exact h3
      · intro r c hout
        have hout1 : (r, c) ∉ (placeGo w row col dir
            (gridSet g (plcCell row col dir k).1 (plcCell row col dir k).2
              (some (wchar w k))) ks).2 :=
          fun hmm => hout (List.mem_cons_of_mem _ hmm)
        have hne : (r, c) ≠ plcCell row col dir k :=
          fun hmm => hout (hmm ▸ List.mem_cons_self _ _)
        rw [ihout r c hout1]
        refine gridGet_set_ne _ ?_
        by_contra hcon
        push_neg at hcon
        refine hne ?_
        show (r, c) = plcCell row col dir k
        rw [← hcon.1, ← hcon.2]
    case neg =>
      have hred : placeGo w row col dir g (k :: ks) = placeGo w row col dir g ks := by
        simp only [placeGo]
        rw [if_neg hnl]
      obtain ⟨ihs, ihmem, ihout⟩ := ih g hs (fun x hx => hb x (List.mem_cons_of_mem _ hx))
      rw [hred]
      refine ⟨ihs, ?_, ihout⟩
      intro rc hrc
      obtain ⟨h1, h2, h3, kk, hkk, heqk, hval⟩ := ihmem rc hrc
      exact ⟨h1, h2, h3, kk, List.mem_cons_of_mem _ hkk, heqk, hval⟩

/-- After `placeGo` over distinct positions on an agreeing window, every
listed position holds the word's letter. -/
theorem placeGo_written {W H : Nat} (w : Str) (row col : Nat) (dir : Dir) :
    ∀ (ks : List Nat) (g : Grid), GridShape W H g →
    (∀ k ∈ ks, (plcCell row col dir k).1 < H ∧ (plcCell row col dir k).2 < W) →
    ks.Nodup →
    (∀ k ∈ ks, gridGet g (plcCell row col dir k).1 (plcCell row col dir k).2 = none ∨
      gridGet g (plcCell row col dir k).1 (plcCell row col dir k).2 =
        some (wchar w k)) →
    ∀ k ∈ ks, gridGet (placeGo w row col dir g ks).1
      (plcCell row col dir k).1 (plcCell row col dir k).2 = some (wchar w k) := by
  intro ks
  induction ks with
  | nil => intro g _ _ _ _ k hk; exact absurd hk (List.not_mem_nil k)
  | cons k0 ks ih =>
    intro g hs hb hnd hok k hk
    have hbk := hb k0 (List.mem_cons_self _ _)
    by_cases hnl : gridGet g (plcCell row col dir k0).1 (plcCell row col dir k0).2 = none
    case pos =>
      have hred : placeGo w row col dir g (k0 :: ks) =
          ((placeGo w row col dir
              (gridSet g (plcCell row col dir k0).1 (plcCell row col dir k0).2
                (some (wchar w k0))) ks).1,
            plcCell row col dir k0 ::
            (placeGo w row col dir
              (gridSet g (plcCell row col dir k0).1 (plcCell row col dir k0).2
                (some (wchar w k0))) ks).2) := by
        simp only [placeGo]
        rw [if_pos hnl]
      obtain ⟨ihs, ihmem, ihout⟩ := placeGo_spec (W := W) (H := H) w row col dir ks
        (gridSet g (plcCell row col dir k0).1 (plcCell row col dir k0).2
          (some (wchar w k0)))
        (gridShape_set hs _ _ _) (fun x hx => hb x (List.mem_cons_of_mem _ hx))
      have hget1 : gridGet
          (gridSet g (plcCell row col dir k0).1 (plcCell row col dir k0).2
            (some (wchar w k0)))
          (plcCell row col dir k0).1 (plcCell row col dir k0).2 = some (wchar w k0) :=
        gridGet_set_self hs hbk.1 hbk.2 _
      rcases List.mem_cons.mp hk with heq | hk'
      · subst heq
        have hknot : plcCell row col dir k ∉ (placeGo w row col dir
            (gridSet g (plcCell row col dir k).1 (plcCell row col dir k).2
              (some (wchar w k))) ks).2 := by
          intro hmem
          have := (ihmem _ hmem).2.2.1
          rw [hget1] at this
          cases this
        rw [hred]
        exact (ihout _ _ hknot).trans hget1
      · rw [hred]
        refine ih _ (gridShape_set hs _ _ _)
          (fun x hx => hb x (List.mem_cons_of_mem _ hx))
          (List.nodup_cons.mp hnd).2 ?_ k hk'
        intro k1 hk1
        by_cases hcell : plcCell row col dir k1 = plcCell row col dir k0
        · exact absurd (plcCell_inj row col dir hcell ▸ hk1)
            (List.nodup_cons.mp hnd).1
        · have hcomp : (plcCell row col dir k0).1 ≠ (plcCell row col dir k1).1 ∨
              (plcCell row col dir k0).2 ≠ (plcCell row col dir k1).2 := by
            by_contra hcon
            push_neg at hcon
            exact hcell (Prod.ext_iff.mpr ⟨hcon.1.symm, hcon.2.symm⟩)
          rw [gridGet_set_ne _ hcomp]
          exact hok k1 (List.mem_cons_of_mem _ hk1)
    case neg =>
      have hred : placeGo w row col dir g (k0 :: ks) = placeGo w row col dir g ks := by
        simp only [placeGo]
        rw [if_neg hnl]
      rcases List.mem_cons.mp hk with heq | hk'
      · subst heq
        have hval : gridGet g (plcCell row col dir k).1 (plcCell row col dir k).2 =
            some (wchar w k) := by
          rcases hok k (List.mem_cons_self _ _) with h | h
          · exact absurd h hnl
          · exact h
        obtain ⟨ihs, ihmem, ihout⟩ := placeGo_spec (W := W) (H := H) w row col dir ks g hs
          (fun x hx => hb x (List.mem_cons_of_mem _ hx))
        have hknot : plcCell row col dir k ∉ (placeGo w row col dir g ks).2 := by
          intro hmem
          have hcontra := (ihmem _ hmem).2.2.1
          rw [hval] at hcontra
          cases hcontra
        rw [hred]
        exact (ihout _ _ hknot).trans hval
      · rw [hred]
        exact ih g hs (fun x hx => hb x (List.mem_cons_of_mem _ hx))
          (List.nodup_cons.mp hnd).2
          (fun k1 hk1 => hok k1 (List.mem_cons_of_mem _ hk1)) k hk'

/-! ## Membership facts for `enumeratePlacements` -/

/-- Every placement produced by `assignTies` carries the window of some raw
enumeration entry. -/
theorem assignTies_mem (ctx : Ctx) (g : Grid) (w : Str) :
    ∀ (raw : List (Nat × Nat × Dir)) (acc : List Plc × RngState) (p : Plc),
    p ∈ (raw.foldl
      (fun acc t =>
        let sc := winScore g w t.1 t.2.1 t.2.2
        if ctx.tieCenter then
          (acc.1 ++ [⟨t.1, t.2.1, t.2.2, sc, distSqToCenter ctx w.length t.1 t.2.1 t.2.2⟩],
            acc.2)
        else
          let (u, rng') := acc.2.next
          (acc.1 ++ [⟨t.1, t.2.1, t.2.2, sc, u.val⟩], rng')) acc).1 →
    p ∈ acc.1 ∨ ∃ t ∈ raw, p.row = t.1 ∧ p.col = t.2.1 ∧ p.dir = t.2.2 := by
  intro raw
  induction raw with
  | nil =>
    intro acc p hp
    exact Or.inl hp
  | cons t raw ih =>
    intro acc p hp
    rw [List.foldl_cons] at hp
    rcases ih _ p hp with hacc | ⟨t', ht', h1, h2, h3⟩
    · by_cases htc : ctx.tieCenter
      · rw [if_pos htc] at hacc
        rcases List.mem_append.mp hacc with h | h
        · exact Or.inl h
        · rcases List.mem_singleton.mp h with rfl
          exact Or.inr ⟨t, List.mem_cons_self _ _, rfl, rfl, rfl⟩
      · rw [if_neg htc] at hacc
        rcases List.mem_append.mp hacc with h | h
        · exact Or.inl h
        · rcases List.mem_singleton.mp h with rfl
          exact Or.inr ⟨t, List.mem_cons_self _ _, rfl, rfl, rfl⟩
    · exact Or.inr ⟨t', List.mem_cons_of_mem _ ht', h1, h2, h3⟩

/-- Membership in `enumerateRaw` gives the window's validity and bounds. -/
theorem enumerateRaw_mem (ctx : Ctx) (g : Grid) (w : Str) (t : Nat × Nat × Dir)
    (ht : t ∈ enumerateRaw ctx g w) :
    okWindow g w t.1 t.2.1 t.2.2 = true ∧
    (t.2.2 = .H → t.1 < ctx.H ∧ t.2.1 + w.length ≤ ctx.W) ∧
    (t.2.2 = .V → t.2.1 < ctx.W ∧ t.1 + w.length ≤ ctx.H) := by
  unfold enumerateRaw at ht
  rcases List.mem_append.mp ht with h | h
  · by_cases hL : w.length ≤ ctx.W
    · rw [if_pos hL] at h
      simp only [List.mem_flatMap, List.mem_filterMap, List.mem_range] at h
      obtain ⟨r, hr, c, hc, hcond⟩ := h
      split at hcond
      · rename_i hok
        cases hcond
        refine ⟨hok, fun _ => ⟨hr, ?_⟩, fun hcon => ?_⟩
        · dsimp only
          omega
        · dsimp only at hcon
          cases hcon
      · cases hcond
    · rw [if_neg hL] at h
      exact absurd h (List.not_mem_nil t)
  · by_cases hL : 2 ≤ w.length ∧ w.length ≤ ctx.H
    · rw [if_pos hL] at h
      simp only [List.mem_flatMap, List.mem_filterMap, List.mem_range] at h
      obtain ⟨r, hr, c, hc, hcond⟩ := h
      split at hcond
      · rename_i hok
        cases hcond
        obtain ⟨h2, hWH⟩ := hL
        refine ⟨hok, fun hcon => ?_, fun _ => ⟨hc, ?_⟩⟩
        · dsimp only at hcon
          cases hcon
        · dsimp only
          omega
      · cases hcond
    · rw [if_neg hL] at h
      exact absurd h (List.not_mem_nil t)

/-- Every placement returned by `enumeratePlacements` is a valid in-bounds
window of the word. -/
theorem enumeratePlacements_mem (ctx : Ctx) (g : Grid) (w : Str) (rng : RngState)
    (p : Plc) (hp : p ∈ (enumeratePlacements ctx g w rng).1) :
    okWindow g w p.row p.col p.dir = true ∧
    (p.dir = .H → p.row < ctx.H ∧ p.col + w.length ≤ ctx.W) ∧
    (p.dir = .V → p.col < ctx.W ∧ p.row + w.length ≤ ctx.H) := by
  unfold enumeratePlacements at hp
  dsimp only at hp
  rcases hass : assignTies ctx g w (enumerateRaw ctx g w) rng with ⟨withTies, rng2⟩
  rw [hass] at hp
  have hmem : p ∈ withTies := by
    have := (stableSort_mem plcLE withTies p).mp
    apply this
    exact hp
  have hfold : p ∈ (assignTies ctx g w (enumerateRaw ctx g w) rng).1 := by
    rw [hass]
    exact hmem
  have := assignTies_mem ctx g w (enumerateRaw ctx g w) ([], rng) p hfold
  rcases this with hnil | ⟨t, ht, h1, h2, h3⟩
  · exact absurd hnil (List.not_mem_nil p)
  · obtain ⟨hok, hH, hV⟩ := enumerateRaw_mem ctx g w t ht
    rw [← h1, ← h2, ← h3] at hok hH hV
    exact ⟨hok, hH, hV⟩

/-! ## Cell-predicate transfer between membership and `gridGet` views -/

/-- From a pointwise `gridGet` fact to a membership fact on a well-shaped
grid. -/
theorem gridAll_of_pointwise {W H : Nat} {g : Grid} (hs : GridShape W H g)
    (P : Cell → Prop) (h : ∀ r < H, ∀ c < W, P (gridGet g r c)) :
    ∀ row ∈ g, ∀ cell ∈ row, P cell := by
  intro row hrow cell hcell
  obtain ⟨r, hr, hrw⟩ := List.mem_iff_getElem.mp hrow
  subst hrw
  obtain ⟨c, hc, hcl⟩ := List.mem_iff_getElem.mp hcell
  subst hcl
  have hrH : r < H := hs.1 ▸ hr
  have hcW : c < W := (hs.2 _ hrow) ▸ hc
  rw [← gridGet_eq_getElem hr hc]
  exact h r hrH c hcW

/-- From a membership fact back to arbitrary `gridGet` reads (out-of-range
reads return `none`). -/
theorem gridAll_get {g : Grid} (P : Cell → Prop)
    (h : ∀ row ∈ g, ∀ cell ∈ row, P cell) (hnone : P none) :
    ∀ r c, P (gridGet g r c) := by
  intro r c
  unfold gridGet
  by_cases hr : r < g.length
  · have hrow : g.getD r [] = g[r] := by
      rw [List.getD_eq_getElem?_getD, List.getElem?_eq_getElem hr, Option.getD_some]
    rw [hrow]
    by_cases hc : c < (g[r]).length
    · rw [List.getD_eq_getElem _ _ hc]
      exact h _ (List.getElem_mem hr) _ (List.getElem_mem hc)
    · rw [List.getD_eq_getElem?_getD, List.getElem?_eq_none (by omega), Option.getD_none]
      exact hnone
  · rw [List.getD_eq_getElem?_getD (l := g), List.getElem?_eq_none (by omega),
      Option.getD_none]
    show P (List.getD [] c none)
    simp [hnone]

theorem gridLetters_get {A : List Char} {g : Grid} (h : GridLetters A g) :
    ∀ r c ch, gridGet g r c = some ch → ch ∈ A := by
  intro r c
  exact gridAll_get (fun cell => ∀ ch : Char, cell = some ch → ch ∈ A) h
    (fun ch hch => by cases hch) r c

theorem gridLetters_set {A : List Char} {g : Grid} (h : GridLetters A g)
    (r c : Nat) (v : Cell) (hv : ∀ ch : Char, v = some ch → ch ∈ A) :
    GridLetters A (gridSet g r c v) := by
  intro row hrow cell hcell ch hch
  rcases List.mem_or_eq_of_mem_set hrow with hrow' | rfl
  · exact h row hrow' cell hcell ch hch
  · rcases List.mem_or_eq_of_mem_set hcell with hcell' | rfl
    · by_cases hr : r < g.length
      · have hrowmem : g.getD r [] ∈ g := by
          rw [List.getD_eq_getElem?_getD, List.getElem?_eq_getElem hr, Option.getD_some]
          exact List.getElem_mem hr
        exact h _ hrowmem cell hcell' ch hch
      · have : g.getD r [] = [] := by
          rw [List.getD_eq_getElem?_getD, List.getElem?_eq_none (by omega)]
          rfl
        rw [this] at hcell'
        exact absurd hcell' (List.not_mem_nil cell)
    · exact hv ch hch

/-! ## Snapshot rows (`recordPartial`) -/

theorem snapshotRow_spec (allowed : List Char) (hA : allowed ≠ []) :
    ∀ (row : List Cell) (rng : RngState),
    (snapshotRow allowed row rng).1.length = row.length ∧
    (∀ ch ∈ (snapshotRow allowed row rng).1,
      ch ∈ allowed ∨ ∃ cell ∈ row, cell = some ch) ∧
    (∀ i (ch : Char), row.getD i none = some ch →
      (snapshotRow allowed row rng).1.getD i 'A' = ch) := by
  intro row
  induction row with
  | nil =>
    intro rng
    refine ⟨rfl, fun ch hch => absurd hch (List.not_mem_nil ch), ?_⟩
    intro i ch hch
    simp at hch
  | cons cell rest ih =>
    intro rng
    match hcell : cell with
    | some ch0 =>
      have hred : snapshotRow allowed (some ch0 :: rest) rng =
          (ch0 :: (snapshotRow allowed rest rng).1, (snapshotRow allowed rest rng).2) := by
        simp only [snapshotRow]
      rw [hred]
      obtain ⟨ihl, ihc, ihp⟩ := ih rng
      refine ⟨by simp [ihl], ?_, ?_⟩
      · intro ch hch
        rcases List.mem_cons.mp hch with rfl | hch'
        · exact Or.inr ⟨some ch, List.mem_cons_self _ _, rfl⟩
        · rcases ihc ch hch' with h | ⟨c2, hc2, he⟩
          · exact Or.inl h
          · exact Or.inr ⟨c2, List.mem_cons_of_mem _ hc2, he⟩
      · intro i ch hch
        match i with
        | 0 =>
          simp only [List.getD_cons_zero] at hch ⊢
          cases hch
          rfl
        | i + 1 =>
          simp only [List.getD_cons_succ] at hch ⊢
          exact ihp i ch hch
    | none =>
      rcases hrc : randomChoice allowed rng with ⟨ch1, rng1⟩
      have hred : snapshotRow allowed (none :: rest) rng =
          (ch1 :: (snapshotRow allowed rest rng1).1, (snapshotRow allowed rest rng1).2) := by
        simp only [snapshotRow, hrc]
      rw [hred]
      obtain ⟨ihl, ihc, ihp⟩ := ih rng1
      refine ⟨by simp [ihl], ?_, ?_⟩
      · intro ch hch
        rcases List.mem_cons.mp hch with rfl | hch'
        · left
          have := randomChoice_mem allowed rng hA
          rw [hrc] at this
          exact this
        · rcases ihc ch hch' with h | ⟨c2, hc2, he⟩
          · exact Or.inl h
          · exact Or.inr ⟨c2, List.mem_cons_of_mem _ hc2, he⟩
      · intro i ch hch
        match i with
        | 0 => simp at hch
        | i + 1 =>
          simp only [List.getD_cons_succ] at hch ⊢
          exact ihp i ch hch

theorem snapshotRows_spec (allowed : List Char) (hA : allowed ≠ []) :
    ∀ (g : Grid) (rng : RngState),
    (snapshotRows allowed g rng).1.length = g.length ∧
    (∀ r, ((snapshotRows allowed g rng).1.getD r []).length = (g.getD r []).length) ∧
    (∀ s ∈ (snapshotRows allowed g rng).1, ∀ ch ∈ s,
      ch ∈ allowed ∨ ∃ row ∈ g, ∃ cell ∈ row, cell = some ch) ∧
    (∀ r c (ch : Char), gridGet g r c = some ch →
      ((snapshotRows allowed g rng).1.getD r []).getD c 'A' = ch) := by
  intro g
  induction g with
  | nil =>
    intro rng
    refine ⟨rfl, fun r => rfl, fun s hs => absurd hs (List.not_mem_nil s), ?_⟩
    intro r c ch hch
    simp [gridGet] at hch
  | cons row rest ih =>
    intro rng
    rcases hsr : snapshotRow allowed row rng with ⟨s0, rng1⟩
    have hred : snapshotRows allowed (row :: rest) rng =
        (s0 :: (snapshotRows allowed rest rng1).1, (snapshotRows allowed rest rng1).2) := by
      simp only [snapshotRows, hsr]
    rw [hred]
    obtain ⟨ihl, ihrl, ihc, ihp⟩ := ih rng1
    obtain ⟨srl, src, srp⟩ := snapshotRow_spec allowed hA row rng
    rw [hsr] at srl src srp
    refine ⟨by simp [ihl], ?_, ?_, ?_⟩
    · intro r
      match r with
      | 0 => simpa using srl
      | r + 1 =>
        simp only [List.getD_cons_succ]
        exact ihrl r
    · intro s hs ch hch
      rcases List.mem_cons.mp hs with rfl | hs'
      · rcases src ch hch with h | ⟨c2, hc2, he⟩
        · exact Or.inl h
        · exact Or.inr ⟨row, List.mem_cons_self _ _, c2, hc2, he⟩
      · rcases ihc s hs' ch hch with h | ⟨r2, hr2, c2, hc2, he⟩
        · exact Or.inl h
        · exact Or.inr ⟨r2, List.mem_cons_of_mem _ hr2, c2, hc2, he⟩
    · intro r c ch hch
      match r with
      | 0 =>
        simp only [List.getD_cons_zero]
        refine srp c ch ?_
        have : gridGet (row :: rest) 0 c = row.getD c none := by
          simp [gridGet]
        rw [this] at hch
        exact hch
      | r + 1 =>
        simp only [List.getD_cons_succ]
        refine ihp r c ch ?_
        have : gridGet (row :: rest) (r + 1) c = gridGet rest r c := by
          simp [gridGet]
        rw [this] at hch
        exact hch

/-! ## Search invariants -/

theorem mem_getD_of_mem {α} {l : List α} {d : α} {x : α} (h : x ∈ l) :
    ∃ i, i < l.length ∧ l.getD i d = x := by
  obtain ⟨i, hi, hix⟩ := List.mem_iff_getElem.mp h
  exact ⟨i, hi, by rw [List.getD_eq_getElem _ _ hi]; exact hix⟩

/-- `recordPartial` changes only `bestPartial` and the RNG; afterwards a
partial state is recorded and every recorded partial state is well-formed. -/
theorem recordPartial_spec (ctx : Ctx) (st : SState)
    (hA : ctx.allowed ≠ [])
    (hg : GridShape ctx.W ctx.H st.grid) (hgl : GridLetters ctx.allowed st.grid)
    (hcur : CurOk ctx st.grid st.cur)
    (hbp : ∀ p, st.bestPartial = some p → PartOk ctx p) :
    (recordPartial ctx st).grid = st.grid ∧
    (recordPartial ctx st).cur = st.cur ∧
    (recordPartial ctx st).curInter = st.curInter ∧
    (recordPartial ctx st).iters = st.iters ∧
    (recordPartial ctx st).cancelled = st.cancelled ∧
    (recordPartial ctx st).best = st.best ∧
    (recordPartial ctx st).prog = st.prog ∧
    (recordPartial ctx st).enums = st.enums ∧
    (recordPartial ctx st).bestPartial ≠ none ∧
    (∀ p, (recordPartial ctx st).bestPartial = some p → PartOk ctx p) := by
  obtain ⟨snl, snrl, snc, snp⟩ := snapshotRows_spec ctx.allowed hA st.grid st.rng
  rcases hsn : snapshotRows ctx.allowed st.grid st.rng with ⟨rows, rng1⟩
  rw [hsn] at snl snrl snc snp
  have hred : recordPartial ctx st =
      if (match st.bestPartial with
          | none => true
          | some bp =>
            decide (bp.placedCount < st.cur.length) ||
            (decide (st.cur.length = bp.placedCount) && decide (bp.inter < st.curInter)))
        = true then
        { st with bestPartial := some ⟨st.cur, st.curInter, rows, st.cur.length⟩,
                  rng := rng1 }
      else st := by
    unfold recordPartial
    dsimp only
    rw [hsn]
  have hpartnew : PartOk ctx ⟨st.cur, st.curInter, rows, st.cur.length⟩ := by
    refine ⟨⟨?_, ?_, ?_⟩, ?_⟩
    · show rows.length = ctx.H
      rw [snl, hg.1]
    · intro srow hsrow
      obtain ⟨r, hr, hgd⟩ := mem_getD_of_mem (d := []) hsrow
      have := snrl r
      rw [hgd] at this
      show srow.length = ctx.W
      rw [this]
      rw [snl, hg.1] at hr
      exact getD_row_length hg hr
    · intro srow hsrow ch hch
      rcases snc srow hsrow ch hch with h | ⟨row, hrow, cell, hcell, hce⟩
      · exact h
      · exact hgl row hrow cell hcell ch hce
    · intro e he
      obtain ⟨hH, hV, hsp⟩ := hcur e he
      refine ⟨?_, ?_⟩
      · show PlBounds ctx.W ctx.H _
        unfold PlBounds
        cases hd : e.2.dir
        · exact hH hd
        · exact hV hd
      · intro k hk
        exact snp _ _ _ (hsp k hk)
  rw [hred]
  split
  · refine ⟨rfl, rfl, rfl, rfl, rfl, rfl, rfl, rfl, by simp, ?_⟩
    intro p hp
    simp only at hp
    cases hp
    exact hpartnew
  · rename_i hcond
    refine ⟨rfl, rfl, rfl, rfl, rfl, rfl, rfl, rfl, ?_, hbp⟩
    match hbpv : st.bestPartial with
    | none => rw [hbpv] at hcond; simp at hcond
    | some bp => simp [hbpv]

/-! ## Joined rows of a full grid -/

theorem joinRows_getD (g : Grid) (r : Nat) :
    (joinRows g).getD r [] = (g.getD r []).map (fun c => c.getD 'A') := by
  unfold joinRows
  rw [List.getD_eq_getElem?_getD, List.getD_eq_getElem?_getD, List.getElem?_map]
  cases g[r]? <;> rfl

theorem joinRows_length (g : Grid) : (joinRows g).length = g.length := by
  unfold joinRows
  exact List.length_map _ _

theorem joinRows_get {g : Grid} {r c : Nat} {ch : Char}
    (h : gridGet g r c = some ch) :
    ((joinRows g).getD r []).getD c 'A' = ch := by
  rw [joinRows_getD]
  unfold gridGet at h
  rw [List.getD_eq_getElem?_getD, List.getElem?_map]
  rw [List.getD_eq_getElem?_getD] at h
  cases hcell : (g.getD r [])[c]? with
  | none => rw [hcell] at h; cases h
  | some cell =>
    rw [hcell] at h
    simp only [Option.getD_some] at h
    show cell.getD 'A' = ch
    rw [h]
    rfl

theorem joinRows_chars {A : List Char} {g : Grid}
    (hfull : ∀ row ∈ g, ∀ cell ∈ row, cell ≠ none)
    (hgl : GridLetters A g) : ∀ s ∈ joinRows g, ∀ ch ∈ s, ch ∈ A := by
  intro s hs ch hch
  unfold joinRows at hs
  obtain ⟨row, hrow, rfl⟩ := List.mem_map.mp hs
  obtain ⟨cell, hcell, rfl⟩ := List.mem_map.mp hch
  rcases cell with _ | ch0
  · exact absurd rfl (hfull row hrow none hcell)
  · have := hgl row hrow (some ch0) hcell ch0 rfl
    simpa using this

theorem joinRows_cells {g : Grid}
    (hfull : ∀ row ∈ g, ∀ cell ∈ row, cell ≠ none) :
    (joinRows g).map (fun row => row.map some) = g := by
  unfold joinRows
  rw [List.map_map]
  conv_rhs => rw [← List.map_id g]
  refine List.map_congr_left ?_
  intro row hrow
  show (row.map fun c => c.getD 'A').map some = id row
  rw [List.map_map]
  conv_rhs => rw [show id row = row.map id from (List.map_id row).symm]
  refine List.map_congr_left ?_
  intro cell hcell
  rcases cell with _ | ch0
  · exact absurd rfl (hfull row hrow none hcell)
  · rfl

/-- On failure `fillEmptiesAvoidingExtras` leaves the grid unchanged. -/
theorem fillEmpties_fail (ctx : Ctx) (g : Grid) (rng : RngState)
    (hshape : GridShape ctx.W ctx.H g)
    (hfail : (fillEmptiesAvoidingExtras ctx g rng).1 = false) :
    (fillEmptiesAvoidingExtras ctx g rng).2.1 = g := by
  by_cases hemp : (emptyCells ctx.W ctx.H g).isEmpty = true
  case pos =>
    have hout : fillEmptiesAvoidingExtras ctx g rng = (true, g, rng, []) := by
      unfold fillEmptiesAvoidingExtras
      dsimp only
      rw [if_pos hemp]
    rw [hout] at hfail
    cases hfail
  case neg =>
    by_cases hguard : ((uniqueWords ctx).any (fun w =>
        decide (requiredCount ctx w <
          countOccurrencesStrictForWord ctx.W ctx.H g w))) = true
    case pos =>
      have hout : fillEmptiesAvoidingExtras ctx g rng = (false, g, rng, []) := by
        unfold fillEmptiesAvoidingExtras
        dsimp only
        rw [if_neg hemp, if_pos hguard]
      rw [hout]
    case neg =>
      have hout : fillEmptiesAvoidingExtras ctx g rng =
          ((tryFillAux ctx
              ((stableSort (fun a b =>
                decide (dangerAt ctx b.1 b.2 ≤ dangerAt ctx a.1 a.2))
                (emptyCells ctx.W ctx.H g)).length + 1)
              (stableSort (fun a b =>
                decide (dangerAt ctx b.1 b.2 ≤ dangerAt ctx a.1 a.2))
                (emptyCells ctx.W ctx.H g))
              ⟨g, fun w => countOccurrencesStrictForWord ctx.W ctx.H g w, rng⟩).1,
           (tryFillAux ctx
              ((stableSort (fun a b =>
                decide (dangerAt ctx b.1 b.2 ≤ dangerAt ctx a.1 a.2))
                (emptyCells ctx.W ctx.H g)).length + 1)
              (stableSort (fun a b =>
                decide (dangerAt ctx b.1 b.2 ≤ dangerAt ctx a.1 a.2))
                (emptyCells ctx.W ctx.H g))
              ⟨g, fun w => countOccurrencesStrictForWord ctx.W ctx.H g w, rng⟩).2.grid,
           (tryFillAux ctx
              ((stableSort (fun a b =>
                decide (dangerAt ctx b.1 b.2 ≤ dangerAt ctx a.1 a.2))
                (emptyCells ctx.W ctx.H g)).length + 1)
              (stableSort (fun a b =>
                decide (dangerAt ctx b.1 b.2 ≤ dangerAt ctx a.1 a.2))
                (emptyCells ctx.W ctx.H g))
              ⟨g, fun w => countOccurrencesStrictForWord ctx.W ctx.H g w, rng⟩).2.rng,
           stableSort (fun a b =>
              decide (dangerAt ctx b.1 b.2 ≤ dangerAt ctx a.1 a.2))
              (emptyCells ctx.W ctx.H g)) := by
        unfold fillEmptiesAvoidingExtras
        dsimp only
        rw [if_neg hemp, if_neg hguard]
      have hperm : (stableSort (fun a b =>
          decide (dangerAt ctx b.1 b.2 ≤ dangerAt ctx a.1 a.2))
          (emptyCells ctx.W ctx.H g)).Perm (emptyCells ctx.W ctx.H g) :=
        stableSort_perm _ _
      have hnodup := hperm.nodup_iff.mpr (emptyCells_nodup ctx.W ctx.H g)
      have hbounds : ∀ rc ∈ stableSort (fun a b =>
          decide (dangerAt ctx b.1 b.2 ≤ dangerAt ctx a.1 a.2))
          (emptyCells ctx.W ctx.H g), rc.1 < ctx.H ∧ rc.2 < ctx.W := by
        intro rc hrc
        have := mem_emptyCells.mp (hperm.mem_iff.mp hrc)
        exact ⟨this.1, this.2.1⟩
      have hnullmem : ∀ rc ∈ stableSort (fun a b =>
          decide (dangerAt ctx b.1 b.2 ≤ dangerAt ctx a.1 a.2))
          (emptyCells ctx.W ctx.H g),
          gridGet (⟨g, fun w => countOccurrencesStrictForWord ctx.W ctx.H g w, rng⟩ :
            FillSt).grid rc.1 rc.2 = none := by
        intro rc hrc
        exact (mem_emptyCells.mp (hperm.mem_iff.mp hrc)).2.2
      have hinv0 : FillStInv ctx
          ⟨g, fun w => countOccurrencesStrictForWord ctx.W ctx.H g w, rng⟩ := by
        refine ⟨hshape, ?_⟩
        intro w hw
        refine ⟨rfl, ?_⟩
        show countOccurrencesStrictForWord ctx.W ctx.H g w ≤ requiredCount ctx w
        rw [Bool.not_eq_true, List.any_eq_false] at hguard
        have := hguard w hw
        simp only [decide_eq_true_eq] at this
        omega
      obtain ⟨hfalse, -⟩ := tryFillAux_spec ctx _ _ _ (Nat.lt_succ_self _) hnodup
        hbounds hnullmem hinv0
      rw [hout] at hfail
      rw [hout]
      exact (hfalse hfail).1

/-- Undoing the changed cells of a successful fill restores the grid. -/
theorem fillEmpties_undo (ctx : Ctx) (g : Grid) (rng : RngState)
    (hshape : GridShape ctx.W ctx.H g)
    (hcounts : ∀ w ∈ uniqueWords ctx,
      countOccurrencesStrictForWord ctx.W ctx.H g w = requiredCount ctx w)
    (hok : (fillEmptiesAvoidingExtras ctx g rng).1 = true) :
    undoCells (fillEmptiesAvoidingExtras ctx g rng).2.1
      (fillEmptiesAvoidingExtras ctx g rng).2.2.2 = g := by
  obtain ⟨hsh, hkeep, hfill, -⟩ := fillEmpties_spec ctx g rng hshape hcounts hok
  by_cases hemp : (emptyCells ctx.W ctx.H g).isEmpty = true
  case pos =>
    have hout : fillEmptiesAvoidingExtras ctx g rng = (true, g, rng, []) := by
      unfold fillEmptiesAvoidingExtras
      dsimp only
      rw [if_pos hemp]
    rw [hout]
    rfl
  case neg =>
    have hchanged : (fillEmptiesAvoidingExtras ctx g rng).2.2.2 =
        stableSort (fun a b =>
          decide (dangerAt ctx b.1 b.2 ≤ dangerAt ctx a.1 a.2))
          (emptyCells ctx.W ctx.H g) := by
      by_cases hguard : ((uniqueWords ctx).any (fun w =>
          decide (requiredCount ctx w <
            countOccurrencesStrictForWord ctx.W ctx.H g w))) = true
      · have hout : fillEmptiesAvoidingExtras ctx g rng = (false, g, rng, []) := by
          unfold fillEmptiesAvoidingExtras
          dsimp only
          rw [if_neg hemp, if_pos hguard]
        rw [hout] at hok
        cases hok
      · unfold fillEmptiesAvoidingExtras
        dsimp only
        rw [if_neg hemp, if_neg hguard]
    have hperm : (stableSort (fun a b =>
        decide (dangerAt ctx b.1 b.2 ≤ dangerAt ctx a.1 a.2))
        (emptyCells ctx.W ctx.H g)).Perm (emptyCells ctx.W ctx.H g) :=
      stableSort_perm _ _
    have hbounds : ∀ rc ∈ (fillEmptiesAvoidingExtras ctx g rng).2.2.2,
        rc.1 < ctx.H ∧ rc.2 < ctx.W := by
      rw [hchanged]
      intro rc hrc
      have := mem_emptyCells.mp (hperm.mem_iff.mp hrc)
      exact ⟨this.1, this.2.1⟩
    refine gridExt (undoCells_shape _ hsh) hshape ?_
    intro r hr c hc
    rw [undoCells_get _ hsh hbounds r c hr hc]
    by_cases hmem : (r, c) ∈ (fillEmptiesAvoidingExtras ctx g rng).2.2.2
    · rw [if_pos hmem]
      have : (r, c) ∈ emptyCells ctx.W ctx.H g := by
        rw [hchanged] at hmem
        exact hperm.mem_iff.mp hmem
      exact (mem_emptyCells.mp this).2.2.symm
    · rw [if_neg hmem]
      by_cases hnl : gridGet g r c = none
      · exfalso
        refine hmem ?_
        rw [hchanged]
        exact hperm.mem_iff.mpr (mem_emptyCells.mpr ⟨hr, hc, hnl⟩)
      · exact hkeep r c hnl

/-- `okWindow` unpacked: each covered cell is empty or already matches. -/
theorem okWindow_iff {g : Grid} {w : Str} {row col : Nat} {dir : Dir} :
    okWindow g w row col dir = true ↔
    ∀ k < w.length,
      gridGet g (plcCell row col dir k).1 (plcCell row col dir k).2 = none ∨
      gridGet g (plcCell row col dir k).1 (plcCell row col dir k).2 =
        some (wchar w k) := by
  unfold okWindow
  rw [List.all_eq_true]
  constructor
  · intro h k hk
    have := h k (List.mem_range.mpr hk)
    dsimp only at this
    match hcell : gridGet g (plcCell row col dir k).1 (plcCell row col dir k).2 with
    | none => exact Or.inl rfl
    | some ch =>
      rw [hcell] at this
      right
      rw [eq_of_beq this]
  · intro h k hk
    rw [List.mem_range] at hk
    dsimp only
    rcases h k hk with hc | hc
    · rw [hc]
    · rw [hc]
      simp

/-- Erasing by the appended id removes exactly the appended entry. -/
theorem eraseP_append_id (id : Nat) (x : PRec) :
    ∀ (l : List (Nat × PRec)), (∀ e ∈ l, e.1 ≠ id) →
    (l ++ [(id, x)]).eraseP (fun e => e.1 == id) = l := by
  intro l
  induction l with
  | nil =>
    intro _
    simp [List.eraseP_cons]
  | cons e l ih =>
    intro h
    have hne : (e.1 == id) = false := by
      rw [beq_eq_false_iff_ne]
      exact h e (List.mem_cons_self _ _)
    rw [List.cons_append, List.eraseP_cons, hne]
    rw [Bool.cond_false, ih (fun x hx => h x (List.mem_cons_of_mem _ hx))]

/-- A list is a permutation of any element consed onto its erasure. -/
theorem eraseIdx_perm {α} :
    ∀ (l : List α) (i : Nat) (h : i < l.length),
    l.Perm (l[i] :: l.eraseIdx i) := by
  intro l
  induction l with
  | nil => intro i h; simp at h
  | cons a t ih =>
    intro i h
    match i with
    | 0 => simp [List.eraseIdx]
    | i + 1 =>
      have hi : i < t.length := by simpa using h
      have hstep : (a :: t).eraseIdx (i + 1) = a :: t.eraseIdx i := rfl
      rw [hstep]
      have h1 : (a :: t).Perm (a :: (t[i] :: t.eraseIdx i)) :=
        List.Perm.cons a (ih i hi)
      have h2 : (a :: (t[i] :: t.eraseIdx i)).Perm
          (t[i] :: (a :: t.eraseIdx i)) := List.Perm.swap _ _ _
      exact (h1.trans h2).trans (by rfl)

/-- Every choice returned by the word-choice loop is a remaining word at its
index with a list of valid in-bounds placements. -/
theorem chooseLoop_spec (ctx : Ctx) (g : Grid) (remaining : List WordObj) :
    ∀ (ws : List WordObj) (i : Nat) (acc : Option Chosen) (rng : RngState),
    List.drop i remaining = ws →
    (∀ a, acc = some a → ChosenOk ctx g remaining a) →
    ∀ c, (chooseLoop ctx g ws i acc rng).1 = some c → ChosenOk ctx g remaining c := by
  intro ws
  induction ws with
  | nil =>
    intro i acc rng _ hacc c hc
    simp only [chooseLoop] at hc
    exact hacc c hc
  | cons w ws ih =>
    intro i acc rng hdrop hacc c hc
    rcases henum : enumeratePlacements ctx g w.word rng with ⟨plist, rng1⟩
    rw [show chooseLoop ctx g (w :: ws) i acc rng =
        (if plist.isEmpty then (none, rng1, 1)
         else
          let maxScore := (plist.headD default).score
          let take :=
            match acc with
            | none => true
            | some a =>
              decide (plist.length < a.minCount) ||
              (decide (plist.length = a.minCount) && decide (a.bestLen < w.word.length)) ||
              (decide (plist.length = a.minCount) && decide (w.word.length = a.bestLen) &&
                decide (a.maxScore < maxScore))
          let acc2 := if take then some ⟨i, w, plist, plist.length, w.word.length, maxScore⟩
            else acc
          let res := chooseLoop ctx g ws (i + 1) acc2 rng1
          (res.1, res.2.1, res.2.2 + 1))
      from by simp only [chooseLoop, henum]] at hc
    by_cases hpe : plist.isEmpty = true
    · rw [if_pos hpe] at hc
      cases hc
    · rw [if_neg hpe] at hc
      dsimp only at hc
      have hlen : i < remaining.length := by
        have := congrArg List.length hdrop
        rw [List.length_drop] at this
        simp at this
        omega
      have hgeti : remaining[i] = w := by
        have h0 : 0 < (List.drop i remaining).length := by rw [hdrop]; simp
        have : (List.drop i remaining)[0] = w := by
          rw [List.getElem_of_eq hdrop]
          rfl
        rw [List.getElem_drop] at this
        simpa using this
      have hdrop1 : List.drop (i + 1) remaining = ws := by
        rw [← List.tail_drop, hdrop]
        rfl
      refine ih (i + 1) _ rng1 hdrop1 ?_ c hc
      intro a ha
      split at ha
      · cases ha
        refine ⟨⟨hlen, hgeti⟩, ?_⟩
        intro p hp
        have hmem : p ∈ (enumeratePlacements ctx g w.word rng).1 := by
          rw [henum]
          exact hp
        obtain ⟨hok, hH, hV⟩ := enumeratePlacements_mem ctx g w.word rng p hmem
        exact ⟨hok, hH, hV⟩
      · exact hacc a ha

/-- The placements of a word's window are in bounds. -/
theorem plcCell_bounds (ctx : Ctx) (w : Str) (p : Plc)
    (hH : p.dir = .H → p.row < ctx.H ∧ p.col + w.length ≤ ctx.W)
    (hV : p.dir = .V → p.col < ctx.W ∧ p.row + w.length ≤ ctx.H) :
    ∀ k ∈ List.range w.length,
      (plcCell p.row p.col p.dir k).1 < ctx.H ∧
      (plcCell p.row p.col p.dir k).2 < ctx.W := by
  intro k hk
  rw [List.mem_range] at hk
  cases hdir : p.dir
  · obtain ⟨h1, h2⟩ := hH hdir
    simp only [plcCell]
    constructor
    · exact h1
    · omega
  · obtain ⟨h1, h2⟩ := hV hdir
    simp only [plcCell]
    constructor
    · omega
    · exact h1

/-- Placing a chosen word keeps the search invariants; the placement loop
then restores the state and preserves the invariant. -/
theorem tryPlacements_spec (ctx : Ctx) (objs : List WordObj)
    (searchRest : SState → SState) (wo : WordObj) (rem2 : List WordObj)
    (hctx : CtxOk ctx)
    (hword : wo.word ∈ ctx.cleanWords)
    (hwoobjs : wo ∈ objs)
    (hwoid : ∀ wo2 ∈ rem2, wo.id ≠ wo2.id)
    (hrest : ∀ s : SState, SInv ctx objs s → CurIds objs rem2 s.cur →
      SPost ctx objs s (searchRest s)) :
    ∀ (plist : List Plc) (st : SState),
    (∀ p ∈ plist, okWindow st.grid wo.word p.row p.col p.dir = true ∧
      (p.dir = .H → p.row < ctx.H ∧ p.col + wo.word.length ≤ ctx.W) ∧
      (p.dir = .V → p.col < ctx.W ∧ p.row + wo.word.length ≤ ctx.H)) →
    SInv ctx objs st →
    CurIds objs (wo :: rem2) st.cur →
    SPost ctx objs st (tryPlacements ctx searchRest wo plist st) := by
  intro plist
  induction plist with
  | nil =>
    intro st _ hinv _
    simp only [tryPlacements]
    exact ⟨hinv, rfl, rfl, rfl⟩
  | cons p ps ih =>
    intro st hplist hinv hids
    obtain ⟨hshape, hgl, hcur, hbest, hbp⟩ := hinv
    obtain ⟨hids1, hids2, hids3⟩ := hids
    by_cases hcan : st.cancelled = true
    case pos =>
      have hred : tryPlacements ctx searchRest wo (p :: ps) st = st := by
        simp only [tryPlacements]
        rw [if_pos hcan]
      rw [hred]
      exact ⟨⟨hshape, hgl, hcur, hbest, hbp⟩, rfl, rfl, rfl⟩
    case neg =>
      obtain ⟨hokw, hbH, hbV⟩ := hplist p (List.mem_cons_self _ _)
      have hkb := plcCell_bounds ctx wo.word p hbH hbV
      obtain ⟨psh, pmem, pout⟩ := placeGo_spec (W := ctx.W) (H := ctx.H)
        wo.word p.row p.col p.dir (List.range wo.word.length) st.grid hshape hkb
      have hwrit := placeGo_written (W := ctx.W) (H := ctx.H)
        wo.word p.row p.col p.dir (List.range wo.word.length) st.grid hshape hkb
        (List.nodup_range _)
        (fun k hk => by
          rw [List.mem_range] at hk
          exact okWindow_iff.mp hokw k hk)
      have hpw : placeGo wo.word p.row p.col p.dir st.grid (List.range wo.word.length) =
          placeWord st.grid wo.word p.row p.col p.dir := rfl
      rw [hpw] at psh pmem pout hwrit
      have hwchars : ∀ k, k < wo.word.length → wchar wo.word k ∈ ctx.allowed := by
        intro k hk
        refine hctx.2 wo.word hword _ ?_
        show wo.word.getD k 'A' ∈ wo.word
        rw [List.getD_eq_getElem _ _ hk]
        exact List.getElem_mem hk
      have hgl1 : GridLetters ctx.allowed
          (placeWord st.grid wo.word p.row p.col p.dir).1 := by
        refine gridAll_of_pointwise psh _ ?_
        intro r hr c hc ch hch
        by_cases hmem : (r, c) ∈ (placeWord st.grid wo.word p.row p.col p.dir).2
        · obtain ⟨-, -, -, k, hk, heqk, hval⟩ := pmem _ hmem
          rw [List.mem_range] at hk
          have hval2 : gridGet (placeWord st.grid wo.word p.row p.col p.dir).1 r c =
              some (wchar wo.word k) := hval
          rw [hval2] at hch
          cases hch
          exact hwchars k hk
        · rw [pout r c hmem] at hch
          exact gridLetters_get hgl r c ch hch
      have hcellsome : ∀ e ∈ st.cur, ∀ k < e.2.word.length,
          gridGet (placeWord st.grid wo.word p.row p.col p.dir).1
            (plcCell e.2.row e.2.col e.2.dir k).1
            (plcCell e.2.row e.2.col e.2.dir k).2 =
          some (wchar e.2.word k) := by
        intro e he k hk
        have hold := (hcur e he).2.2 k hk
        have hnotnew : ((plcCell e.2.row e.2.col e.2.dir k).1,
            (plcCell e.2.row e.2.col e.2.dir k).2) ∉
            (placeWord st.grid wo.word p.row p.col p.dir).2 := by
          intro hmem
          have := (pmem _ hmem).2.2.1
          rw [hold] at this
          cases this
        rw [pout _ _ hnotnew]
        exact hold
      have hinv1 : SInv ctx objs { st with
          grid := (placeWord st.grid wo.word p.row p.col p.dir).1,
          cur := st.cur ++ [(wo.id, ⟨wo.word, p.row, p.col, p.dir, p.score⟩)],
          curInter := st.curInter + p.score } := by
        refine ⟨psh, hgl1, ?_, hbest, hbp⟩
        intro e he
        rcases List.mem_append.mp he with he' | he'
        · exact ⟨(hcur e he').1, (hcur e he').2.1, hcellsome e he'⟩
        · rcases List.mem_singleton.mp he' with rfl
          refine ⟨hbH, hbV, ?_⟩
          intro k hk
          exact hwrit k (List.mem_range.mpr hk)
      have hids1' : CurIds objs rem2
          (st.cur ++ [(wo.id, ⟨wo.word, p.row, p.col, p.dir, p.score⟩)]) := by
        refine ⟨?_, ?_, ?_⟩
        · intro e he wo2 hwo2
          rcases List.mem_append.mp he with he' | he'
          · exact hids1 e he' wo2 (List.mem_cons_of_mem _ hwo2)
          · rcases List.mem_singleton.mp he' with rfl
            exact hwoid wo2 hwo2
        · intro wo2 hwo2
          rcases hids2 wo2 hwo2 with ⟨e, he, heq⟩ | hrem
          · exact Or.inl ⟨e, List.mem_append_left _ he, heq⟩
          · rcases List.mem_cons.mp hrem with rfl | hrem'
            · exact Or.inl ⟨_, List.mem_append_right _ (List.mem_singleton.mpr rfl), rfl⟩
            · exact Or.inr hrem'
        · intro e he
          rcases List.mem_append.mp he with he' | he'
          · exact hids3 e he'
          · rcases List.mem_singleton.mp he' with rfl
            exact ⟨wo, hwoobjs, rfl, rfl⟩
      have hpost12 : SPost ctx objs { st with
          grid := (placeWord st.grid wo.word p.row p.col p.dir).1,
          cur := st.cur ++ [(wo.id, ⟨wo.word, p.row, p.col, p.dir, p.score⟩)],
          curInter := st.curInter + p.score }
          (if countsWithinLimits ctx (placeWord st.grid wo.word p.row p.col p.dir).1
            then searchRest { st with
              grid := (placeWord st.grid wo.word p.row p.col p.dir).1,
              cur := st.cur ++ [(wo.id, ⟨wo.word, p.row, p.col, p.dir, p.score⟩)],
              curInter := st.curInter + p.score }
            else { st with
              grid := (placeWord st.grid wo.word p.row p.col p.dir).1,
              cur := st.cur ++ [(wo.id, ⟨wo.word, p.row, p.col, p.dir, p.score⟩)],
              curInter := st.curInter + p.score }) := by
        split
        · exact hrest _ hinv1 hids1'
        · exact ⟨hinv1, rfl, rfl, rfl⟩
      rcases hpost12 with ⟨hinv2, hg2, hc2, hi2⟩
      have hbounds2 : ∀ rc ∈ (placeWord st.grid wo.word p.row p.col p.dir).2,
          rc.1 < ctx.H ∧ rc.2 < ctx.W := by
        intro rc hrc
        exact ⟨(pmem rc hrc).1, (pmem rc hrc).2.1⟩
      have hundo : undoCells (placeWord st.grid wo.word p.row p.col p.dir).1
          (placeWord st.grid wo.word p.row p.col p.dir).2 = st.grid := by
        refine gridExt (undoCells_shape _ psh) hshape ?_
        intro r hr c hc
        rw [undoCells_get _ psh hbounds2 r c hr hc]
        by_cases hmem : (r, c) ∈ (placeWord st.grid wo.word p.row p.col p.dir).2
        · rw [if_pos hmem]
          exact ((pmem _ hmem).2.2.1).symm
        · rw [if_neg hmem]
          exact pout r c hmem
      have hcurold : ∀ e ∈ st.cur, e.1 ≠ wo.id :=
        fun e he => hids1 e he wo (List.mem_cons_self _ _)
      set stm := if countsWithinLimits ctx (placeWord st.grid wo.word p.row p.col p.dir).1
          then searchRest { st with
            grid := (placeWord st.grid wo.word p.row p.col p.dir).1,
            cur := st.cur ++ [(wo.id, ⟨wo.word, p.row, p.col, p.dir, p.score⟩)],
            curInter := st.curInter + p.score }
          else { st with
            grid := (placeWord st.grid wo.word p.row p.col p.dir).1,
            cur := st.cur ++ [(wo.id, ⟨wo.word, p.row, p.col, p.dir, p.score⟩)],
            curInter := st.curInter + p.score } with hstm
      have hg3 : undoCells stm.grid (placeWord st.grid wo.word p.row p.col p.dir).2 =
          st.grid := by
        rw [hg2]
        exact hundo
      have hc3 : stm.cur.eraseP (fun e => e.1 == wo.id) = st.cur := by
        rw [hc2]
        exact eraseP_append_id wo.id _ st.cur hcurold
      have hi3 : stm.curInter - p.score = st.curInter := by
        rw [hi2]
        show st.curInter + p.score - p.score = st.curInter
        omega
      have hinv3 : SInv ctx objs { stm with
          curInter := stm.curInter - p.score,
          cur := stm.cur.eraseP (fun e => e.1 == wo.id),
          grid := undoCells stm.grid (placeWord st.grid wo.word p.row p.col p.dir).2 } := by
        refine ⟨?_, ?_, ?_, ?_, ?_⟩
        · show GridShape ctx.W ctx.H (undoCells stm.grid _)
          rw [hg3]
          exact hshape
        · show GridLetters ctx.allowed (undoCells stm.grid _)
          rw [hg3]
          exact hgl
        · show CurOk ctx (undoCells stm.grid _) (stm.cur.eraseP _)
          rw [hg3, hc3]
          exact hcur
        · exact hinv2.2.2.2.1
        · exact hinv2.2.2.2.2
      have hred : tryPlacements ctx searchRest wo (p :: ps) st =
          if ({ stm with
              curInter := stm.curInter - p.score,
              cur := stm.cur.eraseP (fun e => e.1 == wo.id),
              grid := undoCells stm.grid
                (placeWord st.grid wo.word p.row p.col p.dir).2 } : SState).cancelled
          then { stm with
              curInter := stm.curInter - p.score,
              cur := stm.cur.eraseP (fun e => e.1 == wo.id),
              grid := undoCells stm.grid
                (placeWord st.grid wo.word p.row p.col p.dir).2 }
          else tryPlacements ctx searchRest wo ps { stm with
              curInter := stm.curInter - p.score,
              cur := stm.cur.eraseP (fun e => e.1 == wo.id),
              grid := undoCells stm.grid
                (placeWord st.grid wo.word p.row p.col p.dir).2 } := by
        simp only [tryPlacements]
        rw [if_neg hcan]
      rw [hred]
      split
      · exact ⟨hinv3, hg3, hc3, hi3⟩
      · have hplist3 : ∀ q ∈ ps, okWindow ({ stm with
            curInter := stm.curInter - p.score,
            cur := stm.cur.eraseP (fun e => e.1 == wo.id),
            grid := undoCells stm.grid
              (placeWord st.grid wo.word p.row p.col p.dir).2 } : SState).grid
            wo.word q.row q.col q.dir = true ∧
            (q.dir = .H → q.row < ctx.H ∧ q.col + wo.word.length ≤ ctx.W) ∧
            (q.dir = .V → q.col < ctx.W ∧ q.row + wo.word.length ≤ ctx.H) := by
          intro q hq
          have := hplist q (List.mem_cons_of_mem _ hq)
          refine ⟨?_, this.2.1, this.2.2⟩
          show okWindow (undoCells stm.grid _) wo.word q.row q.col q.dir = true
          rw [hg3]
          exact this.1
        have hids3' : CurIds objs (wo :: rem2) ({ stm with
            curInter := stm.curInter - p.score,
            cur := stm.cur.eraseP (fun e => e.1 == wo.id),
            grid := undoCells stm.grid
              (placeWord st.grid wo.word p.row p.col p.dir).2 } : SState).cur := by
          show CurIds objs (wo :: rem2) (stm.cur.eraseP _)
          rw [hc3]
          exact ⟨hids1, hids2, hids3⟩
        obtain ⟨hinv4, hg4, hc4, hi4⟩ := ih _ hplist3 hinv3 hids3'
        refine ⟨hinv4, ?_, ?_, ?_⟩
        · rw [hg4]
          exact hg3
        · rw [hc4]
          exact hc3
        · rw [hi4]
          exact hi3

/-- `progStep` only appends to the progress trace. -/
theorem progStep_fields (ctx : Ctx) (st2 : SState) (old : Nat) :
    (progStep ctx st2 old).grid = st2.grid ∧
    (progStep ctx st2 old).cur = st2.cur ∧
    (progStep ctx st2 old).curInter = st2.curInter ∧
    (progStep ctx st2 old).iters = st2.iters ∧
    (progStep ctx st2 old).cancelled = st2.cancelled ∧
    (progStep ctx st2 old).best = st2.best ∧
    (progStep ctx st2 old).bestPartial = st2.bestPartial ∧
    (progStep ctx st2 old).rng = st2.rng ∧
    (progStep ctx st2 old).enums = st2.enums := by
  unfold progStep
  split <;> exact ⟨rfl, rfl, rfl, rfl, rfl, rfl, rfl, rfl, rfl⟩

/-- The terminal step preserves the invariant and restores the grid, the
committed placements and the intersection count. -/
theorem termStep_spec (ctx : Ctx) (objs : List WordObj) (st3 : SState)
    (hnodid : (objs.map WordObj.id).Nodup)
    (hinv : SInv ctx objs st3)
    (hcov : ∀ wo ∈ objs, ∃ e ∈ st3.cur, e.1 = wo.id)
    (hcw : ∀ e ∈ st3.cur, ∃ wo ∈ objs, e.1 = wo.id ∧ e.2.word = wo.word) :
    SPost ctx objs st3 (termStep ctx st3) := by
  obtain ⟨hshape, hgl, hcur, hbest, hbp⟩ := hinv
  unfold termStep
  split
  case isFalse => exact ⟨⟨hshape, hgl, hcur, hbest, hbp⟩, rfl, rfl, rfl⟩
  case isTrue hall =>
    have hcounts : ∀ w ∈ uniqueWords ctx,
        countOccurrencesStrictForWord ctx.W ctx.H st3.grid w = requiredCount ctx w := by
      intro w hw
      have := List.all_eq_true.mp hall w hw
      exact eq_of_beq this
    dsimp only
    by_cases hok : (fillEmptiesAvoidingExtras ctx st3.grid st3.rng).1 = true
    case pos =>
      rw [if_pos hok]
      obtain ⟨hsh, hkeep, hfill, hcnt⟩ :=
        fillEmpties_spec ctx st3.grid st3.rng hshape hcounts hok
      have hundoF := fillEmpties_undo ctx st3.grid st3.rng hshape hcounts hok
      have hfull : ∀ row ∈ (fillEmptiesAvoidingExtras ctx st3.grid st3.rng).2.1,
          ∀ cell ∈ row, cell ≠ none := by
        refine gridAll_of_pointwise hsh (fun cell => cell ≠ none) ?_
        intro r hr c hc
        by_cases hnl : gridGet st3.grid r c = none
        · obtain ⟨ch, -, hch⟩ := hfill r c hr hc hnl
          rw [hch]
          simp
        · rw [hkeep r c hnl]
          exact hnl
      have hglF : GridLetters ctx.allowed
          (fillEmptiesAvoidingExtras ctx st3.grid st3.rng).2.1 := by
        refine gridAll_of_pointwise hsh _ ?_
        intro r hr c hc ch hch
        by_cases hnl : gridGet st3.grid r c = none
        · obtain ⟨ch2, hch2A, hch2⟩ := hfill r c hr hc hnl
          rw [hch2] at hch
          cases hch
          exact hch2A
        · rw [hkeep r c hnl] at hch
          exact gridLetters_get hgl r c ch hch
      have hrows : RowsOk ctx
          (joinRows (fillEmptiesAvoidingExtras ctx st3.grid st3.rng).2.1) := by
        refine ⟨?_, ?_, ?_⟩
        · rw [joinRows_length, hsh.1]
        · intro s hs
          obtain ⟨r, hr, hgd⟩ := mem_getD_of_mem (d := []) hs
          rw [joinRows_getD] at hgd
          rw [joinRows_length, hsh.1] at hr
          rw [← hgd, List.length_map]
          exact getD_row_length hsh hr
        · exact joinRows_chars hfull hglF
      have hspl : ∀ e ∈ st3.cur, placementSpells ctx.W ctx.H
          (joinRows (fillEmptiesAvoidingExtras ctx st3.grid st3.rng).2.1)
          (PlcOut.mk e.2.word e.2.row e.2.col e.2.dir) := by
        intro e he
        obtain ⟨ebH, ebV, esp⟩ := hcur e he
        refine ⟨?_, ?_⟩
        · unfold PlBounds
          cases hd : e.2.dir
          · exact ebH hd
          · exact ebV hd
        · intro k hk
          refine joinRows_get ?_
          rw [hkeep _ _ (by rw [esp k hk]; simp)]
          exact esp k hk
      have hcnt2 : ∀ w ∈ uniqueWords ctx,
          countRows ctx.W ctx.H
            (joinRows (fillEmptiesAvoidingExtras ctx st3.grid st3.rng).2.1) w =
          requiredCount ctx w := by
        intro w hw
        unfold countRows
        rw [joinRows_cells hfull]
        exact hcnt w hw
      have hwordmatch : ∀ e ∈ st3.cur, ∀ wo ∈ objs, e.1 = wo.id →
          e.2.word = wo.word := by
        intro e he wo hwo heq
        obtain ⟨wo2, hwo2, hid2, hw2⟩ := hcw e he
        have : wo2 = wo := List.inj_on_of_nodup_map hnodid hwo2 hwo
          (by rw [← hid2, heq])
        rw [hw2, this]
      have hBestNew : BestOk ctx objs
          ⟨st3.cur, st3.curInter,
            joinRows (fillEmptiesAvoidingExtras ctx st3.grid st3.rng).2.1⟩ :=
        ⟨hrows, hspl, hcnt2, hcov, hwordmatch⟩
      refine ⟨⟨?_, ?_, ?_, ?_, ?_⟩, ?_, rfl, rfl⟩
      · show GridShape ctx.W ctx.H (undoCells _ _)
        rw [hundoF]
        exact hshape
      · show GridLetters ctx.allowed (undoCells _ _)
        rw [hundoF]
        exact hgl
      · show CurOk ctx (undoCells _ _) st3.cur
        rw [hundoF]
        exact hcur
      · intro b hb
        simp only at hb
        match hb3 : st3.best with
        | none =>
          rw [hb3] at hb
          simp only at hb
          cases hb
          exact hBestNew
        | some b0 =>
          rw [hb3] at hb
          simp only at hb
          split at hb
          · cases hb
            exact hBestNew
          · cases hb
            exact hbest _ hb3
      · exact hbp
      · show undoCells _ _ = st3.grid
        exact hundoF
    case neg =>
      have hfailv : (fillEmptiesAvoidingExtras ctx st3.grid st3.rng).1 = false := by
        rw [Bool.not_eq_true] at hok
        exact hok
      rw [if_neg hok]
      have hgr := fillEmpties_fail ctx st3.grid st3.rng hshape hfailv
      refine ⟨⟨?_, ?_, ?_, hbest, hbp⟩, ?_, rfl, rfl⟩
      · show GridShape ctx.W ctx.H (fillEmptiesAvoidingExtras ctx st3.grid st3.rng).2.1
        rw [hgr]
        exact hshape
      · show GridLetters ctx.allowed (fillEmptiesAvoidingExtras ctx st3.grid st3.rng).2.1
        rw [hgr]
        exact hgl
      · show CurOk ctx (fillEmptiesAvoidingExtras ctx st3.grid st3.rng).2.1 st3.cur
        rw [hgr]
        exact hcur
      · exact hgr

/-- Chain a step whose source fields were already known to match. -/
theorem SPost_chain {ctx : Ctx} {objs : List WordObj} {a b c : SState}
    (hg : b.grid = a.grid) (hc : b.cur = a.cur) (hi : b.curInter = a.curInter)
    (hbc : SPost ctx objs b c) : SPost ctx objs a c :=
  ⟨hbc.1, hbc.2.1.trans hg, hbc.2.2.1.trans hc, hbc.2.2.2.trans hi⟩

/-- The choose-and-recurse step of `search` for a non-empty remaining list,
parameterized by the recursive continuation `next`. -/
theorem searchCons_spec (ctx : Ctx) (objs : List WordObj)
    (hctx : CtxOk ctx)
    (hobjs : ∀ wo ∈ objs, wo.word ∈ ctx.cleanWords)
    (next : List WordObj → SState → SState)
    (hnext : ∀ (rem : List WordObj) (s : SState), (∀ wo ∈ rem, wo ∈ objs) →
      (rem.map WordObj.id).Nodup → CurIds objs rem s.cur → SInv ctx objs s →
      SPost ctx objs s (next rem s))
    (w : WordObj) (ws : List WordObj) (st3 : SState)
    (hsub : ∀ wo ∈ w :: ws, wo ∈ objs)
    (hnod : ((w :: ws).map WordObj.id).Nodup)
    (hids : CurIds objs (w :: ws) st3.cur)
    (hinv3 : SInv ctx objs st3) :
    SPost ctx objs st3
      (match (chooseLoop ctx st3.grid (w :: ws) 0 none st3.rng).1 with
       | none =>
         { st3 with rng := (chooseLoop ctx st3.grid (w :: ws) 0 none st3.rng).2.1,
                    enums := st3.enums +
                      (chooseLoop ctx st3.grid (w :: ws) 0 none st3.rng).2.2 }
       | some ch =>
         tryPlacements ctx (fun s => next ((w :: ws).eraseIdx ch.idx) s)
           ch.wo ch.plist
           { st3 with rng := (chooseLoop ctx st3.grid (w :: ws) 0 none st3.rng).2.1,
                      enums := st3.enums +
                        (chooseLoop ctx st3.grid (w :: ws) 0 none st3.rng).2.2 }) := by
  split
  case h_1 heq =>
    exact ⟨⟨hinv3.1, hinv3.2.1, hinv3.2.2.1, hinv3.2.2.2.1, hinv3.2.2.2.2⟩,
      rfl, rfl, rfl⟩
  case h_2 ch heq =>
    have hch := chooseLoop_spec ctx st3.grid (w :: ws) (w :: ws) 0 none st3.rng
      (by rw [List.drop_zero]) (fun a ha => by cases ha) ch heq
    obtain ⟨⟨hidxlt, hidxeq⟩, hplistfacts⟩ := hch
    have hperm : (w :: ws).Perm (ch.wo :: (w :: ws).eraseIdx ch.idx) := by
      have := eraseIdx_perm (w :: ws) ch.idx hidxlt
      rw [hidxeq] at this
      exact this
    have hwomem : ch.wo ∈ w :: ws := hperm.mem_iff.mpr (List.mem_cons_self _ _)
    have hwoobjs : ch.wo ∈ objs := hsub _ hwomem
    have hword : ch.wo.word ∈ ctx.cleanWords := hobjs _ hwoobjs
    have hnodperm : ((w :: ws).map WordObj.id).Perm
        ((ch.wo :: (w :: ws).eraseIdx ch.idx).map WordObj.id) := hperm.map _
    have hnod2 := hnodperm.nodup_iff.mp hnod
    rw [List.map_cons] at hnod2
    obtain ⟨hchnotin, hnodrem2⟩ := List.nodup_cons.mp hnod2
    have hwoid : ∀ wo2 ∈ (w :: ws).eraseIdx ch.idx, ch.wo.id ≠ wo2.id := by
      intro wo2 hwo2 heqid
      exact hchnotin (heqid ▸ List.mem_map_of_mem WordObj.id hwo2)
    have hsub2 : ∀ wo ∈ (w :: ws).eraseIdx ch.idx, wo ∈ objs := by
      intro wo hwo
      exact hsub _ (hperm.mem_iff.mpr (List.mem_cons_of_mem _ hwo))
    have hrest : ∀ s : SState, SInv ctx objs s →
        CurIds objs ((w :: ws).eraseIdx ch.idx) s.cur →
        SPost ctx objs s (next ((w :: ws).eraseIdx ch.idx) s) :=
      fun s hs hcs => hnext _ s hsub2 hnodrem2 hcs hs
    have hids2 : CurIds objs (ch.wo :: (w :: ws).eraseIdx ch.idx) st3.cur := by
      obtain ⟨h1, h2, h3⟩ := hids
      refine ⟨?_, ?_, h3⟩
      · intro e he wo2 hwo2
        exact h1 e he wo2 (hperm.mem_iff.mpr hwo2)
      · intro wo2 hwo2
        rcases h2 wo2 hwo2 with h | h
        · exact Or.inl h
        · exact Or.inr (hperm.mem_iff.mp h)
    have hpost := tryPlacements_spec ctx objs
      (fun s => next ((w :: ws).eraseIdx ch.idx) s)
      ch.wo ((w :: ws).eraseIdx ch.idx) hctx hword hwoobjs hwoid hrest
      ch.plist
      { st3 with rng := (chooseLoop ctx st3.grid (w :: ws) 0 none st3.rng).2.1,
                 enums := st3.enums +
                   (chooseLoop ctx st3.grid (w :: ws) 0 none st3.rng).2.2 }
      (fun p hp => hplistfacts p hp)
      ⟨hinv3.1, hinv3.2.1, hinv3.2.2.1, hinv3.2.2.2.1, hinv3.2.2.2.2⟩
      hids2
    exact SPost_chain rfl rfl rfl hpost

/-- The master invariant of `search`: it preserves the state invariant and
restores the grid, the committed placements and the intersection count. -/
theorem searchAux_master (ctx : Ctx) (objs : List WordObj)
    (hctx : CtxOk ctx)
    (hobjs : ∀ wo ∈ objs, wo.word ∈ ctx.cleanWords)
    (hnodid : (objs.map WordObj.id).Nodup) :
    ∀ (fuel : Nat) (remaining : List WordObj) (st : SState),
    (∀ wo ∈ remaining, wo ∈ objs) →
    (remaining.map WordObj.id).Nodup →
    CurIds objs remaining st.cur →
    SInv ctx objs st →
    SPost ctx objs st (searchAux ctx fuel remaining st) := by
  intro fuel
  induction fuel with
  | zero =>
    intro remaining st _ _ _ hinv
    exact ⟨hinv, rfl, rfl, rfl⟩
  | succ f ih =>
    intro remaining st0 hsub hnod hids hinv
    by_cases hcan : st0.cancelled = true
    case pos =>
      rw [show searchAux ctx (f + 1) remaining st0 = st0 from by
        simp only [searchAux]
        rw [if_pos hcan]]
      exact ⟨hinv, rfl, rfl, rfl⟩
    case neg =>
      obtain ⟨rg, rc, rci, rit, rcan, rbest, rprog, ren, rne, rpart⟩ :=
        recordPartial_spec ctx st0 hctx.1 hinv.1 hinv.2.1 hinv.2.2.1 hinv.2.2.2.2
      have hinv1 : SInv ctx objs (recordPartial ctx st0) := by
        refine ⟨?_, ?_, ?_, ?_, rpart⟩
        · show GridShape ctx.W ctx.H (recordPartial ctx st0).grid
          rw [rg]
          exact hinv.1
        · show GridLetters ctx.allowed (recordPartial ctx st0).grid
          rw [rg]
          exact hinv.2.1
        · show CurOk ctx (recordPartial ctx st0).grid (recordPartial ctx st0).cur
          rw [rg, rc]
          exact hinv.2.2.1
        · intro b hb
          rw [rbest] at hb
          exact hinv.2.2.2.1 b hb
      simp only [searchAux]
      rw [if_neg hcan]
      split
      case isTrue hover =>
        exact ⟨⟨hinv1.1, hinv1.2.1, hinv1.2.2.1, hinv1.2.2.2.1, hinv1.2.2.2.2⟩,
          rg, rc, rci⟩
      case isFalse hover =>
        obtain ⟨pg, pc, pci, pit, pcan, pbest, pbp, prng, pen⟩ := progStep_fields ctx
          { recordPartial ctx st0 with iters := (recordPartial ctx st0).iters + 1 }
          (recordPartial ctx st0).iters
        have h3g : (progStep ctx
            { recordPartial ctx st0 with iters := (recordPartial ctx st0).iters + 1 }
            (recordPartial ctx st0).iters).grid = st0.grid := pg.trans rg
        have h3c : (progStep ctx
            { recordPartial ctx st0 with iters := (recordPartial ctx st0).iters + 1 }
            (recordPartial ctx st0).iters).cur = st0.cur := pc.trans rc
        have h3ci : (progStep ctx
            { recordPartial ctx st0 with iters := (recordPartial ctx st0).iters + 1 }
            (recordPartial ctx st0).iters).curInter = st0.curInter := pci.trans rci
        have hinv3 : SInv ctx objs (progStep ctx
            { recordPartial ctx st0 with iters := (recordPartial ctx st0).iters + 1 }
            (recordPartial ctx st0).iters) := by
          refine ⟨?_, ?_, ?_, ?_, ?_⟩
          · show GridShape ctx.W ctx.H _
            rw [h3g]
            exact hinv.1
          · show GridLetters ctx.allowed _
            rw [h3g]
            exact hinv.2.1
          · show CurOk ctx _ _
            rw [h3g, h3c]
            exact hinv.2.2.1
          · intro b hb
            rw [pbest] at hb
            exact hinv1.2.2.2.1 b hb
          · intro q hq
            rw [pbp] at hq
            exact hinv1.2.2.2.2 q hq
        match remaining, hsub, hnod, hids with
        | [], hsub, hnod, hids =>
          have hcov : ∀ wo ∈ objs, ∃ e ∈ (progStep ctx
              { recordPartial ctx st0 with
                iters := (recordPartial ctx st0).iters + 1 }
              (recordPartial ctx st0).iters).cur, e.1 = wo.id := by
            intro wo hwo
            rcases hids.2.1 wo hwo with h | h
            · rw [h3c]
              exact h
            · exact absurd h (List.not_mem_nil wo)
          have hcw : ∀ e ∈ (progStep ctx
              { recordPartial ctx st0 with
                iters := (recordPartial ctx st0).iters + 1 }
              (recordPartial ctx st0).iters).cur,
              ∃ wo ∈ objs, e.1 = wo.id ∧ e.2.word = wo.word := by
            rw [h3c]
            exact hids.2.2
          exact SPost_chain h3g h3c h3ci
            (termStep_spec ctx objs _ hnodid hinv3 hcov hcw)
        | w :: ws, hsub, hnod, hids =>
          dsimp only
          have hidsP : CurIds objs (w :: ws) (progStep ctx
              { recordPartial ctx st0 with
                iters := (recordPartial ctx st0).iters + 1 }
              (recordPartial ctx st0).iters).cur := by
            rw [h3c]
            exact hids
          exact SPost_chain h3g h3c h3ci
            (searchCons_spec ctx objs hctx hobjs (searchAux ctx f)
              (fun rem s hs hn hc hi => ih rem s hs hn hc hi)
              w ws _ hsub hnod hidsP hinv3)

/-! ## Facts about the effective allowed letter set and the word objects -/

theorem insertUnique_mem_self (l : List Char) (c : Char) : c ∈ insertUnique l c := by
  unfold insertUnique
  split
  · assumption
  · simp

theorem insertUnique_mem_mono (l : List Char) (c x : Char) (h : x ∈ l) :
    x ∈ insertUnique l c := by
  unfold insertUnique
  split
  · exact h
  · exact List.mem_append_left _ h

theorem charFold_mono (w : Str) : ∀ (s : List Char) (x : Char), x ∈ s →
    x ∈ w.foldl insertUnique s := by
  induction w with
  | nil => intro s x h; exact h
  | cons c cs ih =>
    intro s x h
    exact ih _ x (insertUnique_mem_mono s c x h)

theorem charFold_mem (w : Str) : ∀ (s : List Char) (ch : Char), ch ∈ w →
    ch ∈ w.foldl insertUnique s := by
  induction w with
  | nil => intro s ch h; exact absurd h (List.not_mem_nil ch)
  | cons c cs ih =>
    intro s ch h
    rcases List.mem_cons.mp h with rfl | h'
    · exact charFold_mono cs _ ch (insertUnique_mem_self s ch)
    · exact ih _ ch h'

theorem wordsFold_mono (l : List Str) : ∀ (init : List Char) (x : Char),
    x ∈ init → x ∈ l.foldl (fun s w => w.foldl insertUnique s) init := by
  induction l with
  | nil => intro init x h; exact h
  | cons v vs ih =>
    intro init x h
    rw [List.foldl_cons]
    exact ih _ x (charFold_mono v init x h)

theorem wordsFold_mem (l : List Str) : ∀ (init : List Char) (w : Str) (ch : Char),
    w ∈ l → ch ∈ w →
    ch ∈ l.foldl (fun s w => w.foldl insertUnique s) init := by
  induction l with
  | nil => intro init w ch hw _; exact absurd hw (List.not_mem_nil w)
  | cons v vs ih =>
    intro init w ch hw hch
    rcases List.mem_cons.mp hw with rfl | hw'
    · rw [List.foldl_cons]
      exact wordsFold_mono vs _ ch (charFold_mem w init ch hch)
    · rw [List.foldl_cons]
      exact ih _ w ch hw' hch

/-- Every letter of every normalized word is in the effective allowed set. -/
theorem word_letters_allowed (lettersArr wordsArr : List Str) :
    ∀ w ∈ wordsArr, ∀ ch ∈ w, ch ∈ normalizeAndExpandLetters lettersArr wordsArr := by
  intro w hw ch hch
  unfold normalizeAndExpandLetters
  exact wordsFold_mem wordsArr _ w ch hw hch

/-- Normalized words are never empty strings. -/
theorem cleanWords_ne_nil (words : List Str) : ∀ w ∈ cleanWordsOf words, w ≠ [] := by
  intro w hw
  unfold cleanWordsOf at hw
  have := (List.mem_filter.mp hw).2
  intro hnil
  subst hnil
  simp at this

/-- With at least one normalized word the allowed set is non-empty. -/
theorem allowed_ne_nil_of_words (lettersArr : List Str) {words : List Str}
    {w : Str} (hw : w ∈ cleanWordsOf words) :
    normalizeAndExpandLetters lettersArr (cleanWordsOf words) ≠ [] := by
  have hne := cleanWords_ne_nil words w hw
  obtain ⟨c, hc⟩ : ∃ c, c ∈ w := by
    cases w with
    | nil => exact absurd rfl hne
    | cons c cs => exact ⟨c, List.mem_cons_self _ _⟩
  intro hnil
  have := word_letters_allowed lettersArr (cleanWordsOf words) w hw c hc
  rw [hnil] at this
  exact List.not_mem_nil c this

theorem mkWordObjs_ids_nodup (cw : List Str) :
    ((mkWordObjs cw).map WordObj.id).Nodup := by
  have hperm : (mkWordObjs cw).Perm (cw.enum.map fun e => ⟨e.1, e.2⟩) :=
    stableSort_perm _ _
  have hmapperm := hperm.map WordObj.id
  refine hmapperm.nodup_iff.mpr ?_
  rw [List.map_map]
  have : ((fun (wo : WordObj) => wo.id) ∘ fun (e : Nat × Str) => (⟨e.1, e.2⟩ : WordObj)) =
      Prod.fst := by
    funext e
    rfl
  rw [this]
  exact List.nodup_enum_map_fst cw

theorem mkWordObjs_words (cw : List Str) :
    ∀ wo ∈ mkWordObjs cw, wo.word ∈ cw := by
  intro wo hwo
  rw [mkWordObjs, stableSort_mem] at hwo
  obtain ⟨e, he, heq⟩ := List.mem_map.mp hwo
  have hsnd : e.2 ∈ cw := by
    have := List.mem_enum_iff_get?.mp he
    exact List.get?_mem this
  rw [← heq]
  exact hsnd

theorem gridLetters_replicate (A : List Char) (W H : Nat) :
    GridLetters A (List.replicate H (List.replicate W none)) := by
  intro row hrow cell hcell ch hch
  have hrw := List.eq_of_mem_replicate hrow
  rw [hrw] at hcell
  have := List.eq_of_mem_replicate hcell
  rw [this] at hch
  cases hch

theorem dedupKeepFirst_mono (l : List Str) :
    ∀ (acc : List Str) (x : Str), x ∈ acc →
    x ∈ l.foldl (fun acc w => if w ∈ acc then acc else acc ++ [w]) acc := by
  induction l with
  | nil => intro acc x h; exact h
  | cons w ws ih =>
    intro acc x h
    rw [List.foldl_cons]
    refine ih _ x ?_
    split
    · exact h
    · exact List.mem_append_left _ h

theorem mem_dedupKeepFirst_aux :
    ∀ (l : List Str) (acc : List Str) (x : Str), x ∈ l →
    x ∈ l.foldl (fun acc w => if w ∈ acc then acc else acc ++ [w]) acc := by
  intro l
  induction l with
  | nil => intro acc x hx; exact absurd hx (List.not_mem_nil x)
  | cons w ws ih =>
    intro acc x hx
    rw [List.foldl_cons]
    rcases List.mem_cons.mp hx with rfl | hx2
    · refine dedupKeepFirst_mono ws _ x ?_
      split
      · assumption
      · exact List.mem_append_right _ (List.mem_singleton.mpr rfl)
    · exact ih _ x hx2

theorem mem_dedupKeepFirst {l : List Str} {x : Str} (h : x ∈ l) :
    x ∈ dedupKeepFirst l := by
  unfold dedupKeepFirst
  exact mem_dedupKeepFirst_aux l [] x h

/-- The well-formedness facts of every normally returned result: the grid
is `height` rows of `width` letters from the allowed set, every placement
entry spells its word in the returned grid, and a complete (`partial =
false`) result realizes every unique word's multiplicity exactly. -/
theorem gen_ok_facts (words letters : List Str) (width height : Int)
    (options : GenOptions) (ext : Nat → U01) (res : GenResult)
    (hres : (generateWordSearchGrid words letters width height options ext).result =
      .ok res) :
    (res.grid.length = height.toNat ∧
     (∀ s ∈ res.grid, s.length = width.toNat) ∧
     (∀ s ∈ res.grid, ∀ ch ∈ s,
       ch ∈ normalizeAndExpandLetters letters (cleanWordsOf words))) ∧
    (∀ pl ∈ res.placements,
      placementSpells width.toNat height.toNat res.grid pl) ∧
    (res.isPartial = some false →
      ∀ w ∈ cleanWordsOf words,
        countRows width.toNat height.toNat res.grid w =
          (cleanWordsOf words).count w) ∧
    (res.isPartial = none → cleanWordsOf words = []) := by
  by_cases hd : width ≤ 0 ∨ height ≤ 0
  case pos =>
    simp only [generateWordSearchGrid, if_pos hd] at hres
    cases hres
  case neg =>
  by_cases hcw : (cleanWordsOf words).isEmpty = true
  case pos =>
    by_cases hal : (normalizeAndExpandLetters letters (cleanWordsOf words)).isEmpty = true
    case pos =>
      simp only [generateWordSearchGrid, if_neg hd, hcw, if_true, hal] at hres
      cases hres
    case neg =>
      simp only [generateWordSearchGrid, if_neg hd, hcw, if_true, hal,
        Bool.false_eq_true, if_false] at hres
      injection hres with h
      subst h
      have hne : normalizeAndExpandLetters letters (cleanWordsOf words) ≠ [] := by
        rw [Bool.not_eq_true, List.isEmpty_eq_false] at hal
        exact hal
      refine ⟨⟨randomRows_length _ _ _ _, ?_, ?_⟩, ?_, ?_, ?_⟩
      · intro s hs
        exact (randomRows_shape_mem _ _ _ _ hne s hs).1
      · intro s hs
        exact (randomRows_shape_mem _ _ _ _ hne s hs).2
      · intro pl hpl
        exact absurd hpl (List.not_mem_nil pl)
      · intro hpf
        cases hpf
      · intro _
        exact List.isEmpty_iff.mp hcw
  case neg =>
  by_cases hlong : max width.toNat height.toNat <
      ((cleanWordsOf words).map List.length).foldl max 0
  case pos =>
    simp only [generateWordSearchGrid, if_neg hd, hcw, Bool.false_eq_true, if_false,
      if_pos hlong] at hres
    cases hres
  case neg =>
    simp only [generateWordSearchGrid, if_neg hd, hcw, Bool.false_eq_true, if_false,
      if_neg hlong] at hres
    have hcwne : cleanWordsOf words ≠ [] := by
      rw [Bool.not_eq_true, List.isEmpty_eq_false] at hcw
      exact hcw
    obtain ⟨w0, hw0⟩ : ∃ w0, w0 ∈ cleanWordsOf words := by
      cases hm : cleanWordsOf words with
      | nil => exact absurd hm hcwne
      | cons a l => exact ⟨a, List.mem_cons_self _ _⟩
    have hctx : CtxOk ⟨width.toNat, height.toNat, cleanWordsOf words,
        normalizeAndExpandLetters letters (cleanWordsOf words),
        options.tieBreaker == some .center, options.maxIterations.getD 50000⟩ :=
      ⟨allowed_ne_nil_of_words letters hw0,
        word_letters_allowed letters (cleanWordsOf words)⟩
    have hobjs : ∀ wo ∈ mkWordObjs (cleanWordsOf words),
        wo.word ∈ cleanWordsOf words := mkWordObjs_words _
    have hnodid := mkWordObjs_ids_nodup (cleanWordsOf words)
    have hids0 : CurIds (mkWordObjs (cleanWordsOf words))
        (mkWordObjs (cleanWordsOf words))
        (initState width.toNat height.toNat (makeRNG options.seed ext)).cur :=
      ⟨fun e he => absurd he (List.not_mem_nil e),
       fun wo hwo => Or.inr hwo,
       fun e he => absurd he (List.not_mem_nil e)⟩
    have hinv0 : SInv ⟨width.toNat, height.toNat, cleanWordsOf words,
        normalizeAndExpandLetters letters (cleanWordsOf words),
        options.tieBreaker == some .center, options.maxIterations.getD 50000⟩
        (mkWordObjs (cleanWordsOf words))
        (initState width.toNat height.toNat (makeRNG options.seed ext)) := by
      refine ⟨gridShape_replicate _ _, gridLetters_replicate _ _ _, ?_, ?_, ?_⟩
      · intro e he
        exact absurd he (List.not_mem_nil e)
      · intro b hb
        cases hb
      · intro p hp
        cases hp
    have hpost := searchAux_master _ _ hctx hobjs hnodid
      ((mkWordObjs (cleanWordsOf words)).length + 1)
      (mkWordObjs (cleanWordsOf words))
      (initState width.toNat height.toNat (makeRNG options.seed ext))
      (fun wo hwo => hwo) hnodid hids0 hinv0
    obtain ⟨hinvF, -, -, -⟩ := hpost
    simp only [genAfterSearch] at hres
    rcases hb : (searchAux ⟨width.toNat, height.toNat, cleanWordsOf words,
        normalizeAndExpandLetters letters (cleanWordsOf words),
        options.tieBreaker == some .center, options.maxIterations.getD 50000⟩
        ((mkWordObjs (cleanWordsOf words)).length + 1)
        (mkWordObjs (cleanWordsOf words))
        (initState width.toNat height.toNat (makeRNG options.seed ext))).best
      with _ | b
    case some =>
      rw [hb] at hres
      dsimp only at hres
      injection hres with h
      subst h
      obtain ⟨hrows, hspl, hcnt, hcov, hwm⟩ := hinvF.2.2.2.1 b hb
      refine ⟨⟨hrows.1, hrows.2.1, hrows.2.2⟩, ?_, ?_, ?_⟩
      · intro pl hpl
        obtain ⟨wo, hwo, heq⟩ := List.mem_map.mp hpl
        obtain ⟨e, he, heid⟩ := hcov wo hwo
        have hfind : (b.placs.find? fun e2 => e2.1 == wo.id).isSome :=
          List.find?_isSome.mpr ⟨e, he, beq_iff_eq.mpr heid⟩
        obtain ⟨e0, he0⟩ := Option.isSome_iff_exists.mp hfind
        have he0mem := List.mem_of_find?_eq_some he0
        have he0p := List.find?_some he0
        have he0id : e0.1 = wo.id := by simpa using he0p
        have hlook : lookupId b.placs wo.id = some e0.2 := by
          unfold lookupId
          rw [he0]
          rfl
        have hword : e0.2.word = wo.word := hwm e0 he0mem wo hwo he0id
        have hplval : pl = PlcOut.mk e0.2.word e0.2.row e0.2.col e0.2.dir := by
          rw [← heq]
          rw [hlook]
          simp only [Option.getD_some]
          rw [hword]
        rw [hplval]
        exact hspl e0 he0mem
      · intro _ w hw
        exact hcnt w (mem_dedupKeepFirst hw)
      · intro h
        simp at h
    case none =>
      rw [hb] at hres
      dsimp only at hres
      rcases hbp : (searchAux ⟨width.toNat, height.toNat, cleanWordsOf words,
          normalizeAndExpandLetters letters (cleanWordsOf words),
          options.tieBreaker == some .center, options.maxIterations.getD 50000⟩
          ((mkWordObjs (cleanWordsOf words)).length + 1)
          (mkWordObjs (cleanWordsOf words))
          (initState width.toNat height.toNat (makeRNG options.seed ext))).bestPartial
        with _ | bp
      case none =>
        rw [hbp] at hres
        cases hres
      case some =>
        rw [hbp] at hres
        dsimp only at hres
        injection hres with h
        subst h
        obtain ⟨hrows, hspl⟩ := hinvF.2.2.2.2 bp hbp
        refine ⟨⟨hrows.1, hrows.2.1, hrows.2.2⟩, ?_, ?_, ?_⟩
        · intro pl hpl
          obtain ⟨e, he, heq⟩ := List.mem_map.mp hpl
          rw [← heq]
          exact hspl e he
        · intro hpf
          cases hpf
        · intro h
          simp at h

/-- C2: every call to `generateWordSearchGrid` that returns without
throwing yields a grid of exactly `height` strings of exactly `width`
characters, every character a member of the effective allowed letter set
(single-character caller letters plus all letters of the normalized
words). -/
theorem returned_grid_well_formed (words letters : List Str) (width height : Int)
    (options : GenOptions) (ext : Nat → U01) (res : GenResult)
    (hres : (generateWordSearchGrid words letters width height options ext).result =
      .ok res) :
    res.grid.length = height.toNat ∧
    (∀ s ∈ res.grid, s.length = width.toNat) ∧
    (∀ s ∈ res.grid, ∀ ch ∈ s,
      ch ∈ normalizeAndExpandLetters letters (cleanWordsOf words)) :=
  (gen_ok_facts words letters width height options ext res hres).1

/-- Witness for C2: a seeded `1 × 1` call with the single word `"A"`. -/
theorem returned_grid_well_formed_witness :
    ((generateWordSearchGrid [['A']] [] 1 1 { seed := some (Seed.num 1) }
        extZero).result = .ok ⟨[['A']], [⟨['A'], 0, 0, Dir.H⟩], some false⟩) ∧
    (([['A']] : List Str).length = (1 : Int).toNat ∧
     (∀ s ∈ ([['A']] : List Str), s.length = (1 : Int).toNat) ∧
     (∀ s ∈ ([['A']] : List Str), ∀ ch ∈ s,
       ch ∈ normalizeAndExpandLetters [] (cleanWordsOf [['A']]))) :=
  ⟨by decide,
   returned_grid_well_formed [['A']] [] 1 1 { seed := some (Seed.num 1) } extZero
     ⟨[['A']], [⟨['A'], 0, 0, Dir.H⟩], some false⟩ (by decide)⟩

/-- C3: every entry of the returned `placements` list (on both the complete
and the partial path) is in bounds, and reading the returned grid from its
start cell in its direction spells exactly its word. -/
theorem placements_spell_their_words (words letters : List Str) (width height : Int)
    (options : GenOptions) (ext : Nat → U01) (res : GenResult)
    (hres : (generateWordSearchGrid words letters width height options ext).result =
      .ok res) :
    ∀ pl ∈ res.placements,
      placementSpells width.toNat height.toNat res.grid pl :=
  (gen_ok_facts words letters width height options ext res hres).2.1

/-- Witness for C3: a seeded `1 × 2` call placing the word `"AB"`
vertically. -/
theorem placements_spell_their_words_witness :
    ((generateWordSearchGrid [['A', 'B']] [] 1 2 { seed := some (Seed.num 1) }
        extZero).result =
      .ok ⟨[['A'], ['B']], [⟨['A', 'B'], 0, 0, Dir.V⟩], some false⟩) ∧
    (∀ pl ∈ [(⟨['A', 'B'], 0, 0, Dir.V⟩ : PlcOut)],
      placementSpells (1 : Int).toNat (2 : Int).toNat [['A'], ['B']] pl) := by
  refine ⟨by decide, ?_⟩
  have h := placements_spell_their_words [['A', 'B']] [] 1 2
    { seed := some (Seed.num 1) } extZero
    ⟨[['A'], ['B']], [⟨['A', 'B'], 0, 0, Dir.V⟩], some false⟩ (by decide)
  exact h

/-- C1: whenever the returned result's `partial` flag is absent or `false`,
every unique normalized word text occurs in the returned grid exactly as
many times (forward horizontal plus forward vertical matches) as its
multiplicity in the normalized input word list. -/
theorem complete_result_counts_exact (words letters : List Str) (width height : Int)
    (options : GenOptions) (ext : Nat → U01) (res : GenResult)
    (hres : (generateWordSearchGrid words letters width height options ext).result =
      .ok res)
    (hpf : res.isPartial = none ∨ res.isPartial = some false) :
    ∀ w ∈ cleanWordsOf words,
      countRows width.toNat height.toNat res.grid w = (cleanWordsOf words).count w := by
  obtain ⟨-, -, hcnt, hnone⟩ := gen_ok_facts words letters width height options ext res hres
  rcases hpf with h | h
  · intro w hw
    rw [hnone h] at hw
    exact absurd hw (List.not_mem_nil w)
  · exact hcnt h

/-- Witness for C1: a seeded `2 × 1` call with the single word `"AB"`,
which occurs exactly once in the returned row. -/
theorem complete_result_counts_exact_witness :
    ((generateWordSearchGrid [['A', 'B']] [] 2 1
        { seed := some (Seed.num 1) } extZero).result =
      .ok ⟨[['A', 'B']], [⟨['A', 'B'], 0, 0, Dir.H⟩], some false⟩) ∧
    ((some false : Option Bool) = none ∨ (some false : Option Bool) = some false) ∧
    (∀ w ∈ cleanWordsOf [['A', 'B']],
      countRows (2 : Int).toNat (1 : Int).toNat [['A', 'B']] w =
        (cleanWordsOf [['A', 'B']]).count w) := by
  refine ⟨by decide, Or.inr rfl, ?_⟩
  have h := complete_result_counts_exact [['A', 'B']] [] 2 1
    { seed := some (Seed.num 1) } extZero
    ⟨[['A', 'B']], [⟨['A', 'B'], 0, 0, Dir.H⟩], some false⟩
    (by decide) (Or.inr rfl)
  exact h

/-! ## The progress trace (C9) -/

theorem PStep_refl (ctx : Ctx) (s : SState) : PStep ctx s s :=
  ⟨Nat.le_refl _, fun h => h⟩

theorem PStep_trans {ctx : Ctx} {a b c : SState}
    (h1 : PStep ctx a b) (h2 : PStep ctx b c) : PStep ctx a c :=
  ⟨h1.1.trans h2.1, fun h => h2.2 (h1.2 h)⟩

theorem ProgOk_congr {ctx : Ctx} {s t : SState} (hp : t.prog = s.prog)
    (hi : s.iters ≤ t.iters) (h : ProgOk ctx s) : ProgOk ctx t := by
  obtain ⟨ks, h1, h2, h3⟩ := h
  exact ⟨ks, hp.trans h1, h2, fun k hk =>
    ⟨(h3 k hk).1, (h3 k hk).2.1, (h3 k hk).2.2.1.trans hi, (h3 k hk).2.2.2⟩⟩

theorem PStep_of_eq {ctx : Ctx} {s t : SState} (hp : t.prog = s.prog)
    (hi : t.iters = s.iters) : PStep ctx s t :=
  ⟨hi.ge, fun h => ProgOk_congr hp hi.ge h⟩

/-- `recordPartial` never touches the iteration counter or the trace. -/
theorem recordPartial_pi (ctx : Ctx) (st : SState) :
    (recordPartial ctx st).iters = st.iters ∧
    (recordPartial ctx st).prog = st.prog := by
  rcases hsn : snapshotRows ctx.allowed st.grid st.rng with ⟨rows, rng1⟩
  unfold recordPartial
  dsimp only
  rw [hsn]
  split
  · exact ⟨rfl, rfl⟩
  · exact ⟨rfl, rfl⟩

/-- The terminal step never touches the iteration counter or the trace. -/
theorem termStep_pi (ctx : Ctx) (st : SState) :
    (termStep ctx st).iters = st.iters ∧ (termStep ctx st).prog = st.prog := by
  unfold termStep
  split
  · dsimp only
    split
    · exact ⟨rfl, rfl⟩
    · exact ⟨rfl, rfl⟩
  · exact ⟨rfl, rfl⟩

/-- The placement loop only moves the counter/trace via the continuation. -/
theorem tryPlacements_prog (ctx : Ctx) (searchRest : SState → SState)
    (wo : WordObj)
    (hrest : ∀ s : SState, PStep ctx s (searchRest s)) :
    ∀ (plist : List Plc) (st : SState),
    PStep ctx st (tryPlacements ctx searchRest wo plist st) := by
  intro plist
  induction plist with
  | nil =>
    intro st
    simp only [tryPlacements]
    exact PStep_refl ctx st
  | cons p ps ih =>
    intro st
    by_cases hcan : st.cancelled = true
    case pos =>
      rw [show tryPlacements ctx searchRest wo (p :: ps) st = st from by
        simp only [tryPlacements]
        rw [if_pos hcan]]
      exact PStep_refl ctx st
    case neg =>
      have h01 : PStep ctx st ({ st with
          grid := (placeWord st.grid wo.word p.row p.col p.dir).1,
          cur := st.cur ++ [(wo.id, ⟨wo.word, p.row, p.col, p.dir, p.score⟩)],
          curInter := st.curInter + p.score } : SState) := PStep_of_eq rfl rfl
      have h12 : PStep ctx ({ st with
          grid := (placeWord st.grid wo.word p.row p.col p.dir).1,
          cur := st.cur ++ [(wo.id, ⟨wo.word, p.row, p.col, p.dir, p.score⟩)],
          curInter := st.curInter + p.score } : SState)
          (if countsWithinLimits ctx (placeWord st.grid wo.word p.row p.col p.dir).1
            then searchRest { st with
              grid := (placeWord st.grid wo.word p.row p.col p.dir).1,
              cur := st.cur ++ [(wo.id, ⟨wo.word, p.row, p.col, p.dir, p.score⟩)],
              curInter := st.curInter + p.score }
            else { st with
              grid := (placeWord st.grid wo.word p.row p.col p.dir).1,
              cur := st.cur ++ [(wo.id, ⟨wo.word, p.row, p.col, p.dir, p.score⟩)],
              curInter := st.curInter + p.score }) := by
        split
        · exact hrest _
        · exact PStep_refl ctx _
      set stm := if countsWithinLimits ctx (placeWord st.grid wo.word p.row p.col p.dir).1
          then searchRest { st with
            grid := (placeWord st.grid wo.word p.row p.col p.dir).1,
            cur := st.cur ++ [(wo.id, ⟨wo.word, p.row, p.col, p.dir, p.score⟩)],
            curInter := st.curInter + p.score }
          else { st with
            grid := (placeWord st.grid wo.word p.row p.col p.dir).1,
            cur := st.cur ++ [(wo.id, ⟨wo.word, p.row, p.col, p.dir, p.score⟩)],
            curInter := st.curInter + p.score } with hstm
      have h23 : PStep ctx stm ({ stm with
          curInter := stm.curInter - p.score,
          cur := stm.cur.eraseP (fun e => e.1 == wo.id),
          grid := undoCells stm.grid
            (placeWord st.grid wo.word p.row p.col p.dir).2 } : SState) :=
        PStep_of_eq rfl rfl
      have h03 := PStep_trans (PStep_trans h01 h12) h23
      have hred : tryPlacements ctx searchRest wo (p :: ps) st =
          if ({ stm with
              curInter := stm.curInter - p.score,
              cur := stm.cur.eraseP (fun e => e.1 == wo.id),
              grid := undoCells stm.grid
                (placeWord st.grid wo.word p.row p.col p.dir).2 } : SState).cancelled
          then { stm with
              curInter := stm.curInter - p.score,
              cur := stm.cur.eraseP (fun e => e.1 == wo.id),
              grid := undoCells stm.grid
                (placeWord st.grid wo.word p.row p.col p.dir).2 }
          else tryPlacements ctx searchRest wo ps { stm with
              curInter := stm.curInter - p.score,
              cur := stm.cur.eraseP (fun e => e.1 == wo.id),
              grid := undoCells stm.grid
                (placeWord st.grid wo.word p.row p.col p.dir).2 } := by
        simp only [tryPlacements]
        rw [if_neg hcan]
      rw [hred]
      split
      · exact h03
      · exact PStep_trans h03 (ih _)

/-- The search only ever appends in-range multiples of 1000 to the trace
and never decreases the iteration counter. -/
theorem searchAux_prog (ctx : Ctx) (hm : ctx.maxIter % 1000 ≠ 999) :
    ∀ (fuel : Nat) (remaining : List WordObj) (st : SState),
    PStep ctx st (searchAux ctx fuel remaining st) := by
  intro fuel
  induction fuel with
  | zero =>
    intro remaining st
    exact PStep_refl ctx st
  | succ f ih =>
    intro remaining st0
    by_cases hcan : st0.cancelled = true
    case pos =>
      rw [show searchAux ctx (f + 1) remaining st0 = st0 from by
        simp only [searchAux]
        rw [if_pos hcan]]
      exact PStep_refl ctx st0
    case neg =>
      obtain ⟨rit, rprog⟩ := recordPartial_pi ctx st0
      have h01 : PStep ctx st0 (recordPartial ctx st0) := PStep_of_eq rprog rit
      have h12 : PStep ctx (recordPartial ctx st0)
          ({ recordPartial ctx st0 with
            iters := (recordPartial ctx st0).iters + 1 } : SState) := by
        constructor
        · show (recordPartial ctx st0).iters ≤ (recordPartial ctx st0).iters + 1
          omega
        · intro h
          refine ProgOk_congr ?_ ?_ h
          · show ({ recordPartial ctx st0 with
              iters := (recordPartial ctx st0).iters + 1 } : SState).prog =
              (recordPartial ctx st0).prog
            rfl
          · show (recordPartial ctx st0).iters ≤ (recordPartial ctx st0).iters + 1
            omega
      simp only [searchAux]
      rw [if_neg hcan]
      split
      case isTrue hover =>
        exact PStep_trans (PStep_trans h01 h12) (PStep_of_eq rfl rfl)
      case isFalse hover =>
        have h13 : PStep ctx (recordPartial ctx st0)
            (progStep ctx
              { recordPartial ctx st0 with
                iters := (recordPartial ctx st0).iters + 1 }
              (recordPartial ctx st0).iters) := by
          unfold progStep
          split
          case isFalse =>
            constructor
            · show (recordPartial ctx st0).iters ≤ (recordPartial ctx st0).iters + 1
              omega
            · intro h
              refine ProgOk_congr ?_ ?_ h
              · show ({ recordPartial ctx st0 with
                  iters := (recordPartial ctx st0).iters + 1 } : SState).prog =
                  (recordPartial ctx st0).prog
                rfl
              · show (recordPartial ctx st0).iters ≤ (recordPartial ctx st0).iters + 1
                omega
          case isTrue hdiv =>
            constructor
            · show (recordPartial ctx st0).iters ≤ (recordPartial ctx st0).iters + 1
              omega
            · intro hok
              obtain ⟨ks, hp1, hp2, hp3⟩ := hok
              refine ⟨ks ++ [(recordPartial ctx st0).iters + 1], ?_, ?_, ?_⟩
              · show (recordPartial ctx st0).prog ++
                  [((recordPartial ctx st0).iters + 1 : ℚ) / (ctx.maxIter : ℚ)] = _
                rw [List.map_append, ← hp1]
                congr 1
                show _ = [progFrac ctx.maxIter ((recordPartial ctx st0).iters + 1)]
                unfold progFrac
                congr 1
                push_cast
                ring
              · rw [List.chain'_append]
                refine ⟨hp2, List.chain'_singleton _, ?_⟩
                intro x hx y hy
                simp only [List.head?_cons, Option.mem_def, Option.some.injEq] at hy
                subst hy
                have hxmem : x ∈ ks := List.mem_of_mem_getLast? hx
                have hxb : x ≤ (recordPartial ctx st0).iters := (hp3 x hxmem).2.2.1
                omega
              · intro k hk
                rcases List.mem_append.mp hk with hk2 | hk2
                · obtain ⟨d1, d2, d3, d4⟩ := hp3 k hk2
                  refine ⟨d1, d2, ?_, d4⟩
                  show k ≤ (recordPartial ctx st0).iters + 1
                  omega
                · rcases List.mem_singleton.mp hk2 with rfl
                  refine ⟨Nat.dvd_of_mod_eq_zero hdiv, Nat.succ_pos _, ?_, ?_⟩
                  · show (recordPartial ctx st0).iters + 1 ≤
                      (recordPartial ctx st0).iters + 1
                    omega
                  · by_contra hgt
                    push_neg at hgt
                    have heq2 : (recordPartial ctx st0).iters = ctx.maxIter := by omega
                    rw [heq2] at hdiv
                    omega
        have h03 := PStep_trans h01 h13
        match remaining with
        | [] =>
          obtain ⟨tit, tprog⟩ := termStep_pi ctx (progStep ctx
            { recordPartial ctx st0 with
              iters := (recordPartial ctx st0).iters + 1 }
            (recordPartial ctx st0).iters)
          exact PStep_trans h03 (PStep_of_eq tprog tit)
        | w :: ws =>
          dsimp only
          split
          case h_1 heq =>
            exact PStep_trans h03 (PStep_of_eq rfl rfl)
          case h_2 ch heq =>
            refine PStep_trans h03 ?_
            refine PStep_trans ?_
              (tryPlacements_prog ctx _ ch.wo (fun s => ih _ s) ch.plist _)
            exact PStep_of_eq rfl rfl

/-- After the search, the outcome's trace is the search trace with a final
`1` appended, and the search ran. -/
theorem genAfterSearch_pr (ctx : Ctx) (objs : List WordObj) (st : SState) :
    (genAfterSearch ctx objs st).prog = st.prog ++ [1] ∧
    (genAfterSearch ctx objs st).ranSearch = true := by
  unfold genAfterSearch
  rcases hb : st.best with _ | b
  · rcases hbp : st.bestPartial with _ | bp
    · exact ⟨rfl, rfl⟩
    · exact ⟨rfl, rfl⟩
  · exact ⟨rfl, rfl⟩

/-- C9 (amended): with a callback present and `maxIterations % 1000 ≠ 999`,
the delivered trace is empty when the search never ran (including the
no-words return path and all validation errors), and otherwise consists of
strictly increasing mid-search reports `k / maxIterations` — emitted only
at iteration counters `k` that are positive multiples of 1000 and at most
`maxIterations` — followed by a final report of exactly `1`; the whole
delivered sequence is non-decreasing with every value in `[0, 1]`. -/
theorem progress_trace_characterized (words letters : List Str) (width height : Int)
    (options : GenOptions) (ext : Nat → U01)
    (hon : options.onProgress = true)
    (hm : options.maxIterations.getD 50000 % 1000 ≠ 999) :
    ((generateWordSearchGrid words letters width height options ext).ranSearch = false →
      deliveredProgress options.onProgress
        (generateWordSearchGrid words letters width height options ext) = []) ∧
    ((generateWordSearchGrid words letters width height options ext).ranSearch = true →
      ∃ ks : List Nat,
        deliveredProgress options.onProgress
          (generateWordSearchGrid words letters width height options ext) =
          ks.map (progFrac (options.maxIterations.getD 50000)) ++ [1] ∧
        List.Chain' (· < ·) ks ∧
        (∀ k ∈ ks, 1000 ∣ k ∧ 0 < k ∧ k ≤ options.maxIterations.getD 50000) ∧
        List.Chain' (· ≤ ·) (deliveredProgress options.onProgress
          (generateWordSearchGrid words letters width height options ext)) ∧
        ∀ x ∈ deliveredProgress options.onProgress
          (generateWordSearchGrid words letters width height options ext),
          0 ≤ x ∧ x ≤ 1) := by
  have hdel : ∀ o : Outcome, deliveredProgress options.onProgress o = o.prog := by
    intro o
    unfold deliveredProgress
    rw [hon]
    simp
  by_cases hd : width ≤ 0 ∨ height ≤ 0
  case pos =>
    constructor
    · intro _
      rw [hdel]
      simp only [generateWordSearchGrid, if_pos hd]
    · intro h
      simp only [generateWordSearchGrid, if_pos hd] at h
      cases h
  case neg =>
  by_cases hcw : (cleanWordsOf words).isEmpty = true
  case pos =>
    by_cases hal : (normalizeAndExpandLetters letters (cleanWordsOf words)).isEmpty = true
    case pos =>
      constructor
      · intro _
        rw [hdel]
        simp only [generateWordSearchGrid, if_neg hd, hcw, if_true, hal]
      · intro h
        simp only [generateWordSearchGrid, if_neg hd, hcw, if_true, hal] at h
        cases h
    case neg =>
      constructor
      · intro _
        rw [hdel]
        simp only [generateWordSearchGrid, if_neg hd, hcw, if_true, hal,
          Bool.false_eq_true, if_false]
      · intro h
        simp only [generateWordSearchGrid, if_neg hd, hcw, if_true, hal,
          Bool.false_eq_true, if_false] at h
  case neg =>
  by_cases hlong : max width.toNat height.toNat <
      ((cleanWordsOf words).map List.length).foldl max 0
  case pos =>
    constructor
    · intro _
      rw [hdel]
      simp only [generateWordSearchGrid, if_neg hd, hcw, Bool.false_eq_true, if_false,
        if_pos hlong]
    · intro h
      simp only [generateWordSearchGrid, if_neg hd, hcw, Bool.false_eq_true, if_false,
        if_pos hlong] at h
  case neg =>
    have hgen : generateWordSearchGrid words letters width height options ext =
        genAfterSearch
          ⟨width.toNat, height.toNat, cleanWordsOf words,
            normalizeAndExpandLetters letters (cleanWordsOf words),
            options.tieBreaker == some .center, options.maxIterations.getD 50000⟩
          (mkWordObjs (cleanWordsOf words))
          (searchAux
            ⟨width.toNat, height.toNat, cleanWordsOf words,
              normalizeAndExpandLetters letters (cleanWordsOf words),
              options.tieBreaker == some .center, options.maxIterations.getD 50000⟩
            ((mkWordObjs (cleanWordsOf words)).length + 1)
            (mkWordObjs (cleanWordsOf words))
            (initState width.toNat height.toNat (makeRNG options.seed ext))) := by
      simp only [generateWordSearchGrid, if_neg hd, hcw, Bool.false_eq_true, if_false,
        if_neg hlong]
    obtain ⟨hprF, hrsF⟩ := genAfterSearch_pr
      ⟨width.toNat, height.toNat, cleanWordsOf words,
        normalizeAndExpandLetters letters (cleanWordsOf words),
        options.tieBreaker == some .center, options.maxIterations.getD 50000⟩
      (mkWordObjs (cleanWordsOf words))
      (searchAux
        ⟨width.toNat, height.toNat, cleanWordsOf words,
          normalizeAndExpandLetters letters (cleanWordsOf words),
          options.tieBreaker == some .center, options.maxIterations.getD 50000⟩
        ((mkWordObjs (cleanWordsOf words)).length + 1)
        (mkWordObjs (cleanWordsOf words))
        (initState width.toNat height.toNat (makeRNG options.seed ext)))
    have hinit : ProgOk
        ⟨width.toNat, height.toNat, cleanWordsOf words,
          normalizeAndExpandLetters letters (cleanWordsOf words),
          options.tieBreaker == some .center, options.maxIterations.getD 50000⟩
        (initState width.toNat height.toNat (makeRNG options.seed ext)) :=
      ⟨[], rfl, List.chain'_nil, fun k hk => absurd hk (List.not_mem_nil k)⟩
    obtain ⟨ks, hp1, hp2, hp3⟩ := (searchAux_prog
      ⟨width.toNat, height.toNat, cleanWordsOf words,
        normalizeAndExpandLetters letters (cleanWordsOf words),
        options.tieBreaker == some .center, options.maxIterations.getD 50000⟩
      hm ((mkWordObjs (cleanWordsOf words)).length + 1)
      (mkWordObjs (cleanWordsOf words))
      (initState width.toNat height.toNat (makeRNG options.seed ext))).2 hinit
    constructor
    · intro h
      rw [hgen, hrsF] at h
      cases h
    · intro _
      refine ⟨ks, ?_, hp2, ?_, ?_, ?_⟩
      · rw [hdel, hgen, hprF, hp1]
      · intro k hk
        exact ⟨(hp3 k hk).1, (hp3 k hk).2.1, (hp3 k hk).2.2.2⟩
      · rw [hdel, hgen, hprF, hp1]
        rw [List.chain'_append]
        refine ⟨?_, List.chain'_singleton _, ?_⟩
        · rw [List.chain'_map]
          refine List.Chain'.imp ?_ hp2
          intro a b hab
          show progFrac (options.maxIterations.getD 50000) a ≤
            progFrac (options.maxIterations.getD 50000) b
          unfold progFrac
          rcases Nat.eq_zero_or_pos (options.maxIterations.getD 50000) with hz | hpos
          · rw [hz]
            norm_num
          · rw [div_le_div_right (by exact_mod_cast hpos)]
            exact_mod_cast Nat.le_of_lt hab
        · intro x hx y hy
          simp only [List.head?_cons, Option.mem_def, Option.some.injEq] at hy
          subst hy
          have hxm := List.mem_of_mem_getLast? hx
          obtain ⟨k, hk, rfl⟩ := List.mem_map.mp hxm
          obtain ⟨-, hk0, -, hkM⟩ := hp3 k hk
          have hkM2 : k ≤ options.maxIterations.getD 50000 := hkM
          unfold progFrac
          rcases Nat.eq_zero_or_pos (options.maxIterations.getD 50000) with hz | hpos
          · exfalso
            omega
          · rw [div_le_one (by exact_mod_cast hpos)]
            exact_mod_cast hkM2
      · rw [hdel, hgen, hprF, hp1]
        intro x hx
        rcases List.mem_append.mp hx with hx' | hx'
        · obtain ⟨k, hk, rfl⟩ := List.mem_map.mp hx'
          obtain ⟨-, hk0, -, hkM⟩ := hp3 k hk
          have hkM2 : k ≤ options.maxIterations.getD 50000 := hkM
          unfold progFrac
          constructor
          · positivity
          · rcases Nat.eq_zero_or_pos (options.maxIterations.getD 50000) with hz | hpos
            · exfalso
              omega
            · rw [div_le_one (by exact_mod_cast hpos)]
              exact_mod_cast hkM2
        · rcases List.mem_singleton.mp hx' with rfl
          norm_num

/-- C9 counterexample: a call with an `onProgress` callback that terminates
normally through the no-words path invokes the callback not even once — in
particular no final report of `1` is delivered. -/
theorem progress_missing_final_report :
    deliveredProgress true
      (generateWordSearchGrid [] [['A']] 1 1 { onProgress := true } extZero) = [] ∧
    ∃ rows,
      (generateWordSearchGrid [] [['A']] 1 1 { onProgress := true } extZero).result =
        .ok ⟨rows, [], none⟩ := by
  have hd : ¬((1 : Int) ≤ 0 ∨ (1 : Int) ≤ 0) := by omega
  have hcw : (cleanWordsOf ([] : List Str)).isEmpty = true := by decide
  have hal : (normalizeAndExpandLetters [['A']] (cleanWordsOf [])).isEmpty = false := by
    decide
  constructor
  · simp only [deliveredProgress, generateWordSearchGrid, if_neg hd, hcw, if_true, hal,
      Bool.false_eq_true, if_false]
  · refine ⟨(randomRows (normalizeAndExpandLetters [['A']] (cleanWordsOf []))
      (Int.toNat 1) (makeRNG none extZero) (Int.toNat 1)).1, ?_⟩
    simp only [generateWordSearchGrid, if_neg hd, hcw, if_true, hal,
      Bool.false_eq_true, if_false]

/-- Witness for C9 (amended): `["A"]` on a `1 × 1` grid with seed `1` and an
`onProgress` callback. -/
theorem progress_trace_characterized_witness :
    (({ seed := some (Seed.num 1), onProgress := true } : GenOptions).onProgress = true ∧
      ({ seed := some (Seed.num 1), onProgress := true } : GenOptions).maxIterations.getD
        50000 % 1000 ≠ 999) ∧
    (((generateWordSearchGrid [['A']] [] 1 1
          { seed := some (Seed.num 1), onProgress := true } extZero).ranSearch = false →
        deliveredProgress
          ({ seed := some (Seed.num 1), onProgress := true } : GenOptions).onProgress
          (generateWordSearchGrid [['A']] [] 1 1
            { seed := some (Seed.num 1), onProgress := true } extZero) = []) ∧
      ((generateWordSearchGrid [['A']] [] 1 1
          { seed := some (Seed.num 1), onProgress := true } extZero).ranSearch = true →
        ∃ ks : List Nat,
          deliveredProgress
            ({ seed := some (Seed.num 1), onProgress := true } : GenOptions).onProgress
            (generateWordSearchGrid [['A']] [] 1 1
              { seed := some (Seed.num 1), onProgress := true } extZero) =
            ks.map (progFrac (({ seed := some (Seed.num 1), onProgress := true } :
              GenOptions).maxIterations.getD 50000)) ++ [1] ∧
          List.Chain' (· < ·) ks ∧
          (∀ k ∈ ks, 1000 ∣ k ∧ 0 < k ∧
            k ≤ ({ seed := some (Seed.num 1), onProgress := true } :
              GenOptions).maxIterations.getD 50000) ∧
          List.Chain' (· ≤ ·) (deliveredProgress
            ({ seed := some (Seed.num 1), onProgress := true } : GenOptions).onProgress
            (generateWordSearchGrid [['A']] [] 1 1
              { seed := some (Seed.num 1), onProgress := true } extZero)) ∧
          ∀ x ∈ deliveredProgress
            ({ seed := some (Seed.num 1), onProgress := true } : GenOptions).onProgress
            (generateWordSearchGrid [['A']] [] 1 1
              { seed := some (Seed.num 1), onProgress := true } extZero),
            0 ≤ x ∧ x ≤ 1)) :=
  ⟨⟨rfl, by decide⟩,
    progress_trace_characterized [['A']] [] 1 1
      { seed := some (Seed.num 1), onProgress := true } extZero rfl (by decide)⟩

/-- Witness for C5 (amended): `["AB"]` on a `2 × 2` grid with the zero
oracle. -/
theorem free_strategy_contract_witness :
    ((0 : Int) < 2 ∧ (0 : Int) < 2 ∧
      normalizeAndExpandLetters [] (cleanWordsOf [['A', 'B']]) ≠ []) ∧
    ∃ res, (generateFreeWordSearchGrid [['A', 'B']] [] 2 2 extZero).result = .ok res ∧
      res.placements.map PlcOut.word =
        (freeSortedWords (cleanWordsOf [['A', 'B']])).take res.placements.length ∧
      res.isPartial =
        decide (res.placements.length < (freeSortedWords (cleanWordsOf [['A', 'B']])).length) ∧
      (∀ pl ∈ res.placements, placementSpells (2 : Int).toNat (2 : Int).toNat res.grid pl) ∧
      ∃ gs : List Grid, ∃ us : List ℚ,
        gs.length = res.placements.length + 1 ∧
        us.length = res.placements.length ∧
        gs.getD 0 [] = List.replicate (2 : Int).toNat (List.replicate (2 : Int).toNat none) ∧
        (∀ i < res.placements.length,
          freePossible (2 : Int).toNat (2 : Int).toNat (gs.getD i [])
            ((freeSortedWords (cleanWordsOf [['A', 'B']])).getD i []) ≠ [] ∧
          0 ≤ us.getD i 0 ∧ us.getD i 0 < 1 ∧
          freeChoice (2 : Int).toNat (2 : Int).toNat (gs.getD i [])
              ((freeSortedWords (cleanWordsOf [['A', 'B']])).getD i []) (us.getD i 0) ∈
            freePossible (2 : Int).toNat (2 : Int).toNat (gs.getD i [])
              ((freeSortedWords (cleanWordsOf [['A', 'B']])).getD i []) ∧
          res.placements.getD i ⟨[], 0, 0, Dir.H⟩ =
            ⟨(freeSortedWords (cleanWordsOf [['A', 'B']])).getD i [],
              (freeChoice (2 : Int).toNat (2 : Int).toNat (gs.getD i [])
                ((freeSortedWords (cleanWordsOf [['A', 'B']])).getD i []) (us.getD i 0)).1,
              (freeChoice (2 : Int).toNat (2 : Int).toNat (gs.getD i [])
                ((freeSortedWords (cleanWordsOf [['A', 'B']])).getD i []) (us.getD i 0)).2.1,
              (freeChoice (2 : Int).toNat (2 : Int).toNat (gs.getD i [])
                ((freeSortedWords (cleanWordsOf [['A', 'B']])).getD i []) (us.getD i 0)).2.2⟩ ∧
          gs.getD (i + 1) [] = freeWrite (gs.getD i [])
            ((freeSortedWords (cleanWordsOf [['A', 'B']])).getD i [])
            (freeChoice (2 : Int).toNat (2 : Int).toNat (gs.getD i [])
              ((freeSortedWords (cleanWordsOf [['A', 'B']])).getD i []) (us.getD i 0))) ∧
        (res.placements.length < (freeSortedWords (cleanWordsOf [['A', 'B']])).length →
          freePossible (2 : Int).toNat (2 : Int).toNat (gs.getD res.placements.length [])
            ((freeSortedWords (cleanWordsOf [['A', 'B']])).getD res.placements.length []) =
            []) :=
  ⟨⟨by norm_num, by norm_num, by decide⟩,
    free_strategy_contract [['A', 'B']] [] 2 2 extZero (by norm_num) (by norm_num) (by decide)⟩

end WordSearch
